import Mathlib

/-!
# KGHCB chat-message renderer (`frontend/src/App.jsx`)

A shallow embedding of the message-to-document transform of the hospital chat
bot front end: `processActionableText`, `FormattedMessage` (with its local
`renderInline`) and `TableRenderer` (with its local `renderTable`).

Modelling conventions.

* A JavaScript string is a `List Char` (`Str`).  None of the regular
  expressions or string methods used by the source distinguishes a code point
  from its UTF-16 code units, so the list view is exact for the text the
  functions inspect.
* A regular expression is embedded as a backtracking matcher written in
  continuation-passing style: `lit`, `star`/`plus` (greedy) and
  `lazyStar`/`lazyPlus` (non-greedy) try the alternatives in the order the
  JavaScript engine tries them.
* A React element is embedded as the data it is built from (kind, text,
  link target); inline styles, keys, titles and decorative glyphs are left out.
* The mutual recursion `FormattedMessage` / `TableRenderer` is driven by a
  fuel argument: `none` means the fuel ran out.
-/

namespace KGHCB

/-- A JavaScript string, as the list of its characters. -/
abbrev Str := List Char

/-! ## Character classes -/

/-- The class `\d`. -/
def isDigit (c : Char) : Bool := decide (48 ≤ c.toNat) && decide (c.toNat ≤ 57)

/-- The class `\s`, which is also the set of characters removed by `trim()`. -/
def isWhiteSpace (c : Char) : Bool :=
  let n := c.toNat
  n == 9 || n == 10 || n == 11 || n == 12 || n == 13 || n == 32 || n == 0xA0 ||
  n == 0x1680 || (decide (0x2000 ≤ n) && decide (n ≤ 0x200A)) || n == 0x2028 ||
  n == 0x2029 || n == 0x202F || n == 0x205F || n == 0x3000 || n == 0xFEFF

/-- The characters the regex atom `.` does not match. -/
def isLineTerminator (c : Char) : Bool :=
  let n := c.toNat
  n == 10 || n == 13 || n == 0x2028 || n == 0x2029

/-- The regex atom `.`. -/
def dot (c : Char) : Bool := !isLineTerminator c

/-- The class `[\d\s\-\+\(\)]` of the TEL pattern. -/
def telClass (c : Char) : Bool :=
  isDigit c || isWhiteSpace c || c == '-' || c == '+' || c == '(' || c == ')'

/-- The class `[\d\s\-\+]` of the EMERGENCY pattern. -/
def emergencyClass (c : Char) : Bool :=
  isDigit c || isWhiteSpace c || c == '-' || c == '+'

/-- The class `[^\]]`. -/
def notRBracket (c : Char) : Bool := !(c == ']')

/-- The class `[^\|]`. -/
def notPipe (c : Char) : Bool := !(c == '|')

/-! ## String methods -/

/-- `s.trim()`. -/
def trim (s : Str) : Str :=
  ((s.dropWhile isWhiteSpace).reverse.dropWhile isWhiteSpace).reverse

/-- `s.startsWith(p)`. -/
def startsWith (p s : Str) : Bool := p.isPrefixOf s

/-- `s.endsWith(p)`. -/
def endsWith (p s : Str) : Bool := p.reverse.isPrefixOf s.reverse

/-- `s.includes(p)`. -/
def includes (p : Str) : Str → Bool
  | [] => p.isPrefixOf []
  | c :: cs => p.isPrefixOf (c :: cs) || includes p cs

/-- `s.slice(a, b)` for `0 ≤ a` and `0 ≤ b`. -/
def slice (s : Str) (a b : Nat) : Str := (s.take b).drop a

/-- `s.slice(2, -2)`. -/
def sliceInner (s : Str) : Str := slice s 2 (s.length - 2)

/-- `s.split(sep)` for a one-character separator. -/
def splitChar (sep : Char) : Str → List Str
  | [] => [[]]
  | c :: cs =>
    if c = sep then [] :: splitChar sep cs
    else
      match splitChar sep cs with
      | [] => [[c]]
      | l :: ls => (c :: l) :: ls

/-- The loop of `s.split(sep)` for a non-empty string separator: `skip` counts
the characters of a separator occurrence still to be passed over, `acc` is the
piece being collected. -/
def splitStrAux (sep : Str) : Nat → Str → Str → List Str
  | _, acc, [] => [acc]
  | skip + 1, acc, _ :: cs => splitStrAux sep skip acc cs
  | 0, acc, c :: cs =>
    if sep.isPrefixOf (c :: cs) then acc :: splitStrAux sep (sep.length - 1) [] cs
    else splitStrAux sep 0 (acc ++ [c]) cs

/-- `s.split(sep)` for a non-empty string separator. -/
def splitStr (sep s : Str) : List Str := splitStrAux sep 0 [] s

/-- `xs.join(sep)`. -/
def join (sep : Str) (xs : List Str) : Str := List.intercalate sep xs

/-- `s.toLowerCase()`, restricted to the ASCII letters.  The source only looks
for the ASCII substrings `full time` and `part time` in a lower-cased string,
and no character outside ASCII lowers to a character of these substrings in a
position that completes one of them. -/
def toLowerCase (s : Str) : Str := s.map Char.toLower

/-! ## Regular-expression matchers

A matcher takes the remaining input and a continuation; it answers what the
first successful alternative of the backtracking search answers. -/

/-- A literal string. -/
def lit {α : Type} : Str → (Str → Option α) → Str → Option α
  | [], k, t => k t
  | _ :: _, _, [] => none
  | p :: ps, k, c :: cs => if p = c then lit ps k cs else none

/-- Greedy `cls*`: take one more character when possible, and fall back to the
continuation at the current position when the longer attempt fails.  `acc` is
the text consumed so far. -/
def star {α : Type} (cls : Char → Bool) (k : Str → Str → Option α) : Str → Str → Option α
  | acc, [] => k acc []
  | acc, c :: cs =>
    if cls c then
      match star cls k (acc ++ [c]) cs with
      | some r => some r
      | none => k acc (c :: cs)
    else k acc (c :: cs)

/-- Greedy `cls+`. -/
def plus {α : Type} (cls : Char → Bool) (k : Str → Str → Option α) : Str → Option α
  | [] => none
  | c :: cs => if cls c then star cls k [c] cs else none

/-- Non-greedy `cls*?`: try the continuation first, take one more character
only when it fails. -/
def lazyStar {α : Type} (cls : Char → Bool) (k : Str → Str → Option α) : Str → Str → Option α
  | acc, [] => k acc []
  | acc, c :: cs =>
    match k acc (c :: cs) with
    | some r => some r
    | none => if cls c then lazyStar cls k (acc ++ [c]) cs else none

/-- Non-greedy `cls+?`. -/
def lazyPlus {α : Type} (cls : Char → Bool) (k : Str → Str → Option α) : Str → Option α
  | [] => none
  | c :: cs => if cls c then lazyStar cls k [c] cs else none

/-- A literal string under the `i` flag (ASCII letters compare without case). -/
def ilit {α : Type} : Str → (Str → Option α) → Str → Option α
  | [], k, t => k t
  | _ :: _, _, [] => none
  | p :: ps, k, c :: cs => if p.toLower = c.toLower then ilit ps k cs else none

/-- One match of a regular expression: `match.index`, `match[0].length` and the
capture groups `match[1]`, `match[2]`, ... -/
structure RegexMatch where
  index : Nat
  length : Nat
  groups : List Str
deriving DecidableEq, Repr

/-- An anchored pattern: on success, the capture groups and the input left
after the match. -/
abbrev Pattern := Str → Option (List Str × Str)

/-- The loop `while ((m = re.exec(text)) !== null)` of a global regex whose
matches are never empty: the leftmost match at or after `lastIndex` is
reported, and the search resumes right after it.  `idx` is the offset of the
current suffix and `skip` the number of characters left before `lastIndex`. -/
def execAll (re : Pattern) : Nat → Nat → Str → List RegexMatch
  | _, _, [] => []
  | idx, skip + 1, _ :: cs => execAll re (idx + 1) skip cs
  | idx, 0, c :: cs =>
    match re (c :: cs) with
    | some (groups, rest) =>
      ⟨idx, (c :: cs).length - rest.length, groups⟩ ::
        execAll re (idx + 1) ((c :: cs).length - rest.length - 1) cs
    | none => execAll re (idx + 1) 0 cs

/-- `re.test(s)` for a regex without `^`: some suffix matches. -/
def testAnywhere (re : Str → Option Unit) : Str → Bool
  | [] => (re []).isSome
  | c :: cs => (re (c :: cs)).isSome || testAnywhere re cs

/-! ## `processActionableText` -/

/-- The `type` field of the entries of `patterns`. -/
inductive TagType where
  | phone | doctor | doctorprofile | doctorslist | location | emergency | department
deriving DecidableEq, Repr

/-- A pattern `\[TAG:(cls+)\]`; `tag` is the literal `[TAG:`. -/
def tagPattern (tag : Str) (cls : Char → Bool) : Pattern :=
  lit tag (plus cls (fun cap r => lit "]".toList (fun r1 => some ([cap], r1)) r))

/-- The pattern `\[DOCTORPROFILE:([^\|]+)\|([^\|]+)\|([^\]]+)\]`. -/
def doctorProfilePattern : Pattern :=
  lit "[DOCTORPROFILE:".toList
    (plus notPipe (fun name r1 =>
      lit "|".toList
        (plus notPipe (fun specialty r2 =>
          lit "|".toList
            (plus notRBracket (fun slug r3 =>
              lit "]".toList (fun r4 => some ([name, specialty, slug], r4)) r3)) r2)) r1))

/-- The array `patterns`, in registration order. -/
def patterns : List (Pattern × TagType) :=
  [ (tagPattern "[TEL:".toList telClass, .phone),
    (tagPattern "[DOCTOR:".toList notRBracket, .doctor),
    (doctorProfilePattern, .doctorprofile),
    (tagPattern "[DOCTORSLIST:".toList notRBracket, .doctorslist),
    (tagPattern "[LOCATION:".toList notRBracket, .location),
    (tagPattern "[EMERGENCY:".toList emergencyClass, .emergency),
    (tagPattern "[DEPARTMENT:".toList notRBracket, .department) ]

/-- An entry of `allMatches`.  `specialty` and `slug` are set for the
`doctorprofile` type only (the source leaves them undefined otherwise and never
reads them); they are the empty string here in that case. -/
structure ActionMatch where
  index : Nat
  length : Nat
  content : Str
  specialty : Str
  slug : Str
  type : TagType
deriving DecidableEq, Repr

/-- The object pushed on `allMatches` for one regex match. -/
def toActionMatch (type : TagType) (m : RegexMatch) : ActionMatch :=
  match type with
  | .doctorprofile =>
    ⟨m.index, m.length, m.groups.getD 0 [], m.groups.getD 1 [], m.groups.getD 2 [], type⟩
  | _ => ⟨m.index, m.length, m.groups.getD 0 [], [], [], type⟩

/-- The matches of one pattern over the whole text. -/
def matchesOf (text : Str) (p : Pattern × TagType) : List ActionMatch :=
  (execAll p.1 0 0 text).map (toActionMatch p.2)

/-- The array `allMatches` before it is sorted: the matches of each pattern,
pattern after pattern. -/
def collectMatches (text : Str) : List ActionMatch :=
  (patterns.map (matchesOf text)).flatten

/-- The array `allMatches` after `allMatches.sort((a, b) => a.index - b.index)`
(a stable sort). -/
def allMatches (text : Str) : List ActionMatch :=
  (collectMatches text).insertionSort (fun a b => a.index ≤ b.index)

/-- A child node of a rendered line: a string, a `<strong>`, or one of the
actionable elements.  A link carries its visible text and its target. -/
inductive Node where
  /-- A plain string. -/
  | text (s : Str)
  /-- `<strong>s</strong>`. -/
  | strong (s : Str)
  /-- `<a href="tel:" + cleanPhone>` showing `content`. -/
  | phone (content cleanPhone : Str)
  /-- `content` followed by a link icon to `url`. -/
  | doctorprofile (content url : Str)
  /-- `<a href=url>` showing `content`. -/
  | doctor (content url : Str)
  /-- `<a href=url>` showing `content`. -/
  | location (content url : Str)
  /-- `<a href="tel:" + emergencyPhone>` showing `content`. -/
  | emergency (content emergencyPhone : Str)
  /-- `<a href=url>` showing `content`. -/
  | doctorslist (content url : Str)
  /-- A `<span>` showing `content`, without a target. -/
  | department (content : Str)
deriving DecidableEq, Repr

/-- `s.replace(/\s/g, '')`. -/
def removeWhiteSpace (s : Str) : Str := s.filter (fun c => !isWhiteSpace c)

/-- The element pushed for a match (the `switch (match.type)`). -/
def element (m : ActionMatch) : Node :=
  match m.type with
  | .phone => .phone m.content (removeWhiteSpace m.content)
  | .doctorprofile =>
    .doctorprofile m.content
      ("https://www.kghospital.com/doctors/".toList ++ m.specialty ++ "/".toList ++ m.slug)
  | .doctor => .doctor m.content "https://www.kghospital.com/doctors-list".toList
  | .location =>
    .location m.content
      "https://www.google.com/maps/search/?api=1&query=KG+Hospital+Coimbatore".toList
  | .emergency => .emergency m.content (removeWhiteSpace m.content)
  | .doctorslist => .doctorslist m.content "https://www.kghospital.com/doctors-list".toList
  | .department => .department m.content

/-- The loop `allMatches.forEach(...)` followed by the "remaining text" step:
`lastIndex` is the loop variable of the source. -/
def buildParts (text : Str) : List ActionMatch → Nat → List Node
  | [], lastIndex =>
    if lastIndex < text.length then [.text (text.drop lastIndex)] else []
  | m :: ms, lastIndex =>
    (if m.index > lastIndex then [Node.text (slice text lastIndex m.index)] else []) ++
      element m :: buildParts text ms (m.index + m.length)

/-- What a function that returns "a string or an array of nodes" returns. -/
inductive Inline where
  | str (s : Str)
  | arr (nodes : List Node)
deriving DecidableEq, Repr

/-- `processActionableText(text)` for a string `text`. -/
def processActionableText (text : Str) : Inline :=
  if text.isEmpty then .str text
  else
    let parts := buildParts text (allMatches text) 0
    if parts.length > 0 then .arr parts else .str text

/-! ## `renderInline` -/

/-- The regex `/\*\*(.+?)\*\*/`. -/
def boldPattern : Pattern :=
  lit "**".toList (lazyPlus dot (fun cap r => lit "**".toList (fun r1 => some ([cap], r1)) r))

/-- The bold loop of `renderInline` over its matches, followed by the final
`if (last < part.length)`: `last` is the loop variable of the source. -/
def fillBold (part : Str) : List RegexMatch → Nat → List Node
  | [], last => if last < part.length then [.text (part.drop last)] else []
  | m :: ms, last =>
    (if m.index > last then [Node.text (slice part last m.index)] else []) ++
      Node.strong (m.groups.getD 0 []) :: fillBold part ms (m.index + m.length)

/-- The array `out` built from one string part. -/
def boldParts (part : Str) : List Node := fillBold part (execAll boldPattern 0 0 part) 0

/-- What `renderInline` pushes on `result` for one part of `processed`. -/
def renderPart : Node → List Node
  | .text s => boldParts s
  | e => [e]

/-- `renderInline(text)` for a string `text`. -/
def renderInline (text : Str) : Inline :=
  match processActionableText text with
  | .arr processed =>
    let result := (processed.map renderPart).flatten
    if result.length > 0 then .arr result else .arr processed
  | .str processed =>
    let out := boldParts processed
    if out.length > 0 then .arr out else .str processed

/-! ## The line classifier of `FormattedMessage` -/

/-- One character of a class. -/
def one {α : Type} (cls : Char → Bool) (k : Str → Option α) : Str → Option α
  | [] => none
  | c :: cs => if cls c then k cs else none

/-- The source literal of the bullet glyph test, `startsWith` argument: the
four characters U+201A, U+00C4, U+00A2 and a blank, as they stand in the file. -/
def bulletGlyph : Str := [Char.ofNat 0x201A, Char.ofNat 0xC4, Char.ofNat 0xA2, ' ']

/-- The regex `/^[-*]\s+/`; on success, the input left after the match. -/
def bulletMarker (t : Str) : Option Str :=
  one (fun c => c == '-' || c == '*') (plus isWhiteSpace (fun _ r => some r)) t

/-- The regex `/^\d+\.\s/`. -/
def numberedTest (t : Str) : Bool :=
  (plus isDigit (fun _ r => lit ".".toList (one isWhiteSpace (fun _ => some ())) r) t).isSome

/-- The regex `/^(\d+\.\s*)(.+)/`; on success, `match[1]` and `match[2]`. -/
def numberedMatch (t : Str) : Option (Str × Str) :=
  plus isDigit (fun ds r =>
    lit ".".toList (fun r1 =>
      star isWhiteSpace (fun ws r2 =>
        plus dot (fun rest _ => some (ds ++ ".".toList ++ ws, rest)) r2) [] r1) r) t

/-- The regex `/^\*\*(.+)\*\*$/`. -/
def boldWrapped (t : Str) : Bool :=
  (lit "**".toList
    (plus dot (fun _ r =>
      lit "**".toList (fun r1 => if r1.isEmpty then some () else none) r)) t).isSome

/-- `content.replace(/^\*\*(.+)\*\$/, '**$1**')`: the regex ends in a literal
star followed by a literal dollar sign. -/
def headerReplace (content : Str) : Str :=
  match lit "**".toList
      (plus dot (fun cap r => lit "*$".toList (fun r1 => some (cap, r1)) r)) content with
  | some (cap, rest) => "**".toList ++ cap ++ "**".toList ++ rest
  | none => content

/-- The regex `/(full\s*time|part\s*time|visiting|locum|consultant)/i`,
anchored. -/
def employmentPattern (t : Str) : Option Unit :=
  (ilit "full".toList (star isWhiteSpace (fun _ r => ilit "time".toList (fun _ => some ()) r) []) t).orElse
  fun _ =>
  (ilit "part".toList (star isWhiteSpace (fun _ r => ilit "time".toList (fun _ => some ()) r) []) t).orElse
  fun _ =>
  (ilit "visiting".toList (fun _ => some ()) t).orElse fun _ =>
  (ilit "locum".toList (fun _ => some ()) t).orElse fun _ =>
  ilit "consultant".toList (fun _ => some ()) t

/-- The regex `/no\s*category\s*mentioned/i`, anchored. -/
def noCategoryPattern (t : Str) : Option Unit :=
  ilit "no".toList (star isWhiteSpace (fun _ r =>
    ilit "category".toList (star isWhiteSpace (fun _ r1 =>
      ilit "mentioned".toList (fun _ => some ()) r1) []) r) []) t

/-- The three colour categories of an employment tag. -/
inductive EmploymentCategory where
  | fullTime | partTime | other
deriving DecidableEq, Repr

/-- The colour choice of the employment tag. -/
def employmentCategory (employmentType : Str) : EmploymentCategory :=
  if includes "full time".toList (toLowerCase employmentType) then .fullTime
  else if includes "part time".toList (toLowerCase employmentType) then .partTime
  else .other

/-- The value of `formattedContent` in a numbered item, or the array `content`
rendered by the "already processed" branch. -/
inductive NumContent where
  /-- The bare `content` (a string or an array of nodes). -/
  | inline (content : Inline)
  /-- Name in bold, then the employment tag. -/
  | employment (nameJoined employmentType : Str)
  /-- Name in bold, then the "no category" phrase as plain text. -/
  | noCategory (nameJoined last : Str)
  /-- First token in bold, then the other tokens as plain text. -/
  | nameRest (name rest : Str)
deriving DecidableEq, Repr

/-- The element returned for one line. -/
inductive Block where
  /-- The empty `<div>` of height 8px. -/
  | spacer
  /-- A header `<div>` showing `headerText`. -/
  | header (headerText : Str)
  /-- A bullet item. -/
  | bullet (content : Inline)
  /-- A numbered item: the label `number.trim()` and the content. -/
  | numbered (number : Str) (content : NumContent)
  /-- A regular line. -/
  | paragraph (content : Inline)
deriving DecidableEq, Repr

/-- The compound-token heuristic: `formattedContent` for a string `content`. -/
def formatTokens (content : Str) : NumContent :=
  if includes " - ".toList content then
    let tokens := ((splitStr " - ".toList content).map trim).filter (fun t => !t.isEmpty)
    if tokens.length ≥ 2 then
      let last := tokens.getLastD []
      let isEmployment := testAnywhere employmentPattern last
      let isNoCategory := testAnywhere noCategoryPattern last
      if isEmployment then .employment (join " ".toList tokens.dropLast) last
      else if isNoCategory then .noCategory (join " ".toList tokens.dropLast) last
      else .nameRest (tokens.headD []) (join " - ".toList (tokens.drop 1))
    else .inline (.str content)
  else .inline (.str content)

/-- The numbered-list branch for a trimmed line that passed `numberedTest`. -/
def numberedBlock (trimmedLine : Str) : Block :=
  let m := numberedMatch trimmedLine
  let number : Str := match m with
    | some (n, _) => n
    | none => []
  let content : Inline := renderInline (match m with
    | some (_, c) => c
    | none => trimmedLine)
  match content with
  | .str s =>
    if boldWrapped s then .header (sliceInner (headerReplace s))
    else .numbered (trim number) (formatTokens s)
  | .arr nodes => .numbered (trim number) (.inline (.arr nodes))

/-- The body of `lines.map((line, index) => ...)`; `index` only selects a
margin and is left out. -/
def classifyLine (line : Str) : Block :=
  let trimmedLine := trim line
  if trimmedLine.isEmpty then .spacer
  else if startsWith "**".toList trimmedLine && endsWith "**".toList trimmedLine then
    .header (sliceInner trimmedLine)
  else if startsWith bulletGlyph trimmedLine || (bulletMarker trimmedLine).isSome then
    .bullet (renderInline
      (if startsWith bulletGlyph trimmedLine then trimmedLine.drop 2
       else (bulletMarker trimmedLine).getD trimmedLine))
  else if numberedTest trimmedLine then numberedBlock trimmedLine
  else .paragraph (renderInline trimmedLine)

/-! ## `TableRenderer` -/

/-- An entry of `blocks`. -/
inductive TableBlock where
  | text (lines : List Str)
  | table (lines : List Str)
deriving DecidableEq, Repr

/-- `line.trim().startsWith('|')`. -/
def isTableLine (line : Str) : Bool := startsWith "|".toList (trim line)

/-- `line.split('|').map(c => c.trim()).filter(Boolean)`. -/
def cellsOf (line : Str) : List Str :=
  ((splitChar '|' line).map trim).filter (fun c => !c.isEmpty)

/-- The inner loop over non-table lines: `textBuf` and the lines left. -/
def takeText : List Str → List Str × List Str
  | [] => ([], [])
  | l :: ls =>
    if isTableLine l then ([], l :: ls)
    else
      let r := takeText ls
      (if (trim l).isEmpty then r.1 else l :: r.1, r.2)

/-- The inner loop over table lines: `tableBuf` and the lines left. -/
def takeTable : List Str → List Str × List Str
  | [] => ([], [])
  | l :: ls =>
    if isTableLine l then
      let r := takeTable ls
      (if (cellsOf (trim l)).length > 0 then l :: r.1 else r.1, r.2)
    else ([], l :: ls)

/-- The outer loop `while (i < lines.length)`; each round consumes at least
one line, so `fuel = lines.length` rounds are enough. -/
def segmentLoop : Nat → List Str → List TableBlock
  | 0, _ => []
  | _, [] => []
  | fuel + 1, l :: ls =>
    if !isTableLine l then
      let r := takeText (l :: ls)
      (if r.1.length > 0 then [TableBlock.text r.1] else []) ++ segmentLoop fuel r.2
    else
      let r := takeTable (l :: ls)
      (if r.1.length > 0 then [TableBlock.table r.1] else []) ++ segmentLoop fuel r.2

/-- The array `blocks` of `TableRenderer`. -/
def segment (content : Str) : List TableBlock :=
  let lines := splitChar '\n' content
  segmentLoop lines.length lines

/-- What a component returns. -/
inductive Rendered where
  /-- `<span>content</span>`, for an empty `content`. -/
  | span (content : Str)
  /-- The `<div>` of `FormattedMessage`: one block per line. -/
  | lines (blocks : List Block)
  /-- The table of `renderTable`: `cleanHeaders` and `normalizedRows`. -/
  | table (headers : List Str) (rows : List (List Str))
  /-- The `null` of `renderTable`. -/
  | null
  /-- The `<div>` of `TableRenderer`: one child per block. -/
  | div (children : List Rendered)
deriving Repr

/-- The separator line synthesized when line 1 has no `---`. -/
def separatorLine (inferredCols : Nat) : Str :=
  "| ".toList ++ join " | ".toList (List.replicate inferredCols "---".toList) ++ " |".toList

/-- The reassigned `tableLines`, for at least two lines. -/
def withSeparator (tableLines : List Str) : List Str :=
  if (tableLines.getD 1 []).isEmpty || !includes "---".toList (tableLines.getD 1 []) then
    let n := (cellsOf (tableLines.getD 0 [])).length
    let inferredCols := if n = 0 then 4 else n
    tableLines.getD 0 [] :: separatorLine inferredCols :: tableLines.drop 1
  else tableLines

/-- The array `cleanHeaders`. -/
def cleanHeaders (headerLine : Str) : List Str :=
  let headers := cellsOf headerLine
  let headerCount := if headers.length = 0 then 4 else headers.length
  if headers.length > 0 then headers
  else (List.range headerCount).map (fun i => "Column ".toList ++ (Nat.repr (i + 1)).toList)

/-- The array `rows`. -/
def dataRows (dataLines : List Str) : List (List Str) :=
  (((dataLines.map (fun line => (splitChar '|' line).map trim)).map
    (fun cells => cells.filter (fun c => !c.isEmpty))).filter (fun row => row.length > 0))

/-- The callback of `rows.map(...)` that builds `normalizedRows`; `n` is
`cleanHeaders.length`. -/
def normalizeRow (n : Nat) (row : List Str) : List Str :=
  if row.length = n then row
  else if row.length < n then row ++ List.replicate (n - row.length) []
  else row.take n

/-- `renderTable(tableLines, key)`. -/
def renderTable (tableLines : List Str) : Rendered :=
  if tableLines.length < 2 then .null
  else
    let tableLines := withSeparator tableLines
    let headerLine := tableLines.getD 0 []
    let dataLines := tableLines.drop 2
    let headers := cleanHeaders headerLine
    .table headers ((dataRows dataLines).map (normalizeRow headers.length))

/-- The callback of `blocks.map(...)`: a text block is handed to
`FormattedMessage` (`render`), a table block to `renderTable`. -/
def renderBlock (render : Str → Option Rendered) : TableBlock → Option Rendered
  | .text lines => render (join "\n".toList lines)
  | .table lines => some (renderTable lines)

/-- The children of the `<div>` of `TableRenderer`, one per block. -/
def renderBlocks (render : Str → Option Rendered) : List TableBlock → Option (List Rendered)
  | [] => some []
  | b :: bs =>
    match renderBlock render b, renderBlocks render bs with
    | some r, some rs => some (r :: rs)
    | _, _ => none

/-- The component `TableRenderer`; `render` is the component
`FormattedMessage`. -/
def TableRenderer (render : Str → Option Rendered) (content : Str) : Option Rendered :=
  match renderBlocks render (segment content) with
  | none => none
  | some children => some (.div children)

/-! ## `FormattedMessage` -/

/-- The table gate `content.includes('|') && content.includes('---')`. -/
def tableGate (content : Str) : Bool :=
  includes "|".toList content && includes "---".toList content

/-- The component `FormattedMessage` for a string `content`.  Each nested
rendering of a component uses one unit of fuel. -/
def FormattedMessage : Nat → Str → Option Rendered
  | 0, _ => none
  | fuel + 1, content =>
    if content.isEmpty then some (.span content)
    else if tableGate content then TableRenderer (FormattedMessage fuel) content
    else some (.lines ((splitChar '\n' content).map classifyLine))

/-! ## Observations used by the statements -/

/-- The loop of `buildParts` again, each part paired with the piece of `text`
it was cut from: the gap for a string part, `match[0]` (the whole bracket tag)
for an element. -/
def buildSpans (text : Str) : List ActionMatch → Nat → List (Str × Node)
  | [], lastIndex =>
    if lastIndex < text.length then [(text.drop lastIndex, .text (text.drop lastIndex))] else []
  | m :: ms, lastIndex =>
    (if m.index > lastIndex then
        [(slice text lastIndex m.index, Node.text (slice text lastIndex m.index))]
      else []) ++
      (slice text m.index (m.index + m.length), element m) ::
        buildSpans text ms (m.index + m.length)

/-- The spans of `processActionableText(text)`: source text and part. -/
def spans (text : Str) : List (Str × Node) := buildSpans text (allMatches text) 0

/-- No match of the list starts before the end of the one before it
(`lastIndex` is the end of the previous match). -/
def disjointFrom : Nat → List ActionMatch → Bool
  | _, [] => true
  | lastIndex, m :: ms => decide (lastIndex ≤ m.index) && disjointFrom (m.index + m.length) ms

mutual
/-- The line blocks of a document, in document order. -/
def Rendered.blocks : Rendered → List Block
  | .lines bs => bs
  | .div cs => blocksOfList cs
  | _ => []
/-- The line blocks of a list of documents, in document order. -/
def blocksOfList : List Rendered → List Block
  | [] => []
  | c :: cs => c.blocks ++ blocksOfList cs
end

/-- Whether a node is one of the actionable elements, that is neither a string
nor a `<strong>`. -/
def Node.isElement : Node → Bool
  | .text _ => false
  | .strong _ => false
  | _ => true

/-- The text a node shows. -/
def Node.label : Node → Str
  | .text s => s
  | .strong s => s
  | .phone content _ => content
  | .doctorprofile content _ => content
  | .doctor content _ => content
  | .location content _ => content
  | .emergency content _ => content
  | .doctorslist content _ => content
  | .department content => content

/-- The children a returned value stands for: a string is one string child. -/
def Inline.nodes : Inline → List Node
  | .str s => [.text s]
  | .arr ns => ns

/-- The position of a tag type in the array `patterns`. -/
def registrationIndex (ty : TagType) : Nat := (patterns.map Prod.snd).indexOf ty

/-- Whether a block of the segmentation is a table block. -/
def TableBlock.isTable : TableBlock → Bool
  | .text _ => false
  | .table _ => true

/-- No two consecutive blocks are of the same kind. -/
def alternates : List TableBlock → Bool
  | a :: b :: rest => (a.isTable != b.isTable) && alternates (b :: rest)
  | _ => true

/-- What a block gives when its text goes straight to the line classifier: the
lines of a text block classified one by one, the table of a table block. -/
def renderBlockDirect : TableBlock → Rendered
  | .text lines => .lines ((splitChar '\n' (join "\n".toList lines)).map classifyLine)
  | .table lines => renderTable lines

/-- No regex match of the list starts before the end of the one before it
(`last` is the end of the previous match). -/
def chainFrom : Nat → List RegexMatch → Bool
  | _, [] => true
  | last, m :: ms => decide (last ≤ m.index) && chainFrom (m.index + m.length) ms

/-- The source text a node of the bold split stands for: a string as it is, a
`<strong>` with its text between two pairs of stars. -/
def boldSource : Node → Str
  | .text s => s
  | .strong s => "**".toList ++ s ++ "**".toList
  | _ => []

/-- The tag name of a pattern. -/
def tagName : TagType → Str
  | .phone => "TEL".toList
  | .doctor => "DOCTOR".toList
  | .doctorprofile => "DOCTORPROFILE".toList
  | .doctorslist => "DOCTORSLIST".toList
  | .location => "LOCATION".toList
  | .emergency => "EMERGENCY".toList
  | .department => "DEPARTMENT".toList

/-- The literal every match of a pattern starts with. -/
def tagHead (ty : TagType) : Str := "[".toList ++ tagName ty ++ ":".toList

/-- The bracket tag written again from the captures of a match. -/
def serializeMatch (m : ActionMatch) : Str :=
  match m.type with
  | .doctorprofile =>
    tagHead m.type ++ m.content ++ "|".toList ++ m.specialty ++ "|".toList ++ m.slug
      ++ "]".toList
  | _ => tagHead m.type ++ m.content ++ "]".toList

/-- The loop of `buildParts` again, each part paired with its serialisation:
the string itself for a string part, the tag written again from the captures
for an element. -/
def buildSerial (text : Str) : List ActionMatch → Nat → List (Str × Node)
  | [], lastIndex =>
    if lastIndex < text.length then [(text.drop lastIndex, .text (text.drop lastIndex))] else []
  | m :: ms, lastIndex =>
    (if m.index > lastIndex then
        [(slice text lastIndex m.index, Node.text (slice text lastIndex m.index))]
      else []) ++
      (serializeMatch m, element m) :: buildSerial text ms (m.index + m.length)

/-! ## Lemmas on the string methods and the matchers -/

theorem includes_iff_contains (p s : Str) : includes p s = true ↔ p <:+: s := by
  induction s with
  | nil =>
    cases p with
    | nil => simp [includes]
    | cons a as => simp [includes, List.isPrefixOf]
  | cons c cs ih =>
    simp only [includes, Bool.or_eq_true, ih, List.infix_cons_iff, List.isPrefixOf_iff_prefix]

theorem includes_pipe_iff (s : Str) : includes "|".toList s = true ↔ '|' ∈ s := by
  rw [includes_iff_contains]
  constructor
  · rintro ⟨a, b, h⟩
    rw [← h]
    simp
  · intro h
    obtain ⟨a, b, h1⟩ := List.append_of_mem h
    exact ⟨a, b, by rw [h1]; simp⟩

theorem numberedBlock_ne_spacer (t : Str) : numberedBlock t ≠ .spacer := by
  unfold numberedBlock
  simp only
  split
  · split <;> simp
  · simp

theorem classifyLine_eq_spacer_iff (line : Str) :
    classifyLine line = .spacer ↔ trim line = [] := by
  unfold classifyLine
  simp only
  by_cases h : (trim line).isEmpty = true
  · simp only [h, if_true, true_iff]
    simpa using h
  · have h1 : trim line ≠ [] := by simpa using h
    simp only [h, if_false, Bool.false_eq_true]
    constructor
    · intro hs
      exfalso
      split at hs
      · cases hs
      · split at hs
        · cases hs
        · split at hs
          · exact numberedBlock_ne_spacer _ hs
          · cases hs
    · intro hs; exact absurd hs h1

theorem normalizeRow_length (n : Nat) (row : List Str) : (normalizeRow n row).length = n := by
  unfold normalizeRow
  split
  · assumption
  · split
    · simp; omega
    · simp; omega

theorem normalizeRow_eq_take (n : Nat) (row : List Str) :
    normalizeRow n row = (row ++ List.replicate n []).take n := by
  unfold normalizeRow
  split
  · rename_i h
    subst h
    simp
  · split
    · rename_i h1 h2
      rw [List.take_append_eq_append_take]
      rw [List.take_of_length_le (by omega)]
      simp
    · rename_i h1 h2
      rw [List.take_append_of_le_length (by omega)]

theorem renderTable_eq_table (tableLines : List Str) (headers : List Str)
    (rows : List (List Str)) (h : renderTable tableLines = .table headers rows) :
    headers = cleanHeaders ((withSeparator tableLines).getD 0 []) ∧
    rows = (dataRows ((withSeparator tableLines).drop 2)).map (normalizeRow headers.length) := by
  unfold renderTable at h
  split at h
  · cases h
  · simp only [Rendered.table.injEq] at h
    obtain ⟨h1, h2⟩ := h
    subst h1
    exact ⟨rfl, h2.symm⟩

theorem lit_append {α : Type} (p r : Str) (k : Str → Option α) : lit p k (p ++ r) = k r := by
  induction p with
  | nil => cases r <;> rfl
  | cons a as ih => simp [lit, ih]

theorem lit_nil_input {α : Type} (a : Char) (as : Str) (k : Str → Option α) :
    lit (a :: as) k [] = none := rfl

theorem lit_cons_ne {α : Type} (a c : Char) (as cs : Str) (k : Str → Option α) (h : c ≠ a) :
    lit (a :: as) k (c :: cs) = none := by
  simp [lit, Ne.symm h]

theorem star_run {α : Type} (cls : Char → Bool) (k : Str → Str → Option α) (c : Str)
    (x : Char) (s : Str) (v : α) (hc : ∀ ch ∈ c, cls ch = true) (hx : cls x = false) :
    ∀ acc : Str, k (acc ++ c) (x :: s) = some v → star cls k acc (c ++ x :: s) = some v := by
  induction c with
  | nil =>
    intro acc hk
    simp only [List.append_nil] at hk
    simp [star, hx, hk]
  | cons a as ih =>
    intro acc hk
    have ha : cls a = true := hc a (List.mem_cons_self _ _)
    have h1 : star cls k (acc ++ [a]) (as ++ x :: s) = some v := by
      apply ih (fun ch h => hc ch (List.mem_cons_of_mem _ h))
      simpa using hk
    simp [star, ha, h1]

theorem plus_run {α : Type} (cls : Char → Bool) (k : Str → Str → Option α) (c : Str)
    (x : Char) (s : Str) (v : α) (hne : c ≠ []) (hc : ∀ ch ∈ c, cls ch = true)
    (hx : cls x = false) (hk : k c (x :: s) = some v) :
    plus cls k (c ++ x :: s) = some v := by
  cases c with
  | nil => exact absurd rfl hne
  | cons a as =>
    have ha : cls a = true := hc a (List.mem_cons_self _ _)
    simp only [List.cons_append, plus, ha, if_true]
    exact star_run cls k as x s v (fun ch h => hc ch (List.mem_cons_of_mem _ h)) hx [a] hk

theorem execAll_cons_none (re : Pattern) (idx : Nat) (c : Char) (cs : Str)
    (h : re (c :: cs) = none) :
    execAll re idx 0 (c :: cs) = execAll re (idx + 1) 0 cs := by
  simp [execAll, h]

theorem execAll_cons_some (re : Pattern) (idx : Nat) (c : Char) (cs : Str)
    (groups : List Str) (rest : Str) (h : re (c :: cs) = some (groups, rest)) :
    execAll re idx 0 (c :: cs) =
      ⟨idx, (c :: cs).length - rest.length, groups⟩ ::
        execAll re (idx + 1) ((c :: cs).length - rest.length - 1) cs := by
  simp [execAll, h]

theorem execAll_nil_of_tails (re : Pattern) (t : Str) (h : ∀ u ∈ t.tails, re u = none) :
    ∀ idx skip, execAll re idx skip t = [] := by
  induction t with
  | nil => intro idx skip; simp [execAll]
  | cons c cs ih =>
    intro idx skip
    have hcs : ∀ u ∈ cs.tails, re u = none := fun u hu => h u (by simp [hu])
    cases skip with
    | zero =>
      have h0 : re (c :: cs) = none := h _ (by simp)
      simp [execAll, h0, ih hcs]
    | succ n => simp [execAll, ih hcs]

theorem execAll_nil_of_no_bracket (re : Pattern) (h0 : re [] = none)
    (h1 : ∀ c cs, c ≠ '[' → re (c :: cs) = none) (t : Str) (ht : '[' ∉ t) (idx skip : Nat) :
    execAll re idx skip t = [] := by
  apply execAll_nil_of_tails
  intro u hu
  rw [List.mem_tails] at hu
  cases u with
  | nil => exact h0
  | cons c cs =>
    apply h1
    rintro rfl
    exact ht (hu.subset (List.mem_cons_self _ _))

theorem execAll_append_no_bracket (re : Pattern)
    (h1 : ∀ c cs, c ≠ '[' → re (c :: cs) = none) (p t : Str) (hp : '[' ∉ p) :
    ∀ idx, execAll re idx 0 (p ++ t) = execAll re (idx + p.length) 0 t := by
  induction p with
  | nil => intro idx; rfl
  | cons a as ih =>
    intro idx
    have ha : a ≠ '[' := fun h => hp (by simp [h])
    have has : '[' ∉ as := fun h => hp (by simp [h])
    have : re (a :: (as ++ t)) = none := h1 _ _ ha
    rw [List.cons_append, execAll_cons_none re idx a (as ++ t) this, ih has, List.length_cons]
    have e : idx + 1 + as.length = idx + (as.length + 1) := by omega
    rw [e]

theorem patterns_start_at_bracket (p : Pattern × TagType) (hp : p ∈ patterns) :
    p.1 [] = none ∧ ∀ c cs, c ≠ '[' → p.1 (c :: cs) = none := by
  simp only [patterns, List.mem_cons, List.mem_singleton, List.not_mem_nil, or_false] at hp
  rcases hp with h | h | h | h | h | h | h <;> subst h <;>
    exact ⟨rfl, fun c cs hc => lit_cons_ne _ _ _ _ _ hc⟩

theorem buildParts_ne_nil (text : Str) (h : text ≠ []) (ms : List ActionMatch) :
    (buildParts text ms 0).length > 0 := by
  cases ms with
  | nil =>
    have : 0 < text.length := List.length_pos.mpr h
    simp [buildParts, this]
  | cons m ms => simp [buildParts]

theorem processActionableText_eq (text : Str) (h : text ≠ []) :
    processActionableText text = .arr (buildParts text (allMatches text) 0) := by
  unfold processActionableText
  have h1 : text.isEmpty = false := by
    cases text with
    | nil => exact absurd rfl h
    | cons c cs => rfl
  simp only [h1, Bool.false_eq_true, if_false, buildParts_ne_nil text h, if_true]

theorem execAll_one_tag (re : Pattern) (h0 : re [] = none)
    (h1 : ∀ c cs, c ≠ '[' → re (c :: cs) = none) (p body s : Str)
    (hp : '[' ∉ p) (hb : '[' ∉ body) (hs : '[' ∉ s) :
    (∀ groups, re ('[' :: (body ++ s)) = some (groups, s) →
      execAll re 0 0 (p ++ '[' :: (body ++ s)) = [⟨p.length, body.length + 1, groups⟩]) ∧
    (re ('[' :: (body ++ s)) = none → execAll re 0 0 (p ++ '[' :: (body ++ s)) = []) := by
  have hbs : '[' ∉ body ++ s := by simp [hb, hs]
  constructor
  · intro groups hm
    rw [execAll_append_no_bracket re h1 p _ hp, execAll_cons_some re _ _ _ groups s hm,
      execAll_nil_of_no_bracket re h0 h1 _ hbs]
    simp
    omega
  · intro hm
    rw [execAll_append_no_bracket re h1 p _ hp, execAll_cons_none re _ _ _ hm,
      execAll_nil_of_no_bracket re h0 h1 _ hbs]

theorem collectMatches_one_tag (ty : TagType) (groups : List Str) (p body s : Str)
    (hp : '[' ∉ p) (hb : '[' ∉ body) (hs : '[' ∉ s)
    (hre : ∀ q ∈ patterns,
      q.1 ('[' :: (body ++ s)) = if q.2 = ty then some (groups, s) else none) :
    collectMatches (p ++ '[' :: (body ++ s))
      = [toActionMatch ty ⟨p.length, body.length + 1, groups⟩] := by
  have hq : ∀ q ∈ patterns, matchesOf (p ++ '[' :: (body ++ s)) q
      = if q.2 = ty then [toActionMatch ty ⟨p.length, body.length + 1, groups⟩] else [] := by
    intro q hqm
    obtain ⟨h0, h1⟩ := patterns_start_at_bracket q hqm
    obtain ⟨ha, hn⟩ := execAll_one_tag q.1 h0 h1 p body s hp hb hs
    have := hre q hqm
    unfold matchesOf
    by_cases hty : q.2 = ty
    · rw [if_pos hty] at this
      rw [ha groups this, if_pos hty, hty]
      rfl
    · rw [if_neg hty] at this
      rw [hn this, if_neg hty]
      rfl
  unfold collectMatches
  rw [List.map_congr_left hq]
  cases ty <;> simp [patterns]

theorem processActionableText_one_tag (ty : TagType) (groups : List Str) (p body s : Str)
    (hp : '[' ∉ p) (hb : '[' ∉ body) (hs : '[' ∉ s)
    (hre : ∀ q ∈ patterns,
      q.1 ('[' :: (body ++ s)) = if q.2 = ty then some (groups, s) else none) :
    processActionableText (p ++ '[' :: (body ++ s)) =
      .arr ((if p = [] then [] else [Node.text p]) ++
        element (toActionMatch ty ⟨p.length, body.length + 1, groups⟩) ::
          (if s = [] then [] else [Node.text s])) := by
  rw [processActionableText_eq _ (by simp)]
  unfold allMatches
  rw [collectMatches_one_tag ty groups p body s hp hb hs hre]
  have hidx : (toActionMatch ty ⟨p.length, body.length + 1, groups⟩).index = p.length := by
    cases ty <;> rfl
  have hlen : (toActionMatch ty ⟨p.length, body.length + 1, groups⟩).length
      = body.length + 1 := by
    cases ty <;> rfl
  simp only [List.insertionSort, List.orderedInsert, buildParts, hidx, hlen]
  congr 1
  congr 1
  · cases p with
    | nil => simp
    | cons a as => simp [slice]
  · congr 1
    cases s with
    | nil => simp
    | cons a as =>
      have e : (a :: as) = List.drop (p.length + (body.length + 1))
          (p ++ '[' :: (body ++ a :: as)) := by
        rw [List.drop_append]
        have : '[' :: (body ++ a :: as) = ('[' :: body) ++ a :: as := rfl
        rw [this]
        have l : body.length + 1 = ('[' :: body).length := rfl
        rw [l, List.drop_left]
      simp [← e]

theorem buildSpans_snd (text : Str) (ms : List ActionMatch) :
    ∀ lastIndex, (buildSpans text ms lastIndex).map Prod.snd = buildParts text ms lastIndex := by
  induction ms with
  | nil =>
    intro lastIndex
    simp only [buildSpans, buildParts]
    split <;> rfl
  | cons m ms ih =>
    intro lastIndex
    simp only [buildSpans, buildParts, List.map_append, List.map_cons, ih]
    split <;> rfl

theorem slice_append_drop (text : Str) (a b : Nat) (h : a ≤ b) :
    slice text a b ++ text.drop b = text.drop a := by
  unfold slice
  have h1 : text.drop a = (text.take b ++ text.drop b).drop a := by rw [List.take_append_drop]
  rw [h1, List.drop_append_eq_append_drop]
  have h2 : a - (List.take b text).length = 0 ∨ text.drop b = [] := by
    by_cases hb : b ≤ text.length
    · left
      rw [List.length_take]
      omega
    · right
      exact List.drop_eq_nil_of_le (by omega)
  rcases h2 with h2 | h2
  · rw [h2, List.drop_zero]
  · simp [h2]

theorem buildSpans_fst_flatten (text : Str) (ms : List ActionMatch) :
    ∀ lastIndex, disjointFrom lastIndex ms = true →
      ((buildSpans text ms lastIndex).map Prod.fst).flatten = text.drop lastIndex := by
  induction ms with
  | nil =>
    intro lastIndex _
    simp only [buildSpans]
    split
    · simp
    · rename_i h
      simp
      omega
  | cons m ms ih =>
    intro lastIndex hd
    simp only [disjointFrom, Bool.and_eq_true, decide_eq_true_eq] at hd
    obtain ⟨h1, h2⟩ := hd
    simp only [buildSpans, List.map_append, List.map_cons, List.flatten_append,
      List.flatten_cons, ih _ h2]
    rw [slice_append_drop text m.index (m.index + m.length) (by omega)]
    split
    · simp
      exact slice_append_drop text lastIndex m.index h1
    · rename_i h
      have : lastIndex = m.index := by omega
      simp [this]

theorem no_match_of_all (text : Str)
    (h : (text.tails.all fun u => patterns.all fun q => (q.1 u).isNone) = true) :
    ∀ u ∈ text.tails, ∀ q ∈ patterns, q.1 u = none := by
  intro u hu q hq
  rw [List.all_eq_true] at h
  have h1 := h u hu
  rw [List.all_eq_true] at h1
  exact Option.isNone_iff_eq_none.mp (h1 q hq)

/-! ## The recursion of `FormattedMessage` and `TableRenderer` -/

theorem FormattedMessage_succ_of_gate (fuel : Nat) (content : Str) (hne : content ≠ [])
    (hg : tableGate content = true) :
    FormattedMessage (fuel + 1) content = TableRenderer (FormattedMessage fuel) content := by
  cases content with
  | nil => exact absurd rfl hne
  | cons c cs => simp [FormattedMessage, hg]

theorem FormattedMessage_succ_of_not_gate (fuel : Nat) (content : Str) (hne : content ≠ [])
    (hg : tableGate content = false) :
    FormattedMessage (fuel + 1) content
      = some (.lines ((splitChar '\n' content).map classifyLine)) := by
  cases content with
  | nil => exact absurd rfl hne
  | cons c cs => simp [FormattedMessage, hg]

theorem FormattedMessage_none_of_fixed (content : Str) (ls : List Str) (hne : content ≠ [])
    (hg : tableGate content = true) (hseg : segment content = [.text ls])
    (hjoin : join "\n".toList ls = content) (fuel : Nat) :
    FormattedMessage fuel content = none := by
  induction fuel with
  | zero => rfl
  | succ n ih =>
    rw [FormattedMessage_succ_of_gate n content hne hg]
    unfold TableRenderer
    rw [hseg]
    simp only [renderBlocks, renderBlock, hjoin, ih]

/-! ### The fuel is enough

The outer loop of the segmentation never runs out of rounds, and a document
produced with some fuel is produced with any larger fuel. -/

theorem takeText_length (ls : List Str) : (takeText ls).2.length ≤ ls.length := by
  induction ls with
  | nil => simp [takeText]
  | cons l ls ih =>
    simp only [takeText]
    split
    · simp
    · simp only [List.length_cons]
      omega

theorem takeTable_length (ls : List Str) : (takeTable ls).2.length ≤ ls.length := by
  induction ls with
  | nil => simp [takeTable]
  | cons l ls ih =>
    simp only [takeTable]
    split
    · simp only [List.length_cons]
      omega
    · simp

theorem takeText_cons_lt (l : Str) (ls : List Str) (h : isTableLine l = false) :
    (takeText (l :: ls)).2.length < (l :: ls).length := by
  have := takeText_length ls
  simp only [takeText, h, Bool.false_eq_true, if_false, List.length_cons]
  omega

theorem takeTable_cons_lt (l : Str) (ls : List Str) (h : isTableLine l = true) :
    (takeTable (l :: ls)).2.length < (l :: ls).length := by
  have := takeTable_length ls
  simp only [takeTable, h, if_true, List.length_cons]
  omega

theorem segmentLoop_fuel (fuel : Nat) :
    ∀ (lines : List Str) (extra : Nat), lines.length ≤ fuel →
      segmentLoop (fuel + extra) lines = segmentLoop fuel lines := by
  induction fuel with
  | zero =>
    intro lines extra h
    have : lines = [] := List.length_eq_zero.mp (Nat.le_zero.mp h)
    subst this
    cases extra <;> simp [segmentLoop]
  | succ n ih =>
    intro lines extra h
    cases lines with
    | nil => simp [segmentLoop]
    | cons l ls =>
      have e : n + 1 + extra = (n + extra) + 1 := by omega
      rw [e]
      simp only [segmentLoop]
      cases hl : isTableLine l with
      | false =>
        have := takeText_cons_lt l ls hl
        simp only [Bool.not_false, if_true]
        rw [ih _ extra (by simp only [List.length_cons] at this h; omega)]
      | true =>
        have := takeTable_cons_lt l ls hl
        simp only [Bool.not_true, Bool.false_eq_true, if_false]
        rw [ih _ extra (by simp only [List.length_cons] at this h; omega)]

theorem renderBlocks_mono (f g : Str → Option Rendered)
    (hfg : ∀ c r, f c = some r → g c = some r) :
    ∀ (bs : List TableBlock) (rs : List Rendered),
      renderBlocks f bs = some rs → renderBlocks g bs = some rs := by
  intro bs
  induction bs with
  | nil => intro rs h; simpa [renderBlocks] using h
  | cons b bs ih =>
    intro rs h
    simp only [renderBlocks] at h ⊢
    cases hb : renderBlock f b with
    | none => simp [hb] at h
    | some r =>
      cases hbs : renderBlocks f bs with
      | none => simp [hb, hbs] at h
      | some rs1 =>
        have hg : renderBlock g b = some r := by
          cases b with
          | text lines => exact hfg _ _ hb
          | table lines => exact hb
        simp only [hb, hbs] at h
        simp only [hg, ih rs1 hbs]
        exact h

theorem FormattedMessage_mono (fuel : Nat) :
    ∀ (content : Str) (r : Rendered),
      FormattedMessage fuel content = some r → FormattedMessage (fuel + 1) content = some r := by
  induction fuel with
  | zero => intro content r h; simp [FormattedMessage] at h
  | succ n ih =>
    intro content r h
    by_cases hne : content = []
    · subst hne
      exact h
    · cases hg : tableGate content with
      | false =>
        rw [FormattedMessage_succ_of_not_gate n content hne hg] at h
        rw [FormattedMessage_succ_of_not_gate (n + 1) content hne hg]
        exact h
      | true =>
        rw [FormattedMessage_succ_of_gate n content hne hg] at h
        rw [FormattedMessage_succ_of_gate (n + 1) content hne hg]
        unfold TableRenderer at h ⊢
        cases hb : renderBlocks (FormattedMessage n) (segment content) with
        | none => simp [hb] at h
        | some rs =>
          simp only [hb] at h
          rw [renderBlocks_mono _ _ ih _ rs hb]
          exact h

theorem lit_some {α : Type} (p : Str) (k : Str → Option α) :
    ∀ (t : Str) (v : α), lit p k t = some v → ∃ r, t = p ++ r ∧ k r = some v := by
  induction p with
  | nil =>
    intro t v h
    cases t <;> exact ⟨_, rfl, h⟩
  | cons a as ih =>
    intro t v h
    cases t with
    | nil => simp [lit] at h
    | cons c cs =>
      simp only [lit] at h
      split at h
      · rename_i hac
        obtain ⟨r, hr, hk⟩ := ih cs v h
        exact ⟨r, by rw [hac, hr]; rfl, hk⟩
      · cases h

theorem star_some {α : Type} (cls : Char → Bool) (k : Str → Str → Option α) :
    ∀ (t acc : Str) (v : α), star cls k acc t = some v →
      ∃ a r, t = a ++ r ∧ (∀ c ∈ a, cls c = true) ∧ k (acc ++ a) r = some v := by
  intro t
  induction t with
  | nil =>
    intro acc v h
    exact ⟨[], [], rfl, by simp, by simpa [star] using h⟩
  | cons c cs ih =>
    intro acc v h
    simp only [star] at h
    split at h
    · rename_i hc
      split at h
      · rename_i w hw
        obtain ⟨a, r, hr, ha, hk⟩ := ih (acc ++ [c]) w hw
        refine ⟨c :: a, r, by rw [hr]; rfl, ?_, ?_⟩
        · intro x hx
          rcases List.mem_cons.mp hx with rfl | hx
          · exact hc
          · exact ha x hx
        · cases h
          simpa using hk
      · exact ⟨[], c :: cs, rfl, by simp, by simpa using h⟩
    · exact ⟨[], c :: cs, rfl, by simp, by simpa using h⟩

theorem plus_some {α : Type} (cls : Char → Bool) (k : Str → Str → Option α)
    (t : Str) (v : α) (h : plus cls k t = some v) :
    ∃ a r, a ≠ [] ∧ t = a ++ r ∧ (∀ c ∈ a, cls c = true) ∧ k a r = some v := by
  cases t with
  | nil => simp [plus] at h
  | cons c cs =>
    simp only [plus] at h
    split at h
    · rename_i hc
      obtain ⟨a, r, hr, ha, hk⟩ := star_some cls k cs [c] v h
      refine ⟨c :: a, r, by simp, by rw [hr]; rfl, ?_, by simpa using hk⟩
      intro x hx
      rcases List.mem_cons.mp hx with rfl | hx
      · exact hc
      · exact ha x hx
    · cases h

theorem lazyStar_some {α : Type} (cls : Char → Bool) (k : Str → Str → Option α) :
    ∀ (t acc : Str) (v : α), lazyStar cls k acc t = some v →
      ∃ a r, t = a ++ r ∧ (∀ c ∈ a, cls c = true) ∧ k (acc ++ a) r = some v := by
  intro t
  induction t with
  | nil =>
    intro acc v h
    exact ⟨[], [], rfl, by simp, by simpa [lazyStar] using h⟩
  | cons c cs ih =>
    intro acc v h
    simp only [lazyStar] at h
    split at h
    · rename_i w hw
      cases h
      exact ⟨[], c :: cs, rfl, by simp, by simpa using hw⟩
    · split at h
      · rename_i hc
        obtain ⟨a, r, hr, ha, hk⟩ := ih (acc ++ [c]) v h
        refine ⟨c :: a, r, by rw [hr]; rfl, ?_, by simpa using hk⟩
        intro x hx
        rcases List.mem_cons.mp hx with rfl | hx
        · exact hc
        · exact ha x hx
      · cases h

theorem lazyPlus_some {α : Type} (cls : Char → Bool) (k : Str → Str → Option α)
    (t : Str) (v : α) (h : lazyPlus cls k t = some v) :
    ∃ a r, a ≠ [] ∧ t = a ++ r ∧ (∀ c ∈ a, cls c = true) ∧ k a r = some v := by
  cases t with
  | nil => simp [lazyPlus] at h
  | cons c cs =>
    simp only [lazyPlus] at h
    split at h
    · rename_i hc
      obtain ⟨a, r, hr, ha, hk⟩ := lazyStar_some cls k cs [c] v h
      refine ⟨c :: a, r, by simp, by rw [hr]; rfl, ?_, by simpa using hk⟩
      intro x hx
      rcases List.mem_cons.mp hx with rfl | hx
      · exact hc
      · exact ha x hx
    · cases h

theorem one_some {α : Type} (cls : Char → Bool) (k : Str → Option α)
    (t : Str) (v : α) (h : one cls k t = some v) :
    ∃ c r, t = c :: r ∧ cls c = true ∧ k r = some v := by
  cases t with
  | nil => simp [one] at h
  | cons c cs =>
    simp only [one] at h
    split at h
    · rename_i hc
      exact ⟨c, cs, rfl, hc, h⟩
    · cases h

theorem execAll_index_lt (re : Pattern) (t : Str) :
    ∀ (idx skip : Nat) (m : RegexMatch), m ∈ execAll re idx skip t →
      idx ≤ m.index ∧ m.index < idx + t.length := by
  induction t with
  | nil => intro idx skip m h; simp [execAll] at h
  | cons c cs ih =>
    intro idx skip m h
    cases skip with
    | succ n =>
      simp only [execAll] at h
      have := ih _ _ m h
      simp only [List.length_cons]
      omega
    | zero =>
      simp only [execAll] at h
      split at h
      · rcases List.mem_cons.mp h with rfl | h
        · simp
        · have := ih _ _ m h
          simp only [List.length_cons]
          omega
      · have := ih _ _ m h
        simp only [List.length_cons]
        omega

theorem toActionMatch_index (ty : TagType) (m : RegexMatch) :
    (toActionMatch ty m).index = m.index := by
  cases ty <;> rfl

theorem toActionMatch_type (ty : TagType) (m : RegexMatch) :
    (toActionMatch ty m).type = ty := by
  cases ty <;> rfl

theorem mem_collectMatches (text : Str) (m : ActionMatch) :
    m ∈ collectMatches text ↔ ∃ p ∈ patterns, m ∈ matchesOf text p := by
  unfold collectMatches
  rw [List.mem_flatten]
  constructor
  · rintro ⟨l, hl, hm⟩
    obtain ⟨p, hp, rfl⟩ := List.mem_map.mp hl
    exact ⟨p, hp, hm⟩
  · rintro ⟨p, hp, hm⟩
    exact ⟨_, List.mem_map.mpr ⟨p, hp, rfl⟩, hm⟩

theorem collectMatches_index_lt (text : Str) (m : ActionMatch) (h : m ∈ collectMatches text) :
    m.index < text.length := by
  obtain ⟨p, _, hm⟩ := (mem_collectMatches text m).mp h
  unfold matchesOf at hm
  obtain ⟨rm, hrm, rfl⟩ := List.mem_map.mp hm
  have := execAll_index_lt p.1 text 0 0 rm hrm
  rw [toActionMatch_index]
  omega

theorem allMatches_index_lt (text : Str) (m : ActionMatch) (h : m ∈ allMatches text) :
    m.index < text.length :=
  collectMatches_index_lt text m ((List.mem_insertionSort _).mp h)

theorem startsWith_iff (p s : Str) : startsWith p s = true ↔ p <+: s := by
  unfold startsWith
  exact List.isPrefixOf_iff_prefix

theorem endsWith_iff (p s : Str) : endsWith p s = true ↔ p <:+ s := by
  unfold endsWith
  rw [List.isPrefixOf_iff_prefix, List.reverse_prefix]

theorem withSeparator_head (tableLines : List Str) :
    (withSeparator tableLines).getD 0 [] = tableLines.getD 0 [] := by
  unfold withSeparator
  split <;> rfl

theorem renderTable_of_two (tableLines : List Str) (h : 2 ≤ tableLines.length) :
    renderTable tableLines =
      .table (cleanHeaders (tableLines.getD 0 []))
        ((dataRows ((withSeparator tableLines).drop 2)).map
          (normalizeRow (cleanHeaders (tableLines.getD 0 [])).length)) := by
  unfold renderTable
  rw [if_neg (by omega)]
  simp only [withSeparator_head]

theorem element_isElement (m : ActionMatch) : (element m).isElement = true := by
  unfold element
  cases m.type <;> rfl

theorem element_label (m : ActionMatch) : (element m).label = m.content := by
  unfold element
  cases m.type <;> rfl

theorem fillBold_not_element (part : Str) (ms : List RegexMatch) :
    ∀ (last : Nat) (n : Node), n ∈ fillBold part ms last → n.isElement = false := by
  induction ms with
  | nil =>
    intro last n h
    simp only [fillBold] at h
    split at h
    · rw [List.mem_singleton.mp h]; rfl
    · cases h
  | cons m ms ih =>
    intro last n h
    simp only [fillBold, List.mem_append, List.mem_cons] at h
    rcases h with h | h | h
    · split at h
      · rw [List.mem_singleton.mp h]; rfl
      · cases h
    · rw [h]; rfl
    · exact ih _ n h

theorem filter_isElement_renderPart (n : Node) :
    (renderPart n).filter Node.isElement = [n].filter Node.isElement := by
  cases n with
  | text s =>
    show (boldParts s).filter Node.isElement = []
    rw [List.filter_eq_nil_iff]
    intro a ha
    rw [fillBold_not_element s _ 0 a ha]
    simp
  | _ => rfl

theorem filter_isElement_flatten (parts : List Node) :
    ((parts.map renderPart).flatten).filter Node.isElement = parts.filter Node.isElement := by
  induction parts with
  | nil => rfl
  | cons n ns ih =>
    rw [List.map_cons, List.flatten_cons, List.filter_append, ih, filter_isElement_renderPart,
      ← List.filter_append]
    rfl

theorem mem_buildParts (text : Str) (ms : List ActionMatch) :
    ∀ (lastIndex : Nat) (n : Node), n ∈ buildParts text ms lastIndex →
      (∃ m ∈ ms, n = element m) ∨
      (∃ a b, a < b ∧ n = .text (slice text a b) ∧
        (b = text.length ∨ ∃ m ∈ ms, b = m.index)) := by
  induction ms with
  | nil =>
    intro lastIndex n h
    simp only [buildParts] at h
    split at h
    · rename_i hlt
      right
      refine ⟨lastIndex, text.length, hlt, ?_, Or.inl rfl⟩
      rw [List.mem_singleton.mp h]
      simp [slice]
    · cases h
  | cons m ms ih =>
    intro lastIndex n h
    simp only [buildParts, List.mem_append, List.mem_cons] at h
    rcases h with h | h | h
    · split at h
      · rename_i hlt
        right
        exact ⟨lastIndex, m.index, hlt, List.mem_singleton.mp h,
          Or.inr ⟨m, List.mem_cons_self _ _, rfl⟩⟩
      · cases h
    · exact Or.inl ⟨m, List.mem_cons_self _ _, h⟩
    · rcases ih _ n h with ⟨m1, hm1, e⟩ | ⟨a, b, hab, e, hb⟩
      · exact Or.inl ⟨m1, List.mem_cons_of_mem _ hm1, e⟩
      · right
        refine ⟨a, b, hab, e, ?_⟩
        rcases hb with hb | ⟨m1, hm1, hb⟩
        · exact Or.inl hb
        · exact Or.inr ⟨m1, List.mem_cons_of_mem _ hm1, hb⟩

theorem buildParts_text_ne_nil (text : Str) (ms : List ActionMatch)
    (hms : ∀ m ∈ ms, m.index < text.length) (lastIndex : Nat) (s : Str)
    (h : Node.text s ∈ buildParts text ms lastIndex) : s ≠ [] := by
  rcases mem_buildParts text ms lastIndex _ h with ⟨m, _, e⟩ | ⟨a, b, hab, e, hb⟩
  · have := element_isElement m
    rw [← e] at this
    cases this
  · cases e
    have hb2 : b ≤ text.length := by
      rcases hb with hb | ⟨m, hm, hb⟩
      · omega
      · have := hms m hm
        omega
    intro hnil
    have : (slice text a b).length = b - a := by
      unfold slice
      rw [List.length_drop, List.length_take]
      omega
    rw [hnil] at this
    simp at this
    omega

theorem processActionableText_arr (text : Str) (parts : List Node)
    (h : processActionableText text = .arr parts) :
    text ≠ [] ∧ parts = buildParts text (allMatches text) 0 := by
  by_cases ht : text = []
  · subst ht
    cases h
  · rw [processActionableText_eq text ht] at h
    cases h
    exact ⟨ht, rfl⟩

theorem boldPattern_some (u : Str) (v : List Str × Str) (h : boldPattern u = some v) :
    "**".toList <+: u := by
  obtain ⟨r, hr, _⟩ := lit_some _ _ u v h
  exact ⟨r, hr.symm⟩

theorem boldParts_plain (s : Str) (hne : s ≠ []) (h : ¬ "**".toList <:+: s) :
    boldParts s = [.text s] := by
  unfold boldParts
  rw [execAll_nil_of_tails]
  · have : 0 < s.length := List.length_pos.mpr hne
    simp [fillBold, this]
  · intro u hu
    rw [List.mem_tails] at hu
    cases hb : boldPattern u with
    | none => rfl
    | some v =>
      exact absurd ((boldPattern_some u v hb).isInfix.trans hu.isInfix) h

theorem boldParts_ne_nil (s : Str) (hne : s ≠ []) : boldParts s ≠ [] := by
  unfold boldParts
  cases execAll boldPattern 0 0 s with
  | nil =>
    have : 0 < s.length := List.length_pos.mpr hne
    simp [fillBold, this]
  | cons m ms => simp [fillBold]

theorem renderInline_arr (text : Str) (parts : List Node)
    (h : processActionableText text = .arr parts) :
    renderInline text = .arr ((parts.map renderPart).flatten) := by
  obtain ⟨hne, hp⟩ := processActionableText_arr text parts h
  unfold renderInline
  rw [h]
  simp only
  have hlen : ((parts.map renderPart).flatten).length > 0 := by
    have hpl : parts.length > 0 := by
      rw [hp]
      exact buildParts_ne_nil text hne _
    cases parts with
    | nil => simp at hpl
    | cons n ns =>
      rw [List.map_cons, List.flatten_cons, List.length_append]
      have : (renderPart n).length > 0 := by
        cases n with
        | text s =>
          have hs : s ≠ [] :=
            buildParts_text_ne_nil text _ (allMatches_index_lt text) 0 s
              (by rw [← hp]; exact List.mem_cons_self _ _)
          exact List.length_pos.mpr (boldParts_ne_nil s hs)
        | _ => simp [renderPart]
      omega
  rw [if_pos hlen]

theorem trim_contained (s : Str) : trim s <:+: s := by
  unfold trim
  have h1 : ((s.dropWhile isWhiteSpace).reverse.dropWhile isWhiteSpace).reverse
      <+: s.dropWhile isWhiteSpace := by
    have := List.dropWhile_suffix (l := (s.dropWhile isWhiteSpace).reverse) isWhiteSpace
    rw [← List.reverse_prefix] at this
    simpa using this
  exact h1.isInfix.trans (List.dropWhile_suffix isWhiteSpace).isInfix

theorem trim_getLast (s : Str) (h : trim s ≠ []) :
    isWhiteSpace ((trim s).getLast h) = false := by
  unfold trim at h ⊢
  rw [List.getLast_reverse]
  exact List.head_dropWhile_not isWhiteSpace _ _

theorem splitChar_head (sep : Char) (s : Str) :
    ∃ p ps, splitChar sep s = p :: ps ∧ p <+: s := by
  induction s with
  | nil => exact ⟨[], [], rfl, List.prefix_refl _⟩
  | cons c cs ih =>
    obtain ⟨p, ps, hsp, hp⟩ := ih
    simp only [splitChar, hsp]
    split
    · exact ⟨[], p :: ps, rfl, List.nil_prefix⟩
    · obtain ⟨r, hr⟩ := hp
      exact ⟨c :: p, ps, rfl, ⟨r, by rw [← hr]; rfl⟩⟩

theorem mem_splitChar_contained (sep : Char) (s : Str) :
    ∀ l ∈ splitChar sep s, l <:+: s := by
  induction s with
  | nil =>
    intro l hl
    simp only [splitChar, List.mem_singleton] at hl
    rw [hl]
  | cons c cs ih =>
    intro l hl
    obtain ⟨p, ps, hsp, hp⟩ := splitChar_head sep cs
    simp only [splitChar, hsp] at hl
    split at hl
    · rcases List.mem_cons.mp hl with rfl | hl
      · exact List.nil_infix
      · exact (ih l (by rw [hsp]; exact hl)).trans (List.suffix_cons c cs).isInfix
    · rcases List.mem_cons.mp hl with rfl | hl
      · obtain ⟨r, hr⟩ := hp
        exact List.IsPrefix.isInfix ⟨r, by rw [← hr]; rfl⟩
      · exact (ih l (by rw [hsp]; exact List.mem_cons_of_mem _ hl)).trans
          (List.suffix_cons c cs).isInfix

theorem processActionableText_of_no_bracket (s : Str) (hne : s ≠ []) (hb : '[' ∉ s) :
    processActionableText s = .arr [.text s] := by
  have hq : ∀ q ∈ patterns, matchesOf s q = [] := by
    intro q hqm
    obtain ⟨h0, h1⟩ := patterns_start_at_bracket q hqm
    unfold matchesOf
    rw [execAll_nil_of_no_bracket q.1 h0 h1 s hb]
    rfl
  have hc : collectMatches s = [] := by
    unfold collectMatches
    rw [List.map_congr_left hq]
    simp [patterns]
  rw [processActionableText_eq s hne]
  unfold allMatches
  rw [hc]
  have : 0 < s.length := List.length_pos.mpr hne
  simp [buildParts, this]

theorem renderInline_plain (s : Str) (hne : s ≠ []) (hb : '[' ∉ s)
    (hs : ¬ "**".toList <:+: s) : renderInline s = .arr [.text s] := by
  rw [renderInline_arr s _ (processActionableText_of_no_bracket s hne hb)]
  show Inline.arr (boldParts s ++ []) = _
  rw [boldParts_plain s hne hs]
  rfl

theorem bulletMarker_some (t rem : Str) (h : bulletMarker t = some rem) :
    ∃ c ws, (c = '-' ∨ c = '*') ∧ ws ≠ [] ∧ (∀ w ∈ ws, isWhiteSpace w = true) ∧
      t = c :: (ws ++ rem) := by
  unfold bulletMarker at h
  obtain ⟨c, r, ht, hc, hk⟩ := one_some _ _ t rem h
  obtain ⟨a, r1, ha, hr, hws, hk1⟩ := plus_some _ _ r rem hk
  cases hk1
  refine ⟨c, a, ?_, ha, hws, by rw [ht, hr]⟩
  simpa using hc

theorem numberedMatch_some (t n c : Str) (h : numberedMatch t = some (n, c)) :
    ∃ ds ws tail, ds ≠ [] ∧ (∀ d ∈ ds, isDigit d = true) ∧
      (∀ w ∈ ws, isWhiteSpace w = true) ∧ c ≠ [] ∧ (∀ x ∈ c, dot x = true) ∧
      n = ds ++ ".".toList ++ ws ∧ t = ds ++ ".".toList ++ ws ++ c ++ tail := by
  unfold numberedMatch at h
  obtain ⟨ds, r, hds, ht, hdig, hk⟩ := plus_some _ _ t _ h
  obtain ⟨r1, hr1, hk1⟩ := lit_some _ _ r _ hk
  obtain ⟨ws, r2, hr2, hws, hk2⟩ := star_some _ _ r1 [] _ hk1
  obtain ⟨c1, tail, hc1, hr3, hdot, hk3⟩ := plus_some _ _ r2 _ hk2
  simp only [Option.some.injEq, Prod.mk.injEq, List.nil_append] at hk3
  obtain ⟨hn, hc⟩ := hk3
  subst hc
  refine ⟨ds, ws, tail, hds, hdig, hws, hc1, hdot, hn.symm, ?_⟩
  rw [ht, hr1, hr2, hr3]
  simp

theorem numberedBlock_plain (t : Str) (hne : t ≠ []) (hb : '[' ∉ t)
    (hs : ¬ "**".toList <:+: t) :
    ∃ lbl rem, rem ≠ [] ∧ rem <:+: t ∧
      numberedBlock t = .numbered lbl (.inline (.arr [.text rem])) := by
  unfold numberedBlock
  cases hm : numberedMatch t with
  | none =>
    refine ⟨trim [], t, hne, List.infix_refl _, ?_⟩
    simp only [renderInline_plain t hne hb hs]
  | some nc =>
    obtain ⟨n, c⟩ := nc
    obtain ⟨ds, ws, tail, _, _, _, hc, _, _, ht⟩ := numberedMatch_some t n c hm
    have hinf : c <:+: t := ⟨ds ++ ".".toList ++ ws, tail, ht.symm⟩
    have hcb : '[' ∉ c := fun h => hb (hinf.subset h)
    have hcs : ¬ "**".toList <:+: c := fun h => hs (h.trans hinf)
    refine ⟨trim n, c, hc, hinf, ?_⟩
    simp only [renderInline_plain c hc hcb hcs]

theorem classifyLine_plain (l : Str) (hne : trim l ≠ []) (hb : '[' ∉ l)
    (hs : ¬ "**".toList <:+: l) :
    classifyLine l = .paragraph (.arr [.text (trim l)]) ∨
    (∃ rem, rem ≠ [] ∧ rem <:+ trim l ∧ classifyLine l = .bullet (.arr [.text rem])) ∨
    (∃ lbl rem, rem ≠ [] ∧ rem <:+: trim l ∧
      classifyLine l = .numbered lbl (.inline (.arr [.text rem]))) := by
  have hlast := trim_getLast l
  have hb : '[' ∉ trim l := fun h => hb ((trim_contained l).subset h)
  have hs : ¬ "**".toList <:+: trim l := fun h => hs (h.trans (trim_contained l))
  have hempty : (trim l).isEmpty = false := by
    cases ht : trim l with
    | nil => exact absurd ht hne
    | cons a as => rfl
  unfold classifyLine
  simp only [hempty, Bool.false_eq_true, if_false]
  generalize trim l = t at *
  have hstar : startsWith "**".toList t = false := by
    cases h : startsWith "**".toList t with
    | false => rfl
    | true => exact absurd ((startsWith_iff _ _).mp h).isInfix hs
  simp only [hstar, Bool.false_and, Bool.false_eq_true, if_false]
  cases hg : startsWith bulletGlyph t with
  | true =>
    right; left
    obtain ⟨r, hr⟩ := (startsWith_iff _ _).mp hg
    have hsuf : t.drop 2 <:+ t := List.drop_suffix 2 t
    have hrne : t.drop 2 ≠ [] := by
      rw [← hr]
      simp [bulletGlyph]
    refine ⟨t.drop 2, hrne, hsuf, ?_⟩
    simp only [Bool.true_or, if_true]
    rw [renderInline_plain _ hrne (fun h => hb (hsuf.subset h))
      (fun h => hs (h.trans hsuf.isInfix))]
  | false =>
    cases hm : bulletMarker t with
    | some rem =>
      right; left
      obtain ⟨c, ws, _, hws, hwsall, ht⟩ := bulletMarker_some t rem hm
      have hsuf : rem <:+ t := ⟨c :: ws, by rw [ht]; rfl⟩
      have hrne : rem ≠ [] := by
        intro hnil
        subst hnil
        have key : ∀ (u : Str) (hu : u ≠ []), u = c :: ws → u.getLast hu ∈ ws := by
          intro u hu e
          subst e
          rw [List.getLast_cons hws]
          exact List.getLast_mem hws
        have hl := hlast hne
        rw [hwsall _ (key t hne (by rw [ht]; simp))] at hl
        cases hl
      refine ⟨rem, hrne, hsuf, ?_⟩
      simp only [Option.isSome_some, Bool.or_true, if_true, Bool.false_eq_true, if_false,
        Option.getD_some]
      rw [renderInline_plain _ hrne (fun h => hb (hsuf.subset h))
        (fun h => hs (h.trans hsuf.isInfix))]
    | none =>
      simp only [Option.isSome_none, Bool.or_false, Bool.false_eq_true, if_false]
      cases hn : numberedTest t with
      | true =>
        right; right
        simp only [if_true]
        exact numberedBlock_plain t hne hb hs
      | false =>
        left
        simp only [Bool.false_eq_true, if_false]
        rw [renderInline_plain t hne hb hs]

theorem classifyLine_paragraph (l : Str) (c : Char) (cs : Str) (ht : trim l = c :: cs)
    (hb : '[' ∉ l) (hs : ¬ "**".toList <:+: l)
    (h1 : c ≠ '-') (h2 : c ≠ '*') (h3 : c ≠ Char.ofNat 0x201A) (h4 : isDigit c = false) :
    classifyLine l = .paragraph (.arr [.text (trim l)]) := by
  have hne : trim l ≠ [] := by rw [ht]; simp
  have hb : '[' ∉ trim l := fun h => hb ((trim_contained l).subset h)
  have hs : ¬ "**".toList <:+: trim l := fun h => hs (h.trans (trim_contained l))
  have hstar : startsWith "**".toList (trim l) = false := by
    cases h : startsWith "**".toList (trim l) with
    | false => rfl
    | true => exact absurd ((startsWith_iff _ _).mp h).isInfix hs
  unfold classifyLine
  simp only [hstar, Bool.false_and, Bool.false_eq_true, if_false]
  rw [renderInline_plain _ hne hb hs]
  rw [ht]
  have hg : startsWith bulletGlyph (c :: cs) = false := by
    simp [startsWith, bulletGlyph, List.isPrefixOf, Ne.symm h3]
  have hm : bulletMarker (c :: cs) = none := by
    simp [bulletMarker, one, h1, h2]
  have hn : numberedTest (c :: cs) = false := by
    simp [numberedTest, plus, h4]
  simp [hg, hm, hn]

theorem allMatches_sorted (text : Str) :
    (allMatches text).Sorted (fun a b => a.index ≤ b.index) :=
  @List.sorted_insertionSort _ (fun a b : ActionMatch => a.index ≤ b.index) _
    ⟨fun a b => Nat.le_total a.index b.index⟩ ⟨fun _ _ _ h1 h2 => Nat.le_trans h1 h2⟩ _

theorem allMatches_filter_index (text : Str) (i : Nat) :
    (allMatches text).filter (fun m => m.index == i)
      = (collectMatches text).filter (fun m => m.index == i) := by
  have hpw : ((collectMatches text).filter (fun m => m.index == i)).Pairwise
      (fun a b => a.index ≤ b.index) := by
    rw [List.pairwise_iff_forall_sublist]
    intro a b hab
    have ha : a ∈ (collectMatches text).filter (fun m => m.index == i) :=
      hab.subset (by simp)
    have hb : b ∈ (collectMatches text).filter (fun m => m.index == i) :=
      hab.subset (by simp)
    have ha2 := (List.mem_filter.mp ha).2
    have hb2 := (List.mem_filter.mp hb).2
    simp only [beq_iff_eq] at ha2 hb2
    omega
  have hsub : List.Sublist ((collectMatches text).filter (fun m => m.index == i))
      (allMatches text) :=
    @List.sublist_insertionSort _ (fun a b : ActionMatch => a.index ≤ b.index) _ _ _
      hpw (List.filter_sublist _)
  have hsub2 := hsub.filter (fun m => m.index == i)
  rw [List.filter_filter] at hsub2
  simp only [Bool.and_self] at hsub2
  have hlen : ((collectMatches text).filter (fun m => m.index == i)).length
      = ((allMatches text).filter (fun m => m.index == i)).length :=
    ((List.perm_insertionSort _ (collectMatches text)).filter _).length_eq.symm
  exact (hsub2.eq_of_length hlen).symm

theorem flatten_map_sorted (text : Str) (f : TagType → Nat) :
    ∀ ps : List (Pattern × TagType), (ps.map (fun p => f p.2)).Sorted (· ≤ ·) →
      (((ps.map (matchesOf text)).flatten).map (fun m => f m.type)).Sorted (· ≤ ·) := by
  intro ps
  induction ps with
  | nil => intro _; simp
  | cons p ps ih =>
    intro h
    rw [List.map_cons, List.sorted_cons] at h
    rw [List.map_cons, List.flatten_cons, List.map_append]
    unfold List.Sorted
    rw [List.pairwise_append]
    have htype : ∀ m ∈ matchesOf text p, m.type = p.2 := by
      intro m hm
      unfold matchesOf at hm
      obtain ⟨rm, _, rfl⟩ := List.mem_map.mp hm
      exact toActionMatch_type _ _
    refine ⟨?_, ih h.2, ?_⟩
    · rw [List.pairwise_map]
      rw [List.pairwise_iff_forall_sublist]
      intro a b hab
      have ha : a ∈ matchesOf text p := hab.subset (by simp)
      have hb : b ∈ matchesOf text p := hab.subset (by simp)
      rw [htype a ha, htype b hb]
    · intro a ha b hb
      obtain ⟨m, hm, rfl⟩ := List.mem_map.mp ha
      obtain ⟨m2, hm2, rfl⟩ := List.mem_map.mp hb
      obtain ⟨l, hl, hml⟩ := List.mem_flatten.mp hm2
      obtain ⟨q, hq, rfl⟩ := List.mem_map.mp hl
      have hq2 : m2.type = q.2 := by
        unfold matchesOf at hml
        obtain ⟨rm, _, rfl⟩ := List.mem_map.mp hml
        exact toActionMatch_type _ _
      rw [htype m hm, hq2]
      exact h.1 _ (List.mem_map.mpr ⟨q, hq, rfl⟩)

theorem registrationIndex_patterns :
    patterns.map (fun p => registrationIndex p.2) = [0, 1, 2, 3, 4, 5, 6] := by
  decide

theorem collectMatches_registration_sorted (text : Str) :
    ((collectMatches text).map (fun m => registrationIndex m.type)).Sorted (· ≤ ·) := by
  unfold collectMatches
  apply flatten_map_sorted
  rw [registrationIndex_patterns]
  decide

theorem buildParts_filter_isElement (text : Str) (ms : List ActionMatch) :
    ∀ lastIndex, (buildParts text ms lastIndex).filter Node.isElement = ms.map element := by
  induction ms with
  | nil =>
    intro lastIndex
    simp only [buildParts]
    split <;> rfl
  | cons m ms ih =>
    intro lastIndex
    simp only [buildParts, List.filter_append, List.map_cons]
    rw [List.filter_cons_of_pos (element_isElement m), ih]
    split <;> rfl

theorem dropWhile_append_of_nil {α : Type} (p : α → Bool) (l m : List α)
    (h : l.dropWhile p = []) : (l ++ m).dropWhile p = m.dropWhile p := by
  induction l with
  | nil => rfl
  | cons a as ih =>
    simp only [List.dropWhile_cons] at h
    split at h
    · rename_i ha
      simp only [List.cons_append, List.dropWhile_cons, ha, if_true]
      exact ih h
    · cases h

theorem dropWhile_append_of_ne_nil {α : Type} (p : α → Bool) (l m : List α)
    (h : l.dropWhile p ≠ []) : (l ++ m).dropWhile p = l.dropWhile p ++ m := by
  induction l with
  | nil => exact absurd rfl h
  | cons a as ih =>
    simp only [List.dropWhile_cons] at h ⊢
    simp only [List.cons_append, List.dropWhile_cons]
    split
    · rename_i ha
      simp only [ha, if_true] at h
      exact ih h
    · rfl

theorem trim_cons_ws (c : Char) (s : Str) (hc : isWhiteSpace c = true) :
    trim (c :: s) = trim s := by
  unfold trim
  simp only [List.dropWhile_cons, hc, if_true]

theorem trim_append_ws (c : Char) (s : Str) (hc : isWhiteSpace c = true) :
    trim (s ++ [c]) = trim s := by
  unfold trim
  by_cases h : s.dropWhile isWhiteSpace = []
  · rw [dropWhile_append_of_nil _ _ _ h, h]
    simp [List.dropWhile_cons, hc]
  · rw [dropWhile_append_of_ne_nil _ _ _ h]
    simp only [List.reverse_append, List.reverse_cons, List.reverse_nil, List.nil_append,
      List.singleton_append, List.dropWhile_cons, hc, if_true]

theorem splitChar_cons_sep (sep : Char) (s : Str) :
    splitChar sep (sep :: s) = [] :: splitChar sep s := by
  simp [splitChar]

theorem splitChar_cons_ne (sep c : Char) (s : Str) (p : Str) (ps : List Str)
    (hc : c ≠ sep) (h : splitChar sep s = p :: ps) :
    splitChar sep (c :: s) = (c :: p) :: ps := by
  simp [splitChar, hc, h]

theorem splitChar_append_sep (sep : Char) (w rest : Str) (hw : sep ∉ w) :
    splitChar sep (w ++ sep :: rest) = w :: splitChar sep rest := by
  induction w with
  | nil => exact splitChar_cons_sep sep rest
  | cons a as ih =>
    have ha : a ≠ sep := fun h => hw (by simp [h])
    have has : sep ∉ as := fun h => hw (by simp [h])
    exact splitChar_cons_ne sep a _ _ _ ha (ih has)

theorem splitChar_snoc (sep c : Char) (hc : c ≠ sep) (s : Str) :
    ∃ init last, splitChar sep s = init ++ [last] ∧
      splitChar sep (s ++ [c]) = init ++ [last ++ [c]] := by
  induction s with
  | nil =>
    refine ⟨[], [], rfl, ?_⟩
    simp [splitChar, hc]
  | cons a as ih =>
    obtain ⟨init, last, h1, h2⟩ := ih
    by_cases ha : a = sep
    · subst ha
      refine ⟨[] :: init, last, ?_, ?_⟩
      · rw [splitChar_cons_sep, h1]; rfl
      · rw [List.cons_append, splitChar_cons_sep, h2]; rfl
    · cases init with
      | nil =>
        refine ⟨[], a :: last, ?_, ?_⟩
        · rw [splitChar_cons_ne sep a as last [] ha h1]; rfl
        · rw [List.cons_append, splitChar_cons_ne sep a _ (last ++ [c]) [] ha h2]; rfl
      | cons i0 irest =>
        refine ⟨(a :: i0) :: irest, last, ?_, ?_⟩
        · rw [splitChar_cons_ne sep a as i0 (irest ++ [last]) ha h1]; rfl
        · rw [List.cons_append,
            splitChar_cons_ne sep a _ i0 (irest ++ [last ++ [c]]) ha h2]; rfl

theorem ws_ne_pipe (c : Char) (hc : isWhiteSpace c = true) : c ≠ '|' := by
  rintro rfl
  revert hc
  decide

theorem cellsOf_cons_ws (c : Char) (s : Str) (hc : isWhiteSpace c = true) :
    cellsOf (c :: s) = cellsOf s := by
  obtain ⟨p, ps, h, _⟩ := splitChar_head '|' s
  unfold cellsOf
  rw [splitChar_cons_ne '|' c s p ps (ws_ne_pipe c hc) h, h]
  simp only [List.map_cons, trim_cons_ws c p hc]

theorem cellsOf_snoc_ws (c : Char) (s : Str) (hc : isWhiteSpace c = true) :
    cellsOf (s ++ [c]) = cellsOf s := by
  obtain ⟨init, last, h1, h2⟩ := splitChar_snoc '|' c (ws_ne_pipe c hc) s
  unfold cellsOf
  rw [h1, h2]
  simp only [List.map_append, List.map_cons, List.map_nil, trim_append_ws c last hc]

theorem cellsOf_dropWhile (s : Str) : cellsOf (s.dropWhile isWhiteSpace) = cellsOf s := by
  induction s with
  | nil => rfl
  | cons c cs ih =>
    simp only [List.dropWhile_cons]
    split
    · rename_i hc
      rw [ih, cellsOf_cons_ws c cs hc]
    · rfl

theorem cellsOf_reverse_dropWhile (r : Str) :
    cellsOf (r.dropWhile isWhiteSpace).reverse = cellsOf r.reverse := by
  induction r with
  | nil => rfl
  | cons c cs ih =>
    simp only [List.dropWhile_cons]
    split
    · rename_i hc
      rw [ih, List.reverse_cons, cellsOf_snoc_ws c _ hc]
    · rfl

theorem cellsOf_trim (s : Str) : cellsOf (trim s) = cellsOf s := by
  unfold trim
  rw [cellsOf_reverse_dropWhile, List.reverse_reverse, cellsOf_dropWhile]

theorem cellsOf_cons_pipe (s : Str) : cellsOf ('|' :: s) = cellsOf s := by
  unfold cellsOf
  rw [splitChar_cons_sep]
  rfl

theorem cellsOf_append_pipe (w rest : Str) (hw : '|' ∉ w) (ht : trim w ≠ []) :
    cellsOf (w ++ '|' :: rest) = trim w :: cellsOf rest := by
  unfold cellsOf
  rw [splitChar_append_sep '|' w rest hw, List.map_cons, List.filter_cons_of_pos]
  cases h : trim w with
  | nil => exact absurd h ht
  | cons a as => rfl

theorem intercalate_cons_cons (sep x y : Str) (l : List Str) :
    join sep (x :: y :: l) = x ++ sep ++ join sep (y :: l) := by
  simp [join, List.intercalate, List.intersperse]

theorem cellsOf_separator_body (n : Nat) :
    cellsOf (join " | ".toList (List.replicate n "---".toList) ++ " |".toList)
      = List.replicate n "---".toList := by
  induction n with
  | zero => decide
  | succ n ih =>
    cases n with
    | zero => decide
    | succ k =>
      rw [List.replicate_succ, List.replicate_succ, intercalate_cons_cons,
        ← List.replicate_succ]
      have e : "---".toList ++ " | ".toList
            ++ join " | ".toList (List.replicate (k + 1) "---".toList) ++ " |".toList
          = "--- ".toList ++ '|' :: (' ' ::
            (join " | ".toList (List.replicate (k + 1) "---".toList) ++ " |".toList)) := by
        simp
      rw [e, cellsOf_append_pipe _ _ (by decide) (by decide),
        cellsOf_cons_ws _ _ (by decide), ih]
      rfl

theorem cellsOf_separatorLine (n : Nat) :
    cellsOf (separatorLine n) = List.replicate n "---".toList := by
  have e : separatorLine n
      = '|' :: ' ' :: (join " | ".toList (List.replicate n "---".toList) ++ " |".toList) := by
    simp [separatorLine]
  rw [e, cellsOf_cons_pipe, cellsOf_cons_ws _ _ (by decide), cellsOf_separator_body]

theorem takeTable_mem (ls : List Str) :
    ∀ l ∈ (takeTable ls).1, l ∈ ls ∧ (cellsOf (trim l)).length > 0 := by
  induction ls with
  | nil => intro l hl; simp [takeTable] at hl
  | cons a as ih =>
    intro l hl
    simp only [takeTable] at hl
    split at hl
    · simp only at hl
      split at hl
      · rename_i hcells
        rcases List.mem_cons.mp hl with rfl | hl
        · exact ⟨List.mem_cons_self _ _, hcells⟩
        · exact ⟨List.mem_cons_of_mem _ (ih l hl).1, (ih l hl).2⟩
      · exact ⟨List.mem_cons_of_mem _ (ih l hl).1, (ih l hl).2⟩
    · cases hl

theorem takeTable_suffix (ls : List Str) : (takeTable ls).2 <:+ ls := by
  induction ls with
  | nil => simp [takeTable]
  | cons a as ih =>
    simp only [takeTable]
    split
    · exact ih.trans (List.suffix_cons a as)
    · exact List.suffix_refl _

theorem takeText_suffix (ls : List Str) : (takeText ls).2 <:+ ls := by
  induction ls with
  | nil => simp [takeText]
  | cons a as ih =>
    simp only [takeText]
    split
    · exact List.suffix_refl _
    · exact ih.trans (List.suffix_cons a as)

theorem segmentLoop_table_mem (fuel : Nat) :
    ∀ (lines tl : List Str), TableBlock.table tl ∈ segmentLoop fuel lines →
      tl ≠ [] ∧ ∀ l ∈ tl, l ∈ lines ∧ (cellsOf (trim l)).length > 0 := by
  induction fuel with
  | zero => intro lines tl h; simp [segmentLoop] at h
  | succ n ih =>
    intro lines tl h
    cases lines with
    | nil => simp [segmentLoop] at h
    | cons a as =>
      simp only [segmentLoop] at h
      split at h
      · rw [List.mem_append] at h
        rcases h with h | h
        · split at h
          · simp at h
          · cases h
        · obtain ⟨h1, h2⟩ := ih _ tl h
          exact ⟨h1, fun l hl => ⟨(takeText_suffix (a :: as)).subset (h2 l hl).1, (h2 l hl).2⟩⟩
      · rw [List.mem_append] at h
        rcases h with h | h
        · split at h
          · rename_i hpos
            have e : tl = (takeTable (a :: as)).1 := by
              simpa using h
            subst e
            exact ⟨List.length_pos.mp hpos, takeTable_mem (a :: as)⟩
          · cases h
        · obtain ⟨h1, h2⟩ := ih _ tl h
          exact ⟨h1, fun l hl => ⟨(takeTable_suffix (a :: as)).subset (h2 l hl).1, (h2 l hl).2⟩⟩

theorem segment_table_mem (content : Str) (tl : List Str)
    (h : TableBlock.table tl ∈ segment content) :
    tl ≠ [] ∧ ∀ l ∈ tl, l ∈ splitChar '\n' content ∧ cellsOf l ≠ [] := by
  obtain ⟨h1, h2⟩ := segmentLoop_table_mem _ _ tl h
  refine ⟨h1, fun l hl => ⟨(h2 l hl).1, ?_⟩⟩
  have := (h2 l hl).2
  rw [cellsOf_trim] at this
  exact List.length_pos.mp this

theorem cleanHeaders_of_cells (headerLine : Str) (h : cellsOf headerLine ≠ []) :
    cleanHeaders headerLine = cellsOf headerLine := by
  unfold cleanHeaders
  simp only
  rw [if_pos (List.length_pos.mpr h)]

theorem cleanHeaders_of_no_cells (headerLine : Str) (h : cellsOf headerLine = []) :
    cleanHeaders headerLine
      = ["Column 1".toList, "Column 2".toList, "Column 3".toList, "Column 4".toList] := by
  unfold cleanHeaders
  simp only [h]
  decide

theorem withSeparator_of_sep (tableLines : List Str)
    (h : "---".toList <:+: tableLines.getD 1 []) : withSeparator tableLines = tableLines := by
  unfold withSeparator
  have h1 : includes "---".toList (tableLines.getD 1 []) = true :=
    (includes_iff_contains _ _).mpr h
  have h2 : (tableLines.getD 1 []).isEmpty = false := by
    cases hl : tableLines.getD 1 [] with
    | nil =>
      rw [hl] at h
      exact absurd h (by decide)
    | cons a as => rfl
  rw [h1, h2]
  simp only [Bool.not_true, Bool.or_self, Bool.false_eq_true, if_false]

theorem withSeparator_of_no_sep (tableLines : List Str)
    (h : ¬ "---".toList <:+: tableLines.getD 1 []) :
    withSeparator tableLines =
      tableLines.getD 0 [] ::
        separatorLine (if (cellsOf (tableLines.getD 0 [])).length = 0 then 4
          else (cellsOf (tableLines.getD 0 [])).length) :: tableLines.drop 1 := by
  unfold withSeparator
  have h1 : includes "---".toList (tableLines.getD 1 []) = false := by
    cases hi : includes "---".toList (tableLines.getD 1 []) with
    | false => rfl
    | true => exact absurd ((includes_iff_contains _ _).mp hi) h
  rw [h1]
  simp only [Bool.not_false, Bool.or_true, if_true]

theorem renderBlocks_append (render : Str → Option Rendered) (pre post : List TableBlock)
    (rs1 rs2 : List Rendered) (h1 : renderBlocks render pre = some rs1)
    (h2 : renderBlocks render post = some rs2) :
    renderBlocks render (pre ++ post) = some (rs1 ++ rs2) := by
  induction pre generalizing rs1 with
  | nil =>
    simp only [renderBlocks, Option.some.injEq] at h1
    subst h1
    exact h2
  | cons b bs ih =>
    simp only [renderBlocks] at h1
    cases hb : renderBlock render b with
    | none => simp [hb] at h1
    | some r =>
      cases hbs : renderBlocks render bs with
      | none => simp [hb, hbs] at h1
      | some rs =>
        simp only [hb, hbs, Option.some.injEq] at h1
        subst h1
        show renderBlocks render (b :: (bs ++ post)) = _
        simp only [renderBlocks, hb, ih rs hbs]
        rfl

theorem blocksOfList_append (rs1 rs2 : List Rendered) :
    blocksOfList (rs1 ++ rs2) = blocksOfList rs1 ++ blocksOfList rs2 := by
  induction rs1 with
  | nil => simp [blocksOfList]
  | cons r rs ih => simp [blocksOfList, ih]

theorem mem_normalizeRow (n : Nat) (row : List Str) (cell : Str)
    (h : cell ∈ normalizeRow n row) : cell ∈ row ∨ cell = [] := by
  unfold normalizeRow at h
  split at h
  · exact Or.inl h
  · split at h
    · rcases List.mem_append.mp h with h | h
      · exact Or.inl h
      · exact Or.inr (List.eq_of_mem_replicate h)
    · exact Or.inl (List.mem_of_mem_take h)

theorem mem_cellsOf (line cell : Str) (h : cell ∈ cellsOf line) :
    cell ≠ [] ∧ ∃ piece ∈ splitChar '|' line, cell = trim piece := by
  unfold cellsOf at h
  obtain ⟨h1, h2⟩ := List.mem_filter.mp h
  obtain ⟨piece, hp, rfl⟩ := List.mem_map.mp h1
  refine ⟨?_, piece, hp, rfl⟩
  intro e
  rw [e] at h2
  cases h2

theorem mem_dataRows (dataLines : List Str) (row : List Str) (h : row ∈ dataRows dataLines) :
    ∃ l ∈ dataLines, row = cellsOf l := by
  unfold dataRows at h
  obtain ⟨h1, _⟩ := List.mem_filter.mp h
  obtain ⟨cells, hc, rfl⟩ := List.mem_map.mp h1
  obtain ⟨l, hl, rfl⟩ := List.mem_map.mp hc
  exact ⟨l, hl, rfl⟩

theorem cleanHeaders_ne_nil (headerLine : Str) : cleanHeaders headerLine ≠ [] := by
  by_cases h : cellsOf headerLine = []
  · rw [cleanHeaders_of_no_cells _ h]
    simp
  · rw [cleanHeaders_of_cells _ h]
    exact h

theorem dataRows_ne_nil (dataLines : List Str) (row : List Str) (h : row ∈ dataRows dataLines) :
    row ≠ [] := by
  unfold dataRows at h
  have h2 := (List.mem_filter.mp h).2
  intro e
  rw [e] at h2
  simp at h2

theorem normalizeRow_packed (n : Nat) (r : List Str) (hn : 0 < n) (hr : r ≠ [])
    (hall : ∀ c ∈ r, c ≠ []) :
    ∃ cells k, normalizeRow n r = cells ++ List.replicate k [] ∧ cells ≠ [] ∧
      ∀ c ∈ cells, c ≠ [] := by
  unfold normalizeRow
  split
  · exact ⟨r, 0, by simp, hr, hall⟩
  · split
    · exact ⟨r, n - r.length, rfl, hr, hall⟩
    · refine ⟨r.take n, 0, by simp, ?_, fun c hc => hall c (List.mem_of_mem_take hc)⟩
      cases r with
      | nil => exact absurd rfl hr
      | cons a as =>
        cases n with
        | zero => omega
        | succ m => simp

theorem star_greedy {α : Type} (cls : Char → Bool) (k : Str → Str → Option α) (v : α) :
    ∀ (t acc : Str), k (acc ++ t.takeWhile cls) (t.dropWhile cls) = some v →
      star cls k acc t = some v := by
  intro t
  induction t with
  | nil =>
    intro acc h
    simpa [star] using h
  | cons c cs ih =>
    intro acc h
    simp only [star]
    cases hc : cls c with
    | true =>
      simp only [List.takeWhile_cons, List.dropWhile_cons, hc, if_true] at h
      have := ih (acc ++ [c]) (by simpa using h)
      simp [this]
    | false =>
      simp only [List.takeWhile_cons, List.dropWhile_cons, hc, Bool.false_eq_true, if_false,
        List.append_nil] at h
      simpa using h

theorem plus_greedy {α : Type} (cls : Char → Bool) (k : Str → Str → Option α) (v : α)
    (c : Char) (cs : Str) (hc : cls c = true)
    (h : k ((c :: cs).takeWhile cls) ((c :: cs).dropWhile cls) = some v) :
    plus cls k (c :: cs) = some v := by
  simp only [plus, hc, if_true]
  apply star_greedy
  simpa [List.takeWhile_cons, List.dropWhile_cons, hc] using h

theorem dot_of_not_ws (c : Char) (h : isWhiteSpace c = false) : dot c = true := by
  unfold dot isLineTerminator
  unfold isWhiteSpace at h
  simp only [Bool.or_eq_false_iff] at h
  simp only [Bool.not_eq_true', Bool.or_eq_false_iff]
  tauto

theorem trim_append_all_ws (ws : Str) (hws : ∀ w ∈ ws, isWhiteSpace w = true) :
    ∀ s : Str, trim (s ++ ws) = trim s := by
  induction ws using List.reverseRecOn with
  | nil => intro s; simp
  | append_singleton ws w ih =>
    intro s
    rw [← List.append_assoc, trim_append_ws w _ (hws w (by simp))]
    exact ih (fun x hx => hws x (by simp [hx])) s

theorem trim_id (c : Char) (cs : Str) (hc : isWhiteSpace c = false)
    (hl : isWhiteSpace ((c :: cs).getLast (by simp)) = false) : trim (c :: cs) = c :: cs := by
  unfold trim
  have h1 : (c :: cs).dropWhile isWhiteSpace = c :: cs := by
    simp [List.dropWhile_cons, hc]
  rw [h1]
  have h2 : ∀ (r : Str) (hr : r ≠ []), isWhiteSpace (r.head hr) = false →
      r.dropWhile isWhiteSpace = r := by
    intro r hr hh
    cases r with
    | nil => exact absurd rfl hr
    | cons a as =>
      simp only [List.head_cons] at hh
      simp [List.dropWhile_cons, hh]
  rw [h2 (c :: cs).reverse (by simp) (by rw [List.head_reverse]; exact hl)]
  simp

theorem renderInline_nonempty (s : Str) (hne : s ≠ []) :
    ∃ nodes, nodes ≠ [] ∧ renderInline s = .arr nodes := by
  have hp := processActionableText_eq s hne
  refine ⟨_, ?_, renderInline_arr s _ hp⟩
  have hpl := buildParts_ne_nil s hne (allMatches s)
  cases hb : buildParts s (allMatches s) 0 with
  | nil => rw [hb] at hpl; simp at hpl
  | cons n ns =>
    rw [List.map_cons, List.flatten_cons]
    have : renderPart n ≠ [] := by
      cases n with
      | text t =>
        have ht : t ≠ [] :=
          buildParts_text_ne_nil s _ (allMatches_index_lt s) 0 t
            (by rw [hb]; exact List.mem_cons_self _ _)
        exact boldParts_ne_nil t ht
      | _ => simp [renderPart]
    intro e
    exact this (List.append_eq_nil.mp e).1

theorem bulletMarker_eq (c w : Char) (r : Str) (hc : c = '-' ∨ c = '*')
    (hw : isWhiteSpace w = true) :
    bulletMarker (c :: w :: r) = some ((w :: r).dropWhile isWhiteSpace) := by
  unfold bulletMarker
  have h1 : (c == '-' || c == '*') = true := by
    rcases hc with rfl | rfl <;> decide
  simp only [one, h1, if_true]
  exact plus_greedy _ _ _ w r hw rfl

theorem classifyLine_bullet (l : Str) (c w : Char) (r : Str) (ht : trim l = c :: w :: r)
    (hc : c = '-' ∨ c = '*') (hw : isWhiteSpace w = true) :
    classifyLine l = .bullet (renderInline ((w :: r).dropWhile isWhiteSpace)) := by
  unfold classifyLine
  simp only [ht]
  have hstar : startsWith "**".toList (c :: w :: r) = false := by
    have hw2 : w ≠ '*' := by
      rintro rfl
      revert hw
      decide
    rcases hc with rfl | rfl
    · rfl
    · simp [startsWith, List.isPrefixOf, Ne.symm hw2]
  have hg : startsWith bulletGlyph (c :: w :: r) = false := by
    rcases hc with rfl | rfl <;> rfl
  rw [hstar, hg, bulletMarker_eq c w r hc hw]
  rfl

theorem numberedTest_some (t : Str) (h : numberedTest t = true) :
    ∃ ds w r, ds ≠ [] ∧ (∀ d ∈ ds, isDigit d = true) ∧ isWhiteSpace w = true ∧
      t = ds ++ '.' :: w :: r := by
  unfold numberedTest at h
  rw [Option.isSome_iff_exists] at h
  obtain ⟨v, hv⟩ := h
  obtain ⟨ds, r1, hds, ht, hdig, hk⟩ := plus_some _ _ t v hv
  obtain ⟨r2, hr2, hk2⟩ := lit_some _ _ r1 v hk
  obtain ⟨w, r3, hr3, hw, _⟩ := one_some _ _ r2 v hk2
  exact ⟨ds, w, r3, hds, hdig, hw, by rw [ht, hr2, hr3]; rfl⟩

theorem digit_not_ws (d : Char) (h : isDigit d = true) : isWhiteSpace d = false := by
  unfold isDigit at h
  simp only [Bool.and_eq_true, decide_eq_true_eq] at h
  unfold isWhiteSpace
  simp only [Bool.or_eq_false_iff, beq_eq_false_iff_ne, ne_eq, Bool.and_eq_false_imp,
    decide_eq_true_eq, decide_eq_false_iff_not]
  omega

theorem numbered_decomposition (t ds ws : Str) (x : Char) (rest : Str)
    (ht : t = ds ++ ".".toList ++ ws ++ x :: rest) (hds : ds ≠ [])
    (hdig : ∀ d ∈ ds, isDigit d = true) (hws : ws ≠ [])
    (hwsall : ∀ w ∈ ws, isWhiteSpace w = true) (hx : isWhiteSpace x = false) :
    numberedTest t = true ∧
      numberedMatch t = some (ds ++ ".".toList ++ ws, (x :: rest).takeWhile dot) := by
  have ht2 : t = ds ++ '.' :: (ws ++ x :: rest) := by rw [ht]; simp
  constructor
  · unfold numberedTest
    rw [ht2, plus_run isDigit _ ds '.' _ () hds hdig (by decide)]
    · rfl
    · cases ws with
      | nil => exact absurd rfl hws
      | cons w ws1 =>
        have hw : isWhiteSpace w = true := hwsall w (List.mem_cons_self _ _)
        simp [lit, one, hw]
  · unfold numberedMatch
    rw [ht2]
    apply plus_run isDigit _ ds '.' _ _ hds hdig (by decide)
    show lit ".".toList _ (".".toList ++ (ws ++ x :: rest)) = _
    rw [lit_append]
    apply star_run isWhiteSpace _ ws x rest _ hwsall hx
    simp only [List.nil_append]
    apply plus_greedy dot _ _ x rest (dot_of_not_ws x hx)
    simp

theorem classifyLine_numbered (l ds ws : Str) (x : Char) (rest : Str)
    (ht : trim l = ds ++ ".".toList ++ ws ++ x :: rest) (hds : ds ≠ [])
    (hdig : ∀ d ∈ ds, isDigit d = true) (hws : ws ≠ [])
    (hwsall : ∀ w ∈ ws, isWhiteSpace w = true) (hx : isWhiteSpace x = false) :
    numberedMatch (trim l) = some (ds ++ ".".toList ++ ws, (x :: rest).takeWhile dot) ∧
      trim (ds ++ ".".toList ++ ws) = ds ++ ".".toList ∧
      ∃ nodes, nodes ≠ [] ∧ renderInline ((x :: rest).takeWhile dot) = .arr nodes ∧
        classifyLine l = .numbered (ds ++ ".".toList) (.inline (.arr nodes)) := by
  obtain ⟨hnt, hnm⟩ := numbered_decomposition (trim l) ds ws x rest ht hds hdig hws hwsall hx
  have hcontent : (x :: rest).takeWhile dot ≠ [] := by
    simp [List.takeWhile_cons, dot_of_not_ws x hx]
  obtain ⟨nodes, hnodes, hri⟩ := renderInline_nonempty _ hcontent
  have htrim : trim (ds ++ ".".toList ++ ws) = ds ++ ".".toList := by
    rw [trim_append_all_ws ws hwsall]
    cases ds with
    | nil => exact absurd rfl hds
    | cons d ds1 =>
      apply trim_id d (ds1 ++ ".".toList) (digit_not_ws d (hdig d (List.mem_cons_self _ _)))
      have e : ∀ h, (d :: (ds1 ++ ".".toList)).getLast h = '.' := by
        intro h
        have : d :: (ds1 ++ ".".toList) = (d :: ds1) ++ ['.'] := rfl
        simp only [this, List.getLast_append_singleton]
      rw [e]
      decide
  refine ⟨hnm, htrim, nodes, hnodes, hri, ?_⟩
  cases ds with
  | nil => exact absurd rfl hds
  | cons d ds1 =>
    have hd : isDigit d = true := hdig d (List.mem_cons_self _ _)
    have ht3 : trim l = d :: (ds1 ++ ".".toList ++ ws ++ x :: rest) := by rw [ht]; rfl
    have hstar : startsWith "**".toList (trim l) = false := by
      rw [ht3]
      have : d ≠ '*' := by
        rintro rfl
        revert hd
        decide
      simp [startsWith, List.isPrefixOf, Ne.symm this]
    have hg : startsWith bulletGlyph (trim l) = false := by
      rw [ht3]
      have : d ≠ Char.ofNat 0x201A := by
        rintro rfl
        revert hd
        decide
      simp [startsWith, bulletGlyph, List.isPrefixOf, Ne.symm this]
    have hm : bulletMarker (trim l) = none := by
      rw [ht3]
      have h1 : d ≠ '-' := by
        rintro rfl
        revert hd
        decide
      have h2 : d ≠ '*' := by
        rintro rfl
        revert hd
        decide
      simp [bulletMarker, one, h1, h2]
    have hempty : (trim l).isEmpty = false := by rw [ht3]; rfl
    unfold classifyLine
    simp only [hempty, hstar, hg, hm, hnt, Bool.false_and, Bool.false_eq_true, if_false,
      Option.isSome_none, Bool.or_self, if_true]
    unfold numberedBlock
    simp only [hnm, hri, htrim]

theorem numberedTest_decomposition (l : Str) (h : numberedTest (trim l) = true) :
    ∃ ds ws x rest, trim l = ds ++ ".".toList ++ ws ++ x :: rest ∧ ds ≠ [] ∧
      (∀ d ∈ ds, isDigit d = true) ∧ ws ≠ [] ∧ (∀ w ∈ ws, isWhiteSpace w = true) ∧
      isWhiteSpace x = false := by
  obtain ⟨ds, w, r, hds, hdig, hw, ht⟩ := numberedTest_some _ h
  have hne : trim l ≠ [] := by rw [ht]; simp
  have hlast := trim_getLast l hne
  have hsplit : (w :: r).takeWhile isWhiteSpace ++ (w :: r).dropWhile isWhiteSpace = w :: r :=
    List.takeWhile_append_dropWhile _ _
  have htw : (w :: r).takeWhile isWhiteSpace ≠ [] := by
    simp [List.takeWhile_cons, hw]
  have hall : ∀ c ∈ (w :: r).takeWhile isWhiteSpace, isWhiteSpace c = true :=
    fun c hc => List.mem_takeWhile_imp hc
  cases hd : (w :: r).dropWhile isWhiteSpace with
  | nil =>
    exfalso
    rw [hd, List.append_nil] at hsplit
    have key : ∀ (u : Str) (hu : u ≠ []), u = ds ++ '.' :: w :: r → u.getLast hu ∈ w :: r := by
      intro u hu e
      subst e
      have : ds ++ '.' :: w :: r = (ds ++ ['.']) ++ (w :: r) := by simp
      simp only [this]
      rw [List.getLast_append_of_ne_nil (by simp)]
      exact List.getLast_mem _
    have hmem := key (trim l) hne ht
    rw [← hsplit] at hmem
    rw [hall _ hmem] at hlast
    cases hlast
  | cons x rest =>
    have hx : isWhiteSpace x = false := by
      have := List.head_dropWhile_not isWhiteSpace (w :: r) (by rw [hd]; simp)
      simpa [hd] using this
    refine ⟨ds, (w :: r).takeWhile isWhiteSpace, x, rest, ?_, hds, hdig, htw, hall, hx⟩
    rw [ht]
    rw [hd] at hsplit
    rw [List.append_assoc, List.append_assoc, hsplit]
    simp

theorem takeText_mem (ls : List Str) :
    ∀ l ∈ (takeText ls).1, l ∈ ls ∧ trim l ≠ [] := by
  induction ls with
  | nil => intro l hl; simp [takeText] at hl
  | cons a as ih =>
    intro l hl
    simp only [takeText] at hl
    split at hl
    · cases hl
    · simp only at hl
      split at hl
      · exact ⟨List.mem_cons_of_mem _ (ih l hl).1, (ih l hl).2⟩
      · rename_i hne
        rcases List.mem_cons.mp hl with rfl | hl
        · refine ⟨List.mem_cons_self _ _, ?_⟩
          intro e
          rw [e] at hne
          exact hne rfl
        · exact ⟨List.mem_cons_of_mem _ (ih l hl).1, (ih l hl).2⟩

theorem segmentLoop_text_mem (fuel : Nat) :
    ∀ (lines tl : List Str), TableBlock.text tl ∈ segmentLoop fuel lines →
      tl ≠ [] ∧ ∀ l ∈ tl, l ∈ lines ∧ trim l ≠ [] := by
  induction fuel with
  | zero => intro lines tl h; simp [segmentLoop] at h
  | succ n ih =>
    intro lines tl h
    cases lines with
    | nil => simp [segmentLoop] at h
    | cons a as =>
      simp only [segmentLoop] at h
      split at h
      · rw [List.mem_append] at h
        rcases h with h | h
        · split at h
          · rename_i hpos
            have e : tl = (takeText (a :: as)).1 := by
              simpa using h
            subst e
            exact ⟨List.length_pos.mp hpos, takeText_mem (a :: as)⟩
          · cases h
        · obtain ⟨h1, h2⟩ := ih _ tl h
          exact ⟨h1, fun l hl => ⟨(takeText_suffix (a :: as)).subset (h2 l hl).1, (h2 l hl).2⟩⟩
      · rw [List.mem_append] at h
        rcases h with h | h
        · split at h
          · simp at h
          · cases h
        · obtain ⟨h1, h2⟩ := ih _ tl h
          exact ⟨h1, fun l hl => ⟨(takeTable_suffix (a :: as)).subset (h2 l hl).1, (h2 l hl).2⟩⟩

theorem join_ne_nil (sep : Str) (ls : List Str) (a : Str) (as : List Str) (h : ls = a :: as)
    (ha : a ≠ []) : join sep ls ≠ [] := by
  subst h
  cases as with
  | nil => simpa [join, List.intercalate] using ha
  | cons b bs =>
    rw [intercalate_cons_cons]
    simp [ha]

theorem text_block_join_ne_nil (content : Str) (ls : List Str)
    (h : TableBlock.text ls ∈ segment content) : join "\n".toList ls ≠ [] := by
  obtain ⟨hne, hall⟩ := segmentLoop_text_mem _ _ ls h
  cases ls with
  | nil => exact absurd rfl hne
  | cons a as =>
    apply join_ne_nil _ _ a as rfl
    intro e
    have := (hall a (List.mem_cons_self _ _)).2
    rw [e] at this
    exact this rfl

theorem renderBlocks_direct (fuel : Nat) (content : Str) :
    ∀ bs : List TableBlock, (∀ b ∈ bs, b ∈ segment content) →
      (∀ ls, TableBlock.text ls ∈ bs → tableGate (join "\n".toList ls) = false) →
      renderBlocks (FormattedMessage (fuel + 1)) bs = some (bs.map renderBlockDirect) := by
  intro bs
  induction bs with
  | nil => intro _ _; rfl
  | cons b bs ih =>
    intro hmem hgate
    have hrest := ih (fun x hx => hmem x (List.mem_cons_of_mem _ hx))
      (fun ls hls => hgate ls (List.mem_cons_of_mem _ hls))
    have hb : renderBlock (FormattedMessage (fuel + 1)) b = some (renderBlockDirect b) := by
      cases b with
      | table lines => rfl
      | text lines =>
        show FormattedMessage (fuel + 1) (join "\n".toList lines) = _
        rw [FormattedMessage_succ_of_not_gate fuel _
          (text_block_join_ne_nil content lines (hmem _ (List.mem_cons_self _ _)))
          (hgate lines (List.mem_cons_self _ _))]
        rfl
    simp only [renderBlocks, hb, hrest, List.map_cons]

theorem takeText_rest (ls : List Str) :
    (takeText ls).2 = [] ∨ ∃ l ls1, (takeText ls).2 = l :: ls1 ∧ isTableLine l = true := by
  induction ls with
  | nil => left; rfl
  | cons a as ih =>
    simp only [takeText]
    split
    · rename_i ha
      exact Or.inr ⟨a, as, rfl, ha⟩
    · exact ih

theorem takeTable_rest (ls : List Str) :
    (takeTable ls).2 = [] ∨ ∃ l ls1, (takeTable ls).2 = l :: ls1 ∧ isTableLine l = false := by
  induction ls with
  | nil => left; rfl
  | cons a as ih =>
    simp only [takeTable]
    split
    · exact ih
    · rename_i ha
      exact Or.inr ⟨a, as, rfl, by simpa using ha⟩

theorem alternates_cons (a : TableBlock) (bs : List TableBlock) (h : alternates bs = true)
    (hh : ∀ b ∈ bs.head?, a.isTable ≠ b.isTable) : alternates (a :: bs) = true := by
  cases bs with
  | nil => rfl
  | cons b rest =>
    have := hh b (by simp)
    simp only [alternates, h, Bool.and_true, bne_iff_ne, ne_eq]
    exact this

theorem segmentLoop_alternates (fuel : Nat) :
    ∀ lines : List Str,
      (∀ l ∈ lines, trim l ≠ [] ∧ (isTableLine l = true → cellsOf (trim l) ≠ [])) →
      alternates (segmentLoop fuel lines) = true ∧
        ∀ b ∈ (segmentLoop fuel lines).head?, ∀ l ∈ lines.head?, b.isTable = isTableLine l := by
  induction fuel with
  | zero => intro lines _; simp [segmentLoop, alternates]
  | succ n ih =>
    intro lines hP
    cases lines with
    | nil => simp [segmentLoop, alternates]
    | cons a as =>
      have ha := hP a (List.mem_cons_self _ _)
      cases hta : isTableLine a with
      | false =>
        have hbuf : (takeText (a :: as)).1 = a :: (takeText as).1 := by
          have he : (trim a).isEmpty = false := by
            cases h : trim a with
            | nil => exact absurd h ha.1
            | cons x xs => rfl
          simp [takeText, hta, he]
        have hPrest : ∀ l ∈ (takeText (a :: as)).2,
            trim l ≠ [] ∧ (isTableLine l = true → cellsOf (trim l) ≠ []) :=
          fun l hl => hP l ((takeText_suffix (a :: as)).subset hl)
        obtain ⟨halt, hhead⟩ := ih _ hPrest
        have hseg : segmentLoop (n + 1) (a :: as)
            = TableBlock.text (takeText (a :: as)).1 :: segmentLoop n (takeText (a :: as)).2 := by
          simp only [segmentLoop, hta, Bool.not_false, if_true]
          rw [hbuf]
          simp
        rw [hseg]
        refine ⟨alternates_cons _ _ halt ?_, ?_⟩
        · intro b hb
          rcases takeText_rest (a :: as) with hr | ⟨l, ls1, hr, hl⟩
          · rw [hr] at hb
            cases n <;> simp [segmentLoop] at hb
          · have := hhead b hb l (by rw [hr]; simp)
            rw [this, hl]
            simp [TableBlock.isTable]
        · intro b hb l hl
          simp only [List.head?_cons, Option.mem_def, Option.some.injEq] at hb hl
          subst hb
          subst hl
          rw [hta]
          rfl
      | true =>
        have hbuf : (takeTable (a :: as)).1 = a :: (takeTable as).1 := by
          have hc : (cellsOf (trim a)).length > 0 := List.length_pos.mpr (ha.2 hta)
          simp [takeTable, hta, hc]
        have hPrest : ∀ l ∈ (takeTable (a :: as)).2,
            trim l ≠ [] ∧ (isTableLine l = true → cellsOf (trim l) ≠ []) :=
          fun l hl => hP l ((takeTable_suffix (a :: as)).subset hl)
        obtain ⟨halt, hhead⟩ := ih _ hPrest
        have hseg : segmentLoop (n + 1) (a :: as)
            = TableBlock.table (takeTable (a :: as)).1 ::
                segmentLoop n (takeTable (a :: as)).2 := by
          simp only [segmentLoop, hta, Bool.not_true, Bool.false_eq_true, if_false]
          rw [hbuf]
          simp
        rw [hseg]
        refine ⟨alternates_cons _ _ halt ?_, ?_⟩
        · intro b hb
          rcases takeTable_rest (a :: as) with hr | ⟨l, ls1, hr, hl⟩
          · rw [hr] at hb
            cases n <;> simp [segmentLoop] at hb
          · have := hhead b hb l (by rw [hr]; simp)
            rw [this, hl]
            simp [TableBlock.isTable]
        · intro b hb l hl
          simp only [List.head?_cons, Option.mem_def, Option.some.injEq] at hb hl
          subst hb
          subst hl
          rw [hta]
          rfl

theorem text_blocks_of_all (bs : List TableBlock)
    (h : (bs.all fun b =>
      match b with
      | .text ls => !tableGate (join "\n".toList ls)
      | .table _ => true) = true) :
    ∀ ls, TableBlock.text ls ∈ bs → tableGate (join "\n".toList ls) = false := by
  intro ls hls
  rw [List.all_eq_true] at h
  have := h _ hls
  simpa using this

theorem execAll_mem (re : Pattern) (t : Str) :
    ∀ (idx skip : Nat) (m : RegexMatch), m ∈ execAll re idx skip t →
      idx ≤ m.index ∧ ∃ rest, re (t.drop (m.index - idx)) = some (m.groups, rest) ∧
        m.length = (t.drop (m.index - idx)).length - rest.length := by
  induction t with
  | nil => intro idx skip m h; simp [execAll] at h
  | cons c cs ih =>
    have step : ∀ (idx skip : Nat) (m : RegexMatch), m ∈ execAll re (idx + 1) skip cs →
        idx ≤ m.index ∧ ∃ rest, re ((c :: cs).drop (m.index - idx)) = some (m.groups, rest) ∧
          m.length = ((c :: cs).drop (m.index - idx)).length - rest.length := by
      intro idx skip m h
      obtain ⟨h1, rest, h2, h3⟩ := ih _ _ m h
      have e : m.index - idx = (m.index - (idx + 1)) + 1 := by omega
      refine ⟨by omega, rest, ?_, ?_⟩
      · rw [e, List.drop_succ_cons]; exact h2
      · rw [e, List.drop_succ_cons]; exact h3
    intro idx skip m h
    cases skip with
    | succ n =>
      simp only [execAll] at h
      exact step idx n m h
    | zero =>
      simp only [execAll] at h
      split at h
      · rename_i groups rest hre
        rcases List.mem_cons.mp h with rfl | h
        · exact ⟨Nat.le_refl _, rest, by simpa using hre, by simp⟩
        · exact step idx _ m h
      · exact step idx 0 m h

theorem chainFrom_mono (ms : List RegexMatch) (a b : Nat) (hab : a ≤ b)
    (h : chainFrom b ms = true) : chainFrom a ms = true := by
  cases ms with
  | nil => rfl
  | cons m ms =>
    simp only [chainFrom, Bool.and_eq_true, decide_eq_true_eq] at h ⊢
    exact ⟨by omega, h.2⟩

theorem execAll_chain (re : Pattern) (t : Str) :
    ∀ (idx skip : Nat), chainFrom (idx + skip) (execAll re idx skip t) = true := by
  induction t with
  | nil => intro idx skip; simp [execAll, chainFrom]
  | cons c cs ih =>
    intro idx skip
    cases skip with
    | succ n =>
      simp only [execAll]
      have := ih (idx + 1) n
      have e : idx + 1 + n = idx + (n + 1) := by omega
      rw [e] at this
      exact this
    | zero =>
      simp only [execAll]
      split
      · rename_i groups rest hre
        simp only [chainFrom, Nat.add_zero, Nat.le_refl, decide_True, Bool.true_and]
        apply chainFrom_mono _ _ _ _ (ih (idx + 1) _)
        omega
      · exact chainFrom_mono _ _ _ (by omega) (ih (idx + 1) 0)

theorem execAll_index_sorted (re : Pattern) (t : Str) :
    ∀ (idx skip : Nat),
      ((execAll re idx skip t).map (fun m => m.index)).Sorted (· < ·) := by
  induction t with
  | nil => intro idx skip; simp [execAll]
  | cons c cs ih =>
    intro idx skip
    cases skip with
    | succ n =>
      simp only [execAll]
      exact ih _ _
    | zero =>
      simp only [execAll]
      split
      · rw [List.map_cons, List.sorted_cons]
        refine ⟨?_, ih _ _⟩
        intro b hb
        obtain ⟨m, hm, rfl⟩ := List.mem_map.mp hb
        have := (execAll_index_lt re cs _ _ m hm).1
        show idx < m.index
        omega
      · exact ih _ _

theorem boldPattern_sound (u : Str) (g : List Str) (rest : Str)
    (h : boldPattern u = some (g, rest)) :
    ∃ cap, g = [cap] ∧ cap ≠ [] ∧ u = "**".toList ++ cap ++ "**".toList ++ rest := by
  unfold boldPattern at h
  obtain ⟨r1, hr1, hk1⟩ := lit_some _ _ u _ h
  obtain ⟨cap, r2, hcap, hr2, _, hk2⟩ := lazyPlus_some _ _ r1 _ hk1
  obtain ⟨r3, hr3, hk3⟩ := lit_some _ _ r2 _ hk2
  simp only [Option.some.injEq, Prod.mk.injEq] at hk3
  obtain ⟨hg, hrest⟩ := hk3
  refine ⟨cap, hg.symm, hcap, ?_⟩
  rw [hr1, hr2, hr3, hrest]
  simp

theorem slice_of_drop (text x rest : Str) (i : Nat) (h : text.drop i = x ++ rest) :
    slice text i (i + ((text.drop i).length - rest.length)) = x := by
  have hlen : (text.drop i).length - rest.length = x.length := by
    rw [h]
    simp
  rw [hlen]
  unfold slice
  rw [List.drop_take, Nat.add_sub_cancel_left, h]
  simp

theorem execAll_bold_source (part : Str) (m : RegexMatch)
    (hm : m ∈ execAll boldPattern 0 0 part) :
    m.groups.getD 0 [] ≠ [] ∧
      slice part m.index (m.index + m.length)
        = "**".toList ++ m.groups.getD 0 [] ++ "**".toList := by
  obtain ⟨_, rest, hre, hlen⟩ := execAll_mem boldPattern part 0 0 m hm
  simp only [Nat.sub_zero] at hre hlen
  obtain ⟨cap, hg, hcap, hu⟩ := boldPattern_sound _ _ _ hre
  rw [hg]
  refine ⟨hcap, ?_⟩
  rw [hlen]
  exact slice_of_drop part _ rest m.index hu

theorem fillBold_source (part : Str) (ms : List RegexMatch)
    (hsrc : ∀ m ∈ ms, slice part m.index (m.index + m.length)
      = "**".toList ++ m.groups.getD 0 [] ++ "**".toList) :
    ∀ last, chainFrom last ms = true →
      ((fillBold part ms last).map boldSource).flatten = part.drop last := by
  induction ms with
  | nil =>
    intro last _
    simp only [fillBold]
    split
    · simp [boldSource]
    · simp
      omega
  | cons m ms ih =>
    intro last hd
    simp only [chainFrom, Bool.and_eq_true, decide_eq_true_eq] at hd
    obtain ⟨h1, h2⟩ := hd
    have hm := hsrc m (List.mem_cons_self _ _)
    simp only [fillBold, List.map_append, List.map_cons, List.flatten_append,
      List.flatten_cons, ih (fun x hx => hsrc x (List.mem_cons_of_mem _ hx)) _ h2]
    have e : boldSource (Node.strong (m.groups.getD 0 []))
        = slice part m.index (m.index + m.length) := by
      rw [hm]; rfl
    rw [e, slice_append_drop part m.index (m.index + m.length) (by omega)]
    split
    · simp [boldSource]
      exact slice_append_drop part last m.index h1
    · have : last = m.index := by omega
      simp [this]

theorem mem_fillBold (part : Str) (ms : List RegexMatch) :
    ∀ (last : Nat) (n : Node), n ∈ fillBold part ms last →
      (∃ m ∈ ms, n = .strong (m.groups.getD 0 [])) ∨
      (∃ a b, a < b ∧ n = .text (slice part a b) ∧
        (b = part.length ∨ ∃ m ∈ ms, b = m.index)) := by
  induction ms with
  | nil =>
    intro last n h
    simp only [fillBold] at h
    split at h
    · rename_i hlt
      right
      refine ⟨last, part.length, hlt, ?_, Or.inl rfl⟩
      rw [List.mem_singleton.mp h]
      simp [slice]
    · cases h
  | cons m ms ih =>
    intro last n h
    simp only [fillBold, List.mem_append, List.mem_cons] at h
    rcases h with h | h | h
    · split at h
      · rename_i hlt
        right
        exact ⟨last, m.index, hlt, List.mem_singleton.mp h,
          Or.inr ⟨m, List.mem_cons_self _ _, rfl⟩⟩
      · cases h
    · exact Or.inl ⟨m, List.mem_cons_self _ _, h⟩
    · rcases ih _ n h with ⟨m1, hm1, e⟩ | ⟨a, b, hab, e, hb⟩
      · exact Or.inl ⟨m1, List.mem_cons_of_mem _ hm1, e⟩
      · right
        refine ⟨a, b, hab, e, ?_⟩
        rcases hb with hb | ⟨m1, hm1, hb⟩
        · exact Or.inl hb
        · exact Or.inr ⟨m1, List.mem_cons_of_mem _ hm1, hb⟩

theorem slice_ne_nil (text : Str) (a b : Nat) (hab : a < b) (hb : b ≤ text.length) :
    slice text a b ≠ [] := by
  intro hnil
  have : (slice text a b).length = b - a := by
    unfold slice
    rw [List.length_drop, List.length_take]
    omega
  rw [hnil] at this
  simp at this
  omega

theorem tagPattern_sound (tag : Str) (cls : Char → Bool) (u : Str) (g : List Str) (rest : Str)
    (h : tagPattern tag cls u = some (g, rest)) :
    ∃ cap, g = [cap] ∧ cap ≠ [] ∧ u = tag ++ cap ++ "]".toList ++ rest := by
  unfold tagPattern at h
  obtain ⟨r1, hr1, hk1⟩ := lit_some _ _ u _ h
  obtain ⟨cap, r2, hcap, hr2, _, hk2⟩ := plus_some _ _ r1 _ hk1
  obtain ⟨r3, hr3, hk3⟩ := lit_some _ _ r2 _ hk2
  simp only [Option.some.injEq, Prod.mk.injEq] at hk3
  obtain ⟨hg, hrest⟩ := hk3
  refine ⟨cap, hg.symm, hcap, ?_⟩
  rw [hr1, hr2, hr3, hrest]
  simp

theorem doctorProfilePattern_sound (u : Str) (g : List Str) (rest : Str)
    (h : doctorProfilePattern u = some (g, rest)) :
    ∃ name specialty slug, g = [name, specialty, slug] ∧
      u = "[DOCTORPROFILE:".toList ++ name ++ "|".toList ++ specialty ++ "|".toList ++ slug
        ++ "]".toList ++ rest := by
  unfold doctorProfilePattern at h
  obtain ⟨r1, hr1, hk1⟩ := lit_some _ _ u _ h
  obtain ⟨name, r2, _, hr2, _, hk2⟩ := plus_some _ _ r1 _ hk1
  obtain ⟨r3, hr3, hk3⟩ := lit_some _ _ r2 _ hk2
  obtain ⟨specialty, r4, _, hr4, _, hk4⟩ := plus_some _ _ r3 _ hk3
  obtain ⟨r5, hr5, hk5⟩ := lit_some _ _ r4 _ hk4
  obtain ⟨slug, r6, _, hr6, _, hk6⟩ := plus_some _ _ r5 _ hk5
  obtain ⟨r7, hr7, hk7⟩ := lit_some _ _ r6 _ hk6
  simp only [Option.some.injEq, Prod.mk.injEq] at hk7
  obtain ⟨hg, hrest⟩ := hk7
  refine ⟨name, specialty, slug, hg.symm, ?_⟩
  rw [hr1, hr2, hr3, hr4, hr5, hr6, hr7, hrest]
  simp

theorem patterns_sound (p : Pattern × TagType) (hp : p ∈ patterns) (u : Str) (g : List Str)
    (rest : Str) (h : p.1 u = some (g, rest)) (i len : Nat) :
    u = serializeMatch (toActionMatch p.2 ⟨i, len, g⟩) ++ rest := by
  simp only [patterns, List.mem_cons, List.mem_singleton, List.not_mem_nil, or_false] at hp
  rcases hp with e | e | e | e | e | e | e <;> subst e
  case inr.inr.inl =>
    obtain ⟨name, specialty, slug, hg, hu⟩ := doctorProfilePattern_sound u g rest h
    rw [hu, hg]
    simp [serializeMatch, toActionMatch, tagHead, tagName]
  all_goals
    obtain ⟨cap, hg, _, hu⟩ := tagPattern_sound _ _ u g rest h
    rw [hu, hg]
    simp [serializeMatch, toActionMatch, tagHead, tagName]

theorem toActionMatch_length (ty : TagType) (m : RegexMatch) :
    (toActionMatch ty m).length = m.length := by
  cases ty <;> rfl

theorem tagHead_ne_nil (ty : TagType) : tagHead ty ≠ [] := by
  cases ty <;> decide

theorem serializeMatch_head (m : ActionMatch) : tagHead m.type <+: serializeMatch m := by
  unfold serializeMatch
  split
  · exact ⟨m.content ++ "|".toList ++ m.specialty ++ "|".toList ++ m.slug ++ "]".toList,
      by simp [List.append_assoc]⟩
  · exact ⟨m.content ++ "]".toList, by simp [List.append_assoc]⟩

theorem matchesOf_source (text : Str) (p : Pattern × TagType) (hp : p ∈ patterns)
    (m : ActionMatch) (hm : m ∈ matchesOf text p) :
    m.type = p.2 ∧ m.index < text.length ∧
      (∃ rest, text.drop m.index = serializeMatch m ++ rest) ∧
      m.length = (serializeMatch m).length := by
  unfold matchesOf at hm
  obtain ⟨rm, hrm, rfl⟩ := List.mem_map.mp hm
  obtain ⟨_, rest, hre, hlen⟩ := execAll_mem p.1 text 0 0 rm hrm
  simp only [Nat.sub_zero] at hre hlen
  have hu := patterns_sound p hp _ _ _ hre rm.index rm.length
  have hidx := (execAll_index_lt p.1 text 0 0 rm hrm).2
  refine ⟨toActionMatch_type _ _, ?_, ⟨rest, ?_⟩, ?_⟩
  · rw [toActionMatch_index]; omega
  · rw [toActionMatch_index]; exact hu
  · rw [toActionMatch_length, hlen]
    have : (text.drop rm.index).length
        = (serializeMatch (toActionMatch p.2 rm)).length + rest.length := by
      rw [← List.length_append]
      exact congrArg List.length hu
    omega

theorem collectMatches_source (text : Str) (m : ActionMatch) (hm : m ∈ collectMatches text) :
    slice text m.index (m.index + m.length) = serializeMatch m ∧ 0 < m.length := by
  obtain ⟨p, hp, hmp⟩ := (mem_collectMatches text m).mp hm
  obtain ⟨_, _, ⟨rest, hd⟩, hlen⟩ := matchesOf_source text p hp m hmp
  constructor
  · have := slice_of_drop text (serializeMatch m) rest m.index hd
    rw [hd] at this
    simp only [List.length_append, Nat.add_sub_cancel] at this
    rw [hlen]
    exact this
  · rw [hlen]
    have hh := serializeMatch_head m
    have := hh.length_le
    have := List.length_pos.mpr (tagHead_ne_nil m.type)
    omega

theorem buildSerial_eq_buildSpans (text : Str) (ms : List ActionMatch)
    (h : ∀ m ∈ ms, slice text m.index (m.index + m.length) = serializeMatch m) :
    ∀ lastIndex, buildSerial text ms lastIndex = buildSpans text ms lastIndex := by
  induction ms with
  | nil => intro lastIndex; rfl
  | cons m ms ih =>
    intro lastIndex
    simp only [buildSerial, buildSpans, ih (fun x hx => h x (List.mem_cons_of_mem _ hx)),
      h m (List.mem_cons_self _ _)]

theorem disjointFrom_of_pairwise (ms : List ActionMatch)
    (hs : ms.Sorted (fun a b => a.index ≤ b.index))
    (hp : ms.Pairwise (fun a b =>
      a.index + a.length ≤ b.index ∨ b.index + b.length ≤ a.index))
    (hlen : ∀ m ∈ ms, 0 < m.length) :
    ∀ lastIndex, (∀ m ∈ ms, lastIndex ≤ m.index) → disjointFrom lastIndex ms = true := by
  induction ms with
  | nil => intro _ _; rfl
  | cons m ms ih =>
    intro lastIndex hl
    rw [List.sorted_cons] at hs
    rw [List.pairwise_cons] at hp
    simp only [disjointFrom, Bool.and_eq_true, decide_eq_true_eq]
    refine ⟨hl m (List.mem_cons_self _ _), ?_⟩
    apply ih hs.2 hp.2 (fun x hx => hlen x (List.mem_cons_of_mem _ hx))
    intro b hb
    have h1 := hs.1 b hb
    have h2 := hp.1 b hb
    have h3 := hlen b (List.mem_cons_of_mem _ hb)
    omega

theorem tagHead_not_head (t1 t2 : TagType) (h : t1 ≠ t2) : ¬ tagHead t1 <+: tagHead t2 := by
  cases t1 <;> cases t2 <;> first | exact absurd rfl h | decide

theorem tagHead_unique (t1 t2 : TagType) (u : Str) (h1 : tagHead t1 <+: u)
    (h2 : tagHead t2 <+: u) : t1 = t2 := by
  by_contra hne
  rcases Nat.le_total (tagHead t1).length (tagHead t2).length with hle | hle
  · exact tagHead_not_head t1 t2 hne (List.prefix_of_prefix_length_le h1 h2 hle)
  · exact tagHead_not_head t2 t1 (Ne.symm hne) (List.prefix_of_prefix_length_le h2 h1 hle)

theorem matchesOf_index_ne (text : Str) (p q : Pattern × TagType) (hp : p ∈ patterns)
    (hq : q ∈ patterns) (hpq : p.2 ≠ q.2) (a b : ActionMatch) (ha : a ∈ matchesOf text p)
    (hb : b ∈ matchesOf text q) : a.index ≠ b.index := by
  intro e
  obtain ⟨hta, _, ⟨r1, hd1⟩, _⟩ := matchesOf_source text p hp a ha
  obtain ⟨htb, _, ⟨r2, hd2⟩, _⟩ := matchesOf_source text q hq b hb
  rw [e] at hd1
  have h1 : tagHead a.type <+: text.drop b.index := by
    rw [hd1]
    exact (serializeMatch_head a).trans (List.prefix_append _ _)
  have h2 : tagHead b.type <+: text.drop b.index := by
    rw [hd2]
    exact (serializeMatch_head b).trans (List.prefix_append _ _)
  have := tagHead_unique _ _ _ h1 h2
  rw [hta, htb] at this
  exact hpq this

theorem matchesOf_index_pairwise (text : Str) (p : Pattern × TagType) :
    (matchesOf text p).Pairwise (fun a b => a.index ≠ b.index) := by
  unfold matchesOf
  rw [List.pairwise_map]
  have h := execAll_index_sorted p.1 text 0 0
  unfold List.Sorted at h
  rw [List.pairwise_map] at h
  apply h.imp
  intro a b hab
  rw [toActionMatch_index, toActionMatch_index]
  omega

theorem patterns_types_pairwise : patterns.Pairwise (fun p q => p.2 ≠ q.2) := by
  have h : (patterns.map Prod.snd).Pairwise (· ≠ ·) := by decide
  rw [List.pairwise_map] at h
  exact h

theorem collectMatches_index_pairwise (text : Str) :
    (collectMatches text).Pairwise (fun a b => a.index ≠ b.index) := by
  unfold collectMatches
  rw [List.pairwise_flatten]
  constructor
  · intro l hl
    obtain ⟨p, _, rfl⟩ := List.mem_map.mp hl
    exact matchesOf_index_pairwise text p
  · rw [List.pairwise_map]
    have h := patterns_types_pairwise
    rw [List.pairwise_iff_forall_sublist] at h ⊢
    intro p q hpq a ha b hb
    exact matchesOf_index_ne text p q (hpq.subset (by simp)) (hpq.subset (by simp))
      (h hpq) a b ha hb

/-! ## The claims -/

/-- C1: the recursion of `FormattedMessage` and `TableRenderer` does not end on
the message `"a|b---"`: whatever the fuel, no document is produced.  The message
passes the table gate, `TableRenderer` finds a single text block equal to the
whole message, and hands it back to `FormattedMessage` unchanged. -/
theorem FormattedMessage_diverges (fuel : Nat) :
    FormattedMessage fuel "a|b---".toList = none :=
  FormattedMessage_none_of_fixed _ ["a|b---".toList] (by decide) (by decide) (by decide)
    (by decide) fuel

/-- C2: every row of a table returned by `renderTable` has exactly as many cells
as the table has headers. -/
theorem renderTable_row_length (tableLines : List Str) (headers : List Str)
    (rows : List (List Str)) (h : renderTable tableLines = .table headers rows) :
    ∀ row ∈ rows, row.length = headers.length := by
  obtain ⟨_, hr⟩ := renderTable_eq_table tableLines headers rows h
  intro row hrow
  rw [hr, List.mem_map] at hrow
  obtain ⟨r, _, rfl⟩ := hrow
  exact normalizeRow_length _ _

/-- The instance of `renderTable_row_length` at a header line, a short row and a
long row. -/
theorem renderTable_row_length_witness :
    renderTable ["| A | B |".toList, "|---|---|".toList, "| x |".toList, "| y | z | w |".toList]
        = .table ["A".toList, "B".toList] [["x".toList, []], ["y".toList, "z".toList]] ∧
      ∀ row ∈ [["x".toList, []], ["y".toList, "z".toList]],
        row.length = ["A".toList, "B".toList].length :=
  ⟨rfl, renderTable_row_length
    ["| A | B |".toList, "|---|---|".toList, "| x |".toList, "| y | z | w |".toList]
    ["A".toList, "B".toList] [["x".toList, []], ["y".toList, "z".toList]] rfl⟩

/-- C3, as stated, fails: on `"[DOCTOR:[TEL:1]]"` the DOCTOR match `[DOCTOR:[TEL:1]`
and the TEL match `[TEL:1]` overlap, both are emitted, and the source texts of
the spans add up to 23 characters for an input of 16. -/
theorem spans_overlap_counterexample :
    (spans "[DOCTOR:[TEL:1]]".toList).map Prod.fst
        = ["[DOCTOR:[TEL:1]".toList, "[TEL:1]".toList, "]".toList] ∧
      processActionableText "[DOCTOR:[TEL:1]]".toList
        = .arr ((spans "[DOCTOR:[TEL:1]]".toList).map Prod.snd) ∧
      ((spans "[DOCTOR:[TEL:1]]".toList).map Prod.fst).flatten ≠ "[DOCTOR:[TEL:1]]".toList := by
  decide

/-- C3, amended: when no match starts before the end of the match before it (the
matches taken in the order of `allMatches`), the spans of `processActionableText`
partition the text: their parts are the output, and their source texts,
concatenated in order, give back the input. -/
theorem spans_partition (text : Str) (h : disjointFrom 0 (allMatches text) = true) :
    processActionableText text
        = (if text = [] then .str [] else .arr ((spans text).map Prod.snd)) ∧
      ((spans text).map Prod.fst).flatten = text := by
  constructor
  · by_cases ht : text = []
    · subst ht
      rfl
    · rw [if_neg ht, processActionableText_eq text ht]
      unfold spans
      rw [buildSpans_snd]
  · unfold spans
    rw [buildSpans_fst_flatten text _ 0 h]
    rfl

/-- The instance of `spans_partition` at `"Call [TEL:98765 43210] now"`. -/
theorem spans_partition_witness :
    disjointFrom 0 (allMatches "Call [TEL:98765 43210] now".toList) = true ∧
      (processActionableText "Call [TEL:98765 43210] now".toList
          = (if "Call [TEL:98765 43210] now".toList = [] then .str []
              else .arr ((spans "Call [TEL:98765 43210] now".toList).map Prod.snd)) ∧
        ((spans "Call [TEL:98765 43210] now".toList).map Prod.fst).flatten
          = "Call [TEL:98765 43210] now".toList) :=
  ⟨by decide, spans_partition "Call [TEL:98765 43210] now".toList (by decide)⟩

/-- C4: for `p ++ "[TEL:" ++ c ++ "]" ++ s` with `c` a non-empty run of TEL-class
characters (digits, white space, `+`, `-`, `(`, `)`) and no `[` in `p` or `s`,
`processActionableText` returns the string `p` (absent when empty), exactly one
phone link labelled `c` whose dial target is `c` without its white space, and the
string `s` (absent when empty). -/
theorem tel_tag (p c s : Str) (hc : c ≠ []) (hcls : ∀ ch ∈ c, telClass ch = true)
    (hp : '[' ∉ p) (hs : '[' ∉ s) :
    processActionableText (p ++ "[TEL:".toList ++ c ++ "]".toList ++ s) =
      .arr ((if p = [] then [] else [Node.text p]) ++
        [Node.phone c (c.filter (fun ch => !isWhiteSpace ch))] ++
        (if s = [] then [] else [Node.text s])) := by
  have hb : '[' ∉ "TEL:".toList ++ c ++ "]".toList := by
    have : '[' ∉ c := fun h => by
      have := hcls _ h
      revert this
      decide
    simp [this]
  have hshape : p ++ "[TEL:".toList ++ c ++ "]".toList ++ s
      = p ++ '[' :: (("TEL:".toList ++ c ++ "]".toList) ++ s) := by simp
  rw [hshape, processActionableText_one_tag .phone [c] p _ s hp hb hs]
  · simp [List.length_append, element, toActionMatch, removeWhiteSpace]
  · intro q hq
    simp only [patterns, List.mem_cons, List.mem_singleton, List.not_mem_nil, or_false] at hq
    have happ : '[' :: (("TEL:".toList ++ c ++ "]".toList) ++ s)
        = "[TEL:".toList ++ (c ++ ']' :: s) := by simp
    rcases hq with h | h | h | h | h | h | h <;> subst h
    · rw [happ]
      simp only [tagPattern, lit_append, if_true]
      apply plus_run telClass _ c ']' s _ hc hcls (by decide)
      rfl
    all_goals simp [tagPattern, doctorProfilePattern, lit]

/-- The instance of `tel_tag` at `"Call [TEL:98765 43210] now"`. -/
theorem tel_tag_witness :
    processActionableText "Call [TEL:98765 43210] now".toList =
      .arr [.text "Call ".toList, .phone "98765 43210".toList "9876543210".toList,
        .text " now".toList] :=
  tel_tag "Call ".toList "98765 43210".toList " now".toList (by decide) (by decide) (by decide)
    (by decide)



/-- C5: for non-empty `n`, `sp`, `g` without `[`, `]` and `|`,
`processActionableText` of `"[DOCTORPROFILE:" ++ n ++ "|" ++ sp ++ "|" ++ g ++ "]"`
is exactly one doctor-profile link labelled `n` whose target is the fixed base
`https://www.kghospital.com/doctors/` followed by `sp ++ "/" ++ g`. -/
theorem doctorprofile_tag (n sp g : Str) (hn : n ≠ []) (hsp : sp ≠ []) (hg : g ≠ [])
    (hn1 : '[' ∉ n) (_hn2 : ']' ∉ n) (hn3 : '|' ∉ n)
    (hs1 : '[' ∉ sp) (_hs2 : ']' ∉ sp) (hs3 : '|' ∉ sp)
    (hg1 : '[' ∉ g) (hg2 : ']' ∉ g) (_hg3 : '|' ∉ g) :
    processActionableText
        ("[DOCTORPROFILE:".toList ++ n ++ "|".toList ++ sp ++ "|".toList ++ g ++ "]".toList) =
      .arr [Node.doctorprofile n
        ("https://www.kghospital.com/doctors/".toList ++ sp ++ "/".toList ++ g)] := by
  have hb : '[' ∉ "DOCTORPROFILE:".toList ++ n ++ "|".toList ++ sp ++ "|".toList ++ g
      ++ "]".toList := by
    simp [hn1, hs1, hg1]
  have hshape : "[DOCTORPROFILE:".toList ++ n ++ "|".toList ++ sp ++ "|".toList ++ g
        ++ "]".toList
      = [] ++ '[' :: (("DOCTORPROFILE:".toList ++ n ++ "|".toList ++ sp ++ "|".toList ++ g
        ++ "]".toList) ++ []) := by simp
  have hnP : ∀ ch ∈ n, notPipe ch = true := fun ch h => by
    have : ch ≠ '|' := fun e => hn3 (e ▸ h)
    simp [notPipe, this]
  have hsP : ∀ ch ∈ sp, notPipe ch = true := fun ch h => by
    have : ch ≠ '|' := fun e => hs3 (e ▸ h)
    simp [notPipe, this]
  have hgP : ∀ ch ∈ g, notRBracket ch = true := fun ch h => by
    have : ch ≠ ']' := fun e => hg2 (e ▸ h)
    simp [notRBracket, this]
  rw [hshape, processActionableText_one_tag .doctorprofile [n, sp, g] [] _ [] (by simp) hb
    (by simp)]
  · simp [element, toActionMatch]
  · intro q hq
    simp only [patterns, List.mem_cons, List.mem_singleton, List.not_mem_nil, or_false] at hq
    have happ : '[' :: (("DOCTORPROFILE:".toList ++ n ++ "|".toList ++ sp ++ "|".toList ++ g
          ++ "]".toList) ++ [])
        = "[DOCTORPROFILE:".toList ++ (n ++ '|' :: (sp ++ '|' :: (g ++ ']' :: []))) := by simp
    rcases hq with h | h | h | h | h | h | h <;> subst h
    case inr.inr.inl =>
      rw [happ]
      simp only [doctorProfilePattern, lit_append, if_true]
      apply plus_run notPipe _ n '|' _ _ hn hnP (by decide)
      show lit "|".toList _ ("|".toList ++ _) = _
      rw [lit_append]
      apply plus_run notPipe _ sp '|' _ _ hsp hsP (by decide)
      show lit "|".toList _ ("|".toList ++ _) = _
      rw [lit_append]
      apply plus_run notRBracket _ g ']' _ _ hg hgP (by decide)
      rfl
    all_goals simp [tagPattern, doctorProfilePattern, lit]

/-- The instance of `doctorprofile_tag` at `"[DOCTORPROFILE:Dr. A|cardiology|dr-a]"`. -/
theorem doctorprofile_tag_witness :
    processActionableText "[DOCTORPROFILE:Dr. A|cardiology|dr-a]".toList =
      .arr [.doctorprofile "Dr. A".toList
        "https://www.kghospital.com/doctors/cardiology/dr-a".toList] :=
  doctorprofile_tag "Dr. A".toList "cardiology".toList "dr-a".toList (by decide) (by decide)
    (by decide) (by decide) (by decide) (by decide) (by decide) (by decide) (by decide)
    (by decide) (by decide) (by decide)

/-- C6: on `"1. Dr. Rao - Cardiology - Full Time"` the numbered item holds the one
plain string `"Dr. Rao - Cardiology - Full Time"`, not a name and an employment
tag: `renderInline` returns an array, so the "already processed" branch is taken.
The compound-token heuristic, had it been reached, gives the name
`"Dr. Rao Cardiology"` and the full-time tag `"Full Time"`. -/
theorem numbered_employment_not_split :
    FormattedMessage 1 "1. Dr. Rao - Cardiology - Full Time".toList =
        some (.lines [.numbered "1.".toList
          (.inline (.arr [.text "Dr. Rao - Cardiology - Full Time".toList]))]) ∧
      formatTokens "Dr. Rao - Cardiology - Full Time".toList
        = .employment "Dr. Rao Cardiology".toList "Full Time".toList ∧
      employmentCategory "Full Time".toList = .fullTime :=
  ⟨rfl, by decide, by decide⟩

/-- C7: a non-empty message is handed to `TableRenderer` exactly when it contains
the character `|` and the substring `---`; otherwise its lines go through the
line classifier. -/
theorem table_gate_iff (fuel : Nat) (content : Str) (hne : content ≠ []) :
    (FormattedMessage (fuel + 1) content = TableRenderer (FormattedMessage fuel) content ↔
        ('|' ∈ content ∧ "---".toList <:+: content)) ∧
      (¬ ('|' ∈ content ∧ "---".toList <:+: content) →
        FormattedMessage (fuel + 1) content
          = some (.lines ((splitChar '\n' content).map classifyLine))) := by
  have hgate : tableGate content = true ↔ ('|' ∈ content ∧ "---".toList <:+: content) := by
    unfold tableGate
    rw [Bool.and_eq_true, includes_pipe_iff, includes_iff_contains]
  have hnot : ¬ ('|' ∈ content ∧ "---".toList <:+: content) →
      FormattedMessage (fuel + 1) content
        = some (.lines ((splitChar '\n' content).map classifyLine)) := by
    intro hn
    apply FormattedMessage_succ_of_not_gate fuel content hne
    cases hg : tableGate content with
    | false => rfl
    | true => exact absurd (hgate.mp hg) hn
  refine ⟨⟨?_, ?_⟩, hnot⟩
  · intro heq
    by_contra hn
    rw [hnot hn] at heq
    unfold TableRenderer at heq
    split at heq <;> cases heq
  · intro hg
    exact FormattedMessage_succ_of_gate fuel content hne (hgate.mpr hg)

/-- The instance of `table_gate_iff` at a message with `---` and no `|`. -/
theorem table_gate_iff_witness :
    "a --- b".toList ≠ [] ∧
      ((FormattedMessage 1 "a --- b".toList
            = TableRenderer (FormattedMessage 0) "a --- b".toList ↔
          ('|' ∈ "a --- b".toList ∧ "---".toList <:+: "a --- b".toList)) ∧
        (¬ ('|' ∈ "a --- b".toList ∧ "---".toList <:+: "a --- b".toList) →
          FormattedMessage 1 "a --- b".toList
            = some (.lines ((splitChar '\n' "a --- b".toList).map classifyLine)))) :=
  ⟨by decide, table_gate_iff 0 "a --- b".toList (by decide)⟩

/-- C8, as stated, fails: in the message `a`, blank, `b`, then a three-line table,
the run of one blank line yields no spacer: the document is the two paragraphs
`a` and `b` followed by the table.  The empty message, whose one line is blank,
yields a bare `<span>` and no spacer either. -/
theorem blank_line_dropped_counterexample :
    (splitChar '\n' "a\n\nb\n| A | B |\n|---|---|\n| x | y |".toList).map
        (fun l => (trim l).isEmpty) = [false, true, false, false, false, false] ∧
      FormattedMessage 2 "a\n\nb\n| A | B |\n|---|---|\n| x | y |".toList =
        some (.div [.lines [.paragraph (.arr [.text "a".toList]),
            .paragraph (.arr [.text "b".toList])],
          .table ["A".toList, "B".toList] [["x".toList, "y".toList]]]) ∧
      (Rendered.div [.lines [.paragraph (.arr [.text "a".toList]),
            .paragraph (.arr [.text "b".toList])],
          .table ["A".toList, "B".toList] [["x".toList, "y".toList]]]).blocks.count .spacer = 0 ∧
      (splitChar '\n' []).map (fun l => (trim l).isEmpty) = [true] ∧
      FormattedMessage 1 [] = some (.span []) :=
  ⟨by decide, rfl, by decide, by decide, rfl⟩

/-- C8, amended: for a non-empty message that does not pass the table gate, the
document has one block per line, and the block of a line is a spacer exactly
when the line is blank; so a run of N blank lines yields N spacers at the
position of the run. -/
theorem spacer_per_blank_line (fuel : Nat) (content : Str) (hne : content ≠ [])
    (hg : tableGate content = false) :
    ∃ blocks, FormattedMessage (fuel + 1) content = some (.lines blocks) ∧
      blocks.map (fun b => decide (b = Block.spacer))
        = (splitChar '\n' content).map (fun l => (trim l).isEmpty) := by
  refine ⟨_, FormattedMessage_succ_of_not_gate fuel content hne hg, ?_⟩
  rw [List.map_map]
  apply List.map_congr_left
  intro l _
  simp only [Function.comp]
  by_cases h : trim l = []
  · rw [(classifyLine_eq_spacer_iff l).mpr h, h]
    rfl
  · have h1 : classifyLine l ≠ .spacer := fun e => h ((classifyLine_eq_spacer_iff l).mp e)
    have h2 : (trim l).isEmpty = false := by
      cases ht : trim l with
      | nil => exact absurd ht h
      | cons a as => rfl
    rw [h2]
    simp [h1]

/-- The instance of `spacer_per_blank_line` at a message with a run of two blank
lines. -/
theorem spacer_per_blank_line_witness :
    "a\n\n\nb".toList ≠ [] ∧ tableGate "a\n\n\nb".toList = false ∧
      ∃ blocks, FormattedMessage 1 "a\n\n\nb".toList = some (.lines blocks) ∧
        blocks.map (fun b => decide (b = Block.spacer))
          = (splitChar '\n' "a\n\n\nb".toList).map (fun l => (trim l).isEmpty) :=
  ⟨by decide, by decide, spacer_per_blank_line 0 "a\n\n\nb".toList (by decide) (by decide)⟩

/-- C9: when no tag pattern matches at any position of a non-empty text,
`processActionableText` returns the whole text as its single string part. -/
theorem no_match_single_text (text : Str) (hne : text ≠ [])
    (h : ∀ u ∈ text.tails, ∀ q ∈ patterns, q.1 u = none) :
    processActionableText text = .arr [.text text] := by
  have hq : ∀ q ∈ patterns, matchesOf text q = [] := by
    intro q hqm
    unfold matchesOf
    rw [execAll_nil_of_tails q.1 text (fun u hu => h u hu q hqm)]
    rfl
  have hc : collectMatches text = [] := by
    unfold collectMatches
    rw [List.map_congr_left hq]
    simp [patterns]
  rw [processActionableText_eq text hne]
  unfold allMatches
  rw [hc]
  have : 0 < text.length := List.length_pos.mpr hne
  simp [buildParts, this]

/-- The instances of `no_match_single_text` at an unknown tag, a lower-case tag,
an empty capture, a TEL capture with a letter and an unclosed tag. -/
theorem no_match_single_text_witness :
    processActionableText "[FOO:x]".toList = .arr [.text "[FOO:x]".toList] ∧
      processActionableText "[tel:1]".toList = .arr [.text "[tel:1]".toList] ∧
      processActionableText "[TEL:]".toList = .arr [.text "[TEL:]".toList] ∧
      processActionableText "[TEL:12a]".toList = .arr [.text "[TEL:12a]".toList] ∧
      processActionableText "[DOCTOR:x".toList = .arr [.text "[DOCTOR:x".toList] :=
  ⟨no_match_single_text "[FOO:x]".toList (by decide) (no_match_of_all _ (by decide)),
    no_match_single_text "[tel:1]".toList (by decide) (no_match_of_all _ (by decide)),
    no_match_single_text "[TEL:]".toList (by decide) (no_match_of_all _ (by decide)),
    no_match_single_text "[TEL:12a]".toList (by decide) (no_match_of_all _ (by decide)),
    no_match_single_text "[DOCTOR:x".toList (by decide) (no_match_of_all _ (by decide))⟩

/-- C10: the rows of a table returned by `renderTable` are the data rows (the
non-empty trimmed cells of each data line, in order), each cut to the first `n`
elements of the row followed by `n` empty strings, `n` being the header count: a
short row is padded on the right with empty strings, a long row keeps its first
`n` cells, a row of length `n` is unchanged. -/
theorem renderTable_rows_normalized (tableLines : List Str) (headers : List Str)
    (rows : List (List Str)) (h : renderTable tableLines = .table headers rows) :
    rows = (dataRows ((withSeparator tableLines).drop 2)).map
        (fun r => (r ++ List.replicate headers.length []).take headers.length) ∧
      ∀ r : List Str,
        (r.length ≤ headers.length →
          (r ++ List.replicate headers.length []).take headers.length
            = r ++ List.replicate (headers.length - r.length) []) ∧
        (headers.length ≤ r.length →
          (r ++ List.replicate headers.length []).take headers.length
            = r.take headers.length) ∧
        (r.length = headers.length →
          (r ++ List.replicate headers.length []).take headers.length = r) := by
  obtain ⟨_, hr⟩ := renderTable_eq_table tableLines headers rows h
  constructor
  · rw [hr]
    apply List.map_congr_left
    intro r _
    exact normalizeRow_eq_take _ r
  · intro r
    refine ⟨fun hle => ?_, fun hle => ?_, fun heq => ?_⟩
    · rw [List.take_append_eq_append_take, List.take_of_length_le hle]
      simp
    · rw [List.take_append_of_le_length hle]
    · rw [List.take_append_eq_append_take, List.take_of_length_le (by omega)]
      simp [heq]

/-- The instance of `renderTable_rows_normalized` at headers `A`, `B` and the rows
`| x |` and `| y | z | w |`. -/
theorem renderTable_rows_normalized_witness :
    renderTable ["| A | B |".toList, "| x |".toList, "| y | z | w |".toList]
        = .table ["A".toList, "B".toList] [["x".toList, []], ["y".toList, "z".toList]] ∧
      dataRows ((withSeparator
          ["| A | B |".toList, "| x |".toList, "| y | z | w |".toList]).drop 2)
        = [["x".toList], ["y".toList, "z".toList, "w".toList]] ∧
      [["x".toList, []], ["y".toList, "z".toList]]
        = (dataRows ((withSeparator
            ["| A | B |".toList, "| x |".toList, "| y | z | w |".toList]).drop 2)).map
          (fun r => (r ++ List.replicate ["A".toList, "B".toList].length []).take
            ["A".toList, "B".toList].length) :=
  ⟨rfl, by decide,
    (renderTable_rows_normalized ["| A | B |".toList, "| x |".toList, "| y | z | w |".toList]
      ["A".toList, "B".toList] [["x".toList, []], ["y".toList, "z".toList]] rfl).1⟩

/-- C11: a non-blank line whose trimmed form starts and ends with `**` gives the
header holding the trimmed line without its first two and its last two
characters: the empty string when the trimmed line has at most four characters,
and otherwise the text `t` with `"**" ++ t ++ "**"` equal to the trimmed line.
The header holds this text as a plain string. -/
theorem header_line (line : Str) (hne : trim line ≠ [])
    (hs : "**".toList <+: trim line) (he : "**".toList <:+ trim line) :
    classifyLine line = .header (((trim line).take ((trim line).length - 2)).drop 2) ∧
      ((trim line).length ≤ 4 → classifyLine line = .header []) ∧
      (4 ≤ (trim line).length →
        "**".toList ++ ((trim line).take ((trim line).length - 2)).drop 2 ++ "**".toList
          = trim line) := by
  have h1 : classifyLine line = .header (((trim line).take ((trim line).length - 2)).drop 2) := by
    unfold classifyLine
    have e : (trim line).isEmpty = false := by
      cases ht : trim line with
      | nil => exact absurd ht hne
      | cons a as => rfl
    simp only [e, Bool.false_eq_true, if_false, (startsWith_iff _ _).mpr hs,
      (endsWith_iff _ _).mpr he, Bool.and_self, if_true]
    rfl
  refine ⟨h1, fun hle => ?_, fun hge => ?_⟩
  · rw [h1]
    congr 1
    apply List.drop_eq_nil_of_le
    rw [List.length_take]
    omega
  · obtain ⟨r, hr⟩ := hs
    obtain ⟨q, hq⟩ := he
    have hlen : q.length + 2 = (trim line).length := by
      rw [← hq]
      simp
    have htake : (trim line).take ((trim line).length - 2) = q := by
      have : (trim line).length - 2 = q.length := by omega
      rw [this]
      conv_lhs => rw [← hq]
      simp
    rw [htake]
    have hq2 : "**".toList <+: q := by
      have hp : "**".toList <+: q ++ "**".toList := by
        rw [hq]
        exact ⟨r, hr⟩
      exact List.prefix_of_prefix_length_le hp (List.prefix_append q _) (by simp; omega)
    obtain ⟨m, hm⟩ := hq2
    rw [← hq, ← hm]
    simp

/-- The instances of `header_line` at `"  **Doctors**  "`, at a header holding a
bracket tag and an inner bold pair, and at the short headers `"**"` and `"***"`. -/
theorem header_line_witness :
    classifyLine "  **Doctors**  ".toList = .header "Doctors".toList ∧
      classifyLine "**Call [TEL:1] **now** **".toList
        = .header "Call [TEL:1] **now** ".toList ∧
      classifyLine "**".toList = .header [] ∧
      classifyLine "***".toList = .header [] :=
  ⟨(header_line "  **Doctors**  ".toList (by decide) (by decide) (by decide)).1,
    (header_line "**Call [TEL:1] **now** **".toList (by decide) (by decide) (by decide)).1,
    (header_line "**".toList (by decide) (by decide) (by decide)).2.1 (by decide),
    (header_line "***".toList (by decide) (by decide) (by decide)).2.1 (by decide)⟩

/-- C12: on `"1. **Cardiology**"` the block is the numbered item `1.` holding
the bold node `Cardiology`, not a header: `renderInline` returns an array, so the
test `typeof content === 'string'` of the header reinterpretation fails.  On the
string `"**Cardiology**"` that reinterpretation gives the header text
`Cardiology`. -/
theorem numbered_bold_not_header :
    FormattedMessage 1 "1. **Cardiology**".toList =
        some (.lines [.numbered "1.".toList (.inline (.arr [.strong "Cardiology".toList]))]) ∧
      boldWrapped "**Cardiology**".toList = true ∧
      sliceInner (headerReplace "**Cardiology**".toList) = "Cardiology".toList :=
  ⟨rfl, by decide, by decide⟩

/-- C13: the actionable elements of the output of `renderInline` are those of
`processActionableText`, unchanged, as often and in the same order; each shows
the capture of its match verbatim. -/
theorem renderInline_keeps_elements (text : Str) :
    (renderInline text).nodes.filter Node.isElement
        = (processActionableText text).nodes.filter Node.isElement ∧
      ∀ n ∈ (renderInline text).nodes, n.isElement = true →
        ∃ m ∈ allMatches text, n = element m ∧ n.label = m.content := by
  have key : (renderInline text).nodes.filter Node.isElement
      = (processActionableText text).nodes.filter Node.isElement := by
    cases h : processActionableText text with
    | arr parts =>
      rw [renderInline_arr text parts h]
      exact filter_isElement_flatten parts
    | str s =>
      unfold renderInline
      rw [h]
      simp only
      split
      · show (boldParts s).filter Node.isElement = []
        rw [List.filter_eq_nil_iff]
        intro a ha
        rw [fillBold_not_element s _ 0 a ha]
        simp
      · rfl
  refine ⟨key, fun n hn he => ?_⟩
  have h1 : n ∈ (processActionableText text).nodes.filter Node.isElement := by
    rw [← key]
    exact List.mem_filter.mpr ⟨hn, he⟩
  have h2 := (List.mem_filter.mp h1).1
  cases h : processActionableText text with
  | str s =>
    rw [h] at h2
    rw [List.mem_singleton.mp h2] at he
    cases he
  | arr parts =>
    rw [h] at h2
    obtain ⟨_, hp⟩ := processActionableText_arr text parts h
    change n ∈ parts at h2
    rw [hp] at h2
    rcases mem_buildParts text _ 0 n h2 with ⟨m, hm, e⟩ | ⟨a, b, _, e, _⟩
    · exact ⟨m, hm, e, by rw [e]; exact element_label m⟩
    · rw [e] at he
      cases he

/-- The instance of `renderInline_keeps_elements` at `"see [DOCTOR:**Dr. X**]"`:
the link is labelled `**Dr. X**` and there is no bold node. -/
theorem renderInline_keeps_elements_witness :
    renderInline "see [DOCTOR:**Dr. X**]".toList
        = .arr [.text "see ".toList,
            .doctor "**Dr. X**".toList "https://www.kghospital.com/doctors-list".toList] ∧
      (renderInline "see [DOCTOR:**Dr. X**]".toList).nodes.filter Node.isElement
        = (processActionableText "see [DOCTOR:**Dr. X**]".toList).nodes.filter Node.isElement :=
  ⟨by decide, (renderInline_keeps_elements "see [DOCTOR:**Dr. X**]".toList).1⟩

/-- C14: the output of `renderInline` is the concatenation, in the order of the
parts, of what each part of `processActionableText` gives; a string part without
`**` gives that one string and an actionable element gives itself. -/
theorem renderInline_order (text : Str) (parts : List Node)
    (h : processActionableText text = .arr parts) :
    renderInline text = .arr ((parts.map renderPart).flatten) ∧
      (∀ s, Node.text s ∈ parts → ¬ "**".toList <:+: s → renderPart (.text s) = [.text s]) ∧
      (∀ e ∈ parts, e.isElement = true → renderPart e = [e]) := by
  obtain ⟨_, hp⟩ := processActionableText_arr text parts h
  refine ⟨renderInline_arr text parts h, fun s hs hb => ?_, fun e _ he => ?_⟩
  · have hne : s ≠ [] :=
      buildParts_text_ne_nil text _ (allMatches_index_lt text) 0 s (by rw [← hp]; exact hs)
    exact boldParts_plain s hne hb
  · cases e with
    | text s => cases he
    | _ => rfl

/-- The instance of `renderInline_order` at `"a [TEL:1] **b** c"`. -/
theorem renderInline_order_witness :
    processActionableText "a [TEL:1] **b** c".toList
        = .arr [.text "a ".toList, .phone "1".toList "1".toList, .text " **b** c".toList] ∧
      renderInline "a [TEL:1] **b** c".toList
        = .arr [.text "a ".toList, .phone "1".toList "1".toList, .text " ".toList,
            .strong "b".toList, .text " c".toList] ∧
      renderPart (.text "a ".toList) = [.text "a ".toList] :=
  ⟨by decide,
    (renderInline_order "a [TEL:1] **b** c".toList
      [.text "a ".toList, .phone "1".toList "1".toList, .text " **b** c".toList]
      (by decide)).1,
    (renderInline_order "a [TEL:1] **b** c".toList
      [.text "a ".toList, .phone "1".toList "1".toList, .text " **b** c".toList]
      (by decide)).2.1 "a ".toList (by decide) (by decide)⟩

/-- C15, as stated, fails: the line `" a"` gives the paragraph `a`, without the
leading blank; the line `"- a"` gives the bullet `a`, without its marker; and the
three-line table message, which has no bracket tag and no bold marker, gives one
table, in which the separator line has no text at all. -/
theorem passthrough_counterexample :
    FormattedMessage 1 " a".toList = some (.lines [.paragraph (.arr [.text "a".toList])]) ∧
      FormattedMessage 1 "- a".toList = some (.lines [.bullet (.arr [.text "a".toList])]) ∧
      FormattedMessage 2 "| A | B |\n|---|---|\n| 1 | 2 |".toList
        = some (.div [.table ["A".toList, "B".toList] [["1".toList, "2".toList]]]) :=
  ⟨rfl, rfl, rfl⟩

/-- C15, amended: for a non-empty message without `[` and without `**` that does
not pass the table gate, the document has one block per line, in order.  A blank
line gives a spacer.  Any other line gives a paragraph, a bullet or a numbered
item whose content is exactly one string: the trimmed line for a paragraph, a
non-empty end of the trimmed line for a bullet, a non-empty contiguous piece of
the trimmed line for a numbered item.  A line whose trimmed form starts with
neither `-`, `*`, the bullet glyph nor a digit gives a paragraph. -/
theorem plain_message_blocks (fuel : Nat) (content : Str) (hne : content ≠ [])
    (hg : tableGate content = false) (hb : '[' ∉ content)
    (hs : ¬ "**".toList <:+: content) :
    FormattedMessage (fuel + 1) content
        = some (.lines ((splitChar '\n' content).map classifyLine)) ∧
      ∀ l ∈ splitChar '\n' content,
        (trim l = [] → classifyLine l = .spacer) ∧
        (trim l ≠ [] →
          classifyLine l = .paragraph (.arr [.text (trim l)]) ∨
          (∃ rem, rem ≠ [] ∧ rem <:+ trim l ∧ classifyLine l = .bullet (.arr [.text rem])) ∨
          (∃ lbl rem, rem ≠ [] ∧ rem <:+: trim l ∧
            classifyLine l = .numbered lbl (.inline (.arr [.text rem])))) ∧
        (∀ c cs, trim l = c :: cs → c ≠ '-' → c ≠ '*' → c ≠ Char.ofNat 0x201A →
          isDigit c = false → classifyLine l = .paragraph (.arr [.text (trim l)])) := by
  refine ⟨FormattedMessage_succ_of_not_gate fuel content hne hg, fun l hl => ?_⟩
  have hinf := mem_splitChar_contained '\n' content l hl
  have hlb : '[' ∉ l := fun h => hb (hinf.subset h)
  have hls : ¬ "**".toList <:+: l := fun h => hs (h.trans hinf)
  refine ⟨(classifyLine_eq_spacer_iff l).mpr, fun ht => classifyLine_plain l ht hlb hls,
    fun c cs ht h1 h2 h3 h4 => classifyLine_paragraph l c cs ht hlb hls h1 h2 h3 h4⟩

/-- The instance of `plain_message_blocks` at a message with a paragraph, a
blank line, an indented paragraph, a bullet and a numbered line. -/
theorem plain_message_blocks_witness :
    "hello\n\n  world  \n- item\n1. one".toList ≠ [] ∧
      tableGate "hello\n\n  world  \n- item\n1. one".toList = false ∧
      '[' ∉ "hello\n\n  world  \n- item\n1. one".toList ∧
      ¬ "**".toList <:+: "hello\n\n  world  \n- item\n1. one".toList ∧
      FormattedMessage 1 "hello\n\n  world  \n- item\n1. one".toList
        = some (.lines [.paragraph (.arr [.text "hello".toList]), .spacer,
            .paragraph (.arr [.text "world".toList]), .bullet (.arr [.text "item".toList]),
            .numbered "1.".toList (.inline (.arr [.text "one".toList]))]) :=
  ⟨by decide, by decide, by decide, by decide,
    (plain_message_blocks 0 "hello\n\n  world  \n- item\n1. one".toList (by decide) (by decide)
      (by decide) (by decide)).1⟩

/-- C16: the matches are walked in non-decreasing order of their start offset,
matches with the same start offset stand in the registration order of their
patterns, and the actionable elements of the output are the elements of the
matches in that order. -/
theorem matches_in_offset_order (text : Str) :
    (allMatches text).Sorted (fun a b => a.index ≤ b.index) ∧
      (∀ i, (((allMatches text).filter (fun m => m.index == i)).map
        (fun m => registrationIndex m.type)).Sorted (· ≤ ·)) ∧
      (processActionableText text).nodes.filter Node.isElement
        = (allMatches text).map element := by
  refine ⟨allMatches_sorted text, fun i => ?_, ?_⟩
  · rw [allMatches_filter_index]
    exact (collectMatches_registration_sorted text).sublist
      ((List.filter_sublist _).map _)
  · by_cases ht : text = []
    · subst ht
      rfl
    · rw [processActionableText_eq text ht]
      exact buildParts_filter_isElement text _ 0

/-- The instance of `matches_in_offset_order` at `"[LOCATION:a] [TEL:1]"`: the TEL
match is collected first and walked second. -/
theorem matches_in_offset_order_witness :
    (collectMatches "[LOCATION:a] [TEL:1]".toList).map (fun m => (m.type, m.index))
        = [(.phone, 13), (.location, 0)] ∧
      (allMatches "[LOCATION:a] [TEL:1]".toList).map (fun m => (m.type, m.index))
        = [(.location, 0), (.phone, 13)] ∧
      (allMatches "[LOCATION:a] [TEL:1]".toList).Sorted (fun a b => a.index ≤ b.index) :=
  ⟨by decide, by decide, (matches_in_offset_order "[LOCATION:a] [TEL:1]".toList).1⟩

/-- C17: for a table block of the segmentation with at least two lines.  When
line 1 has no `---`, the reassigned `tableLines` holds, at index 1, a separator
line with as many `---` cells as line 0 has non-empty cells, and the data rows
come from every original line after line 0.  When line 1 has `---`, the data
rows come from the lines at index 2 onward.  In both cases the headers are the
non-empty cells of line 0. -/
theorem separator_rule (content : Str) (tableLines : List Str)
    (hmem : TableBlock.table tableLines ∈ segment content) (hlen : 2 ≤ tableLines.length) :
    (¬ "---".toList <:+: tableLines.getD 1 [] →
      withSeparator tableLines
          = tableLines.getD 0 [] ::
              separatorLine (cellsOf (tableLines.getD 0 [])).length :: tableLines.drop 1 ∧
        cellsOf (separatorLine (cellsOf (tableLines.getD 0 [])).length)
          = List.replicate (cellsOf (tableLines.getD 0 [])).length "---".toList ∧
        renderTable tableLines
          = .table (cellsOf (tableLines.getD 0 []))
              ((dataRows (tableLines.drop 1)).map
                (normalizeRow (cellsOf (tableLines.getD 0 [])).length))) ∧
      ("---".toList <:+: tableLines.getD 1 [] →
        renderTable tableLines
          = .table (cellsOf (tableLines.getD 0 []))
              ((dataRows (tableLines.drop 2)).map
                (normalizeRow (cellsOf (tableLines.getD 0 [])).length))) := by
  obtain ⟨_, hall⟩ := segment_table_mem content tableLines hmem
  have h0 : cellsOf (tableLines.getD 0 []) ≠ [] := by
    cases tableLines with
    | nil => simp at hlen
    | cons a as => exact (hall a (List.mem_cons_self _ _)).2
  have hn : (cellsOf (tableLines.getD 0 [])).length ≠ 0 :=
    fun h => h0 (List.length_eq_zero.mp h)
  constructor
  · intro hsep
    have hw := withSeparator_of_no_sep tableLines hsep
    rw [if_neg hn] at hw
    refine ⟨hw, cellsOf_separatorLine _, ?_⟩
    rw [renderTable_of_two tableLines hlen, cleanHeaders_of_cells _ h0, hw]
    rfl
  · intro hsep
    rw [renderTable_of_two tableLines hlen, cleanHeaders_of_cells _ h0,
      withSeparator_of_sep tableLines hsep]

/-- The instance of `separator_rule` at the table block of the message
`| A | B |`, `| x |`, `| y | z | w |`, `---`, whose line 1 has no `---`. -/
theorem separator_rule_witness :
    TableBlock.table ["| A | B |".toList, "| x |".toList, "| y | z | w |".toList]
        ∈ segment "| A | B |\n| x |\n| y | z | w |\n---".toList ∧
      withSeparator ["| A | B |".toList, "| x |".toList, "| y | z | w |".toList]
        = ["| A | B |".toList, "| --- | --- |".toList, "| x |".toList,
            "| y | z | w |".toList] ∧
      renderTable ["| A | B |".toList, "| x |".toList, "| y | z | w |".toList]
        = .table ["A".toList, "B".toList] [["x".toList, []], ["y".toList, "z".toList]] :=
  ⟨by decide,
    ((separator_rule "| A | B |\n| x |\n| y | z | w |\n---".toList
      ["| A | B |".toList, "| x |".toList, "| y | z | w |".toList] (by decide) (by decide)).1
      (by decide)).1,
    ((separator_rule "| A | B |\n| x |\n| y | z | w |\n---".toList
      ["| A | B |".toList, "| x |".toList, "| y | z | w |".toList] (by decide) (by decide)).1
      (by decide)).2.2⟩

/-- C18: for a table block with fewer than two lines `renderTable` returns
`null`; the child it leaves in the document holds no table and no line block,
and the children of the blocks before and after it are what they are without
it. -/
theorem short_table_block (tableLines : List Str) (hlen : tableLines.length < 2) :
    renderTable tableLines = .null ∧
      ∀ (render : Str → Option Rendered) (pre post : List TableBlock)
        (rs1 rs2 : List Rendered),
        renderBlocks render pre = some rs1 → renderBlocks render post = some rs2 →
          renderBlocks render (pre ++ TableBlock.table tableLines :: post)
              = some (rs1 ++ Rendered.null :: rs2) ∧
            blocksOfList (rs1 ++ Rendered.null :: rs2)
              = blocksOfList rs1 ++ blocksOfList rs2 := by
  have hnull : renderTable tableLines = .null := by
    unfold renderTable
    rw [if_pos hlen]
  refine ⟨hnull, fun render pre post rs1 rs2 h1 h2 => ⟨?_, ?_⟩⟩
  · apply renderBlocks_append render pre _ rs1 _ h1
    simp only [renderBlocks, renderBlock, hnull, h2]
  · rw [blocksOfList_append]
    rfl

/-- The instance of `short_table_block` at a lone table line between two lines
of prose. -/
theorem short_table_block_witness :
    segment "intro ---\n| A | B |\noutro".toList
        = [.text ["intro ---".toList], .table ["| A | B |".toList], .text ["outro".toList]] ∧
      renderTable ["| A | B |".toList] = .null ∧
      FormattedMessage 2 "intro ---\n| A | B |\noutro".toList
        = some (.div [.lines [.paragraph (.arr [.text "intro ---".toList])], .null,
            .lines [.paragraph (.arr [.text "outro".toList])]]) :=
  ⟨by decide, (short_table_block ["| A | B |".toList] (by decide)).1, rfl⟩

/-- C19: for at least two table lines, the headers of the table are the
non-empty trimmed cells of line 0 split on the pipe character, in their order,
and the four labels `Column 1` to `Column 4` when line 0 has no such cell. -/
theorem table_headers (tableLines : List Str) (hlen : 2 ≤ tableLines.length) :
    ∃ rows, renderTable tableLines =
      .table
        (if ((splitChar '|' (tableLines.getD 0 [])).map trim).filter (fun c => !c.isEmpty) = []
          then ["Column 1".toList, "Column 2".toList, "Column 3".toList, "Column 4".toList]
          else ((splitChar '|' (tableLines.getD 0 [])).map trim).filter (fun c => !c.isEmpty))
        rows := by
  rw [renderTable_of_two tableLines hlen]
  by_cases h : cellsOf (tableLines.getD 0 []) = []
  · have h2 : ((splitChar '|' (tableLines.getD 0 [])).map trim).filter (fun c => !c.isEmpty)
        = [] := h
    rw [cleanHeaders_of_no_cells _ h, if_pos h2]
    exact ⟨_, rfl⟩
  · have h2 : ¬ ((splitChar '|' (tableLines.getD 0 [])).map trim).filter (fun c => !c.isEmpty)
        = [] := h
    rw [cleanHeaders_of_cells _ h, if_neg h2]
    exact ⟨_, rfl⟩

/-- The instances of `table_headers` at a header line with two cells and at a
header line without any cell. -/
theorem table_headers_witness :
    renderTable ["|  Name | Dept  |".toList, "|---|---|".toList]
        = .table ["Name".toList, "Dept".toList] [] ∧
      renderTable ["||".toList, "| a |".toList]
        = .table ["Column 1".toList, "Column 2".toList, "Column 3".toList, "Column 4".toList]
            [["a".toList, [], [], []]] ∧
      ∃ rows, renderTable ["||".toList, "| a |".toList] =
        .table
          (if ((splitChar '|' (["||".toList, "| a |".toList].getD 0 [])).map trim).filter
              (fun c => !c.isEmpty) = []
            then ["Column 1".toList, "Column 2".toList, "Column 3".toList, "Column 4".toList]
            else ((splitChar '|' (["||".toList, "| a |".toList].getD 0 [])).map trim).filter
              (fun c => !c.isEmpty))
          rows :=
  ⟨rfl, rfl, table_headers ["||".toList, "| a |".toList] (by decide)⟩

/-- C20: in a table made from a table block of the segmentation, every header
is a trimmed piece of line 0 split on the pipe character, and every non-empty
cell of a row is a trimmed piece of one line of the block, which is a line of
the message; the empty cells are padding.  Headers and cells are plain strings. -/
theorem table_cells_verbatim (content : Str) (tableLines : List Str) (headers : List Str)
    (rows : List (List Str)) (hmem : TableBlock.table tableLines ∈ segment content)
    (h : renderTable tableLines = .table headers rows) :
    (∀ hd ∈ headers, ∃ piece ∈ splitChar '|' (tableLines.getD 0 []), hd = trim piece) ∧
      tableLines.getD 0 [] ∈ splitChar '\n' content ∧
      ∀ row ∈ rows, ∀ cell ∈ row, cell ≠ [] →
        ∃ l ∈ tableLines, l ∈ splitChar '\n' content ∧
          ∃ piece ∈ splitChar '|' l, cell = trim piece := by
  obtain ⟨hne, hall⟩ := segment_table_mem content tableLines hmem
  obtain ⟨hh, hr⟩ := renderTable_eq_table tableLines headers rows h
  rw [withSeparator_head] at hh
  have h0mem : tableLines.getD 0 [] ∈ tableLines := by
    cases tableLines with
    | nil => exact absurd rfl hne
    | cons a as => exact List.mem_cons_self _ _
  have h0 : cellsOf (tableLines.getD 0 []) ≠ [] := (hall _ h0mem).2
  rw [cleanHeaders_of_cells _ h0] at hh
  refine ⟨fun hd hhd => ?_, (hall _ h0mem).1, fun row hrow cell hcell hcne => ?_⟩
  · rw [hh] at hhd
    exact (mem_cellsOf _ _ hhd).2
  · rw [hr] at hrow
    obtain ⟨r, hrm, rfl⟩ := List.mem_map.mp hrow
    obtain ⟨l, hl, rfl⟩ := mem_dataRows _ r hrm
    have hcl : cell ∈ cellsOf l := by
      rcases mem_normalizeRow _ _ cell hcell with hc | hc
      · exact hc
      · exact absurd hc hcne
    have hlt : l ∈ tableLines := by
      have hsub : l ∈ withSeparator tableLines := List.mem_of_mem_drop hl
      by_cases hsep : "---".toList <:+: tableLines.getD 1 []
      · rw [withSeparator_of_sep tableLines hsep] at hsub
        exact hsub
      · rw [withSeparator_of_no_sep tableLines hsep] at hl
        exact List.mem_of_mem_tail (by simpa using hl)
    exact ⟨l, hlt, (hall l hlt).1, (mem_cellsOf _ _ hcl).2⟩

/-- The instance of `table_cells_verbatim` at a table whose cells hold a bracket
tag and bold markers: they stay literal text. -/
theorem table_cells_verbatim_witness :
    TableBlock.table ["| [TEL:123] | **b** |".toList, "|---|---|".toList,
          "| [DOCTOR:x] | **y** |".toList]
        ∈ segment "| [TEL:123] | **b** |\n|---|---|\n| [DOCTOR:x] | **y** |".toList ∧
      renderTable ["| [TEL:123] | **b** |".toList, "|---|---|".toList,
          "| [DOCTOR:x] | **y** |".toList]
        = .table ["[TEL:123]".toList, "**b**".toList]
            [["[DOCTOR:x]".toList, "**y**".toList]] ∧
      ∀ hd ∈ ["[TEL:123]".toList, "**b**".toList],
        ∃ piece ∈ splitChar '|'
            (["| [TEL:123] | **b** |".toList, "|---|---|".toList,
              "| [DOCTOR:x] | **y** |".toList].getD 0 []),
          hd = trim piece :=
  ⟨by decide, rfl,
    (table_cells_verbatim "| [TEL:123] | **b** |\n|---|---|\n| [DOCTOR:x] | **y** |".toList
      ["| [TEL:123] | **b** |".toList, "|---|---|".toList, "| [DOCTOR:x] | **y** |".toList]
      ["[TEL:123]".toList, "**b**".toList] [["[DOCTOR:x]".toList, "**y**".toList]]
      (by decide) rfl).1⟩

/-- C21, as stated, fails: in `a ---`, `||`, `b` the table line without any cell
is dropped and two text blocks follow each other; in `| a |`, blank, `| b |`,
`---` the blank line is dropped and two table blocks follow each other. -/
theorem blocks_not_alternating_counterexample :
    segment "a ---\n||\nb".toList = [.text ["a ---".toList], .text ["b".toList]] ∧
      alternates (segment "a ---\n||\nb".toList) = false ∧
      segment "| a |\n\n| b |\n---".toList
        = [.table ["| a |".toList], .table ["| b |".toList], .text ["---".toList]] ∧
      alternates (segment "| a |\n\n| b |\n---".toList) = false := by
  decide

/-- C21, amended: when no line of the message is blank and every line whose
trimmed form starts with the pipe character has a non-empty cell, no two
consecutive blocks of the segmentation are of the same kind. -/
theorem blocks_alternate (content : Str)
    (h : ∀ l ∈ splitChar '\n' content,
      trim l ≠ [] ∧ (isTableLine l = true → cellsOf (trim l) ≠ [])) :
    alternates (segment content) = true :=
  (segmentLoop_alternates _ _ h).1

/-- The instance of `blocks_alternate` at a message with prose, a table, prose
and a second table. -/
theorem blocks_alternate_witness :
    segment "intro\n| A |\n|---|\n| x |\nmiddle\n| B |\n| y |".toList
        = [.text ["intro".toList], .table ["| A |".toList, "|---|".toList, "| x |".toList],
            .text ["middle".toList], .table ["| B |".toList, "| y |".toList]] ∧
      alternates (segment "intro\n| A |\n|---|\n| x |\nmiddle\n| B |\n| y |".toList) = true :=
  ⟨by decide,
    blocks_alternate "intro\n| A |\n|---|\n| x |\nmiddle\n| B |\n| y |".toList (by decide)⟩

/-- C22: a line whose trimmed form is `-` or `*`, then a white-space character,
then `r`, gives the bullet whose content is `renderInline` of the trimmed line
without the marker and without all the white space that follows it. -/
theorem bullet_line (l : Str) (c w : Char) (r : Str) (ht : trim l = c :: w :: r)
    (hc : c = '-' ∨ c = '*') (hw : isWhiteSpace w = true) :
    classifyLine l = .bullet (renderInline ((trim l).tail.dropWhile isWhiteSpace)) := by
  rw [classifyLine_bullet l c w r ht hc hw, ht]
  rfl

/-- The instance of `bullet_line` at `"  -   item [TEL:1] **b**"`. -/
theorem bullet_line_witness :
    trim "  -   item [TEL:1] **b**".toList = '-' :: ' ' :: "  item [TEL:1] **b**".toList ∧
      classifyLine "  -   item [TEL:1] **b**".toList
        = .bullet (.arr [.text "item ".toList, .phone "1".toList "1".toList,
            .text " ".toList, .strong "b".toList]) :=
  ⟨by decide,
    bullet_line "  -   item [TEL:1] **b**".toList '-' ' ' "  item [TEL:1] **b**".toList
      (by decide) (Or.inl rfl) (by decide)⟩

/-- C23, as stated, fails: the line `"1. foo"` gives the numbered item whose
label is `1.`, the digit and the dot, not the run of digits alone. -/
theorem numbered_label_counterexample :
    FormattedMessage 1 "1. foo".toList
        = some (.lines [.numbered "1.".toList (.inline (.arr [.text "foo".toList]))]) ∧
      "1.".toList ≠ "1".toList :=
  ⟨rfl, by decide⟩

/-- C23, amended: a line whose trimmed form is a run of digits `ds`, a dot, a run
of white space and a rest that starts with a character other than white space
gives the numbered item whose label is `ds` followed by the dot, without white
space, and whose content is `renderInline` of the rest up to its first line
terminator character. -/
theorem numbered_line (l ds ws : Str) (x : Char) (rest : Str)
    (ht : trim l = ds ++ ".".toList ++ ws ++ x :: rest) (hds : ds ≠ [])
    (hdig : ∀ d ∈ ds, isDigit d = true) (hws : ws ≠ [])
    (hwsall : ∀ w ∈ ws, isWhiteSpace w = true) (hx : isWhiteSpace x = false) :
    ∃ nodes, renderInline ((x :: rest).takeWhile dot) = .arr nodes ∧
      classifyLine l = .numbered (ds ++ ".".toList) (.inline (.arr nodes)) := by
  obtain ⟨_, _, nodes, _, hri, hcl⟩ :=
    classifyLine_numbered l ds ws x rest ht hds hdig hws hwsall hx
  exact ⟨nodes, hri, hcl⟩

/-- The instance of `numbered_line` at `"12.  see [TEL:1]"`. -/
theorem numbered_line_witness :
    trim "12.  see [TEL:1]".toList
        = "12".toList ++ ".".toList ++ "  ".toList ++ 's' :: "ee [TEL:1]".toList ∧
      ∃ nodes, renderInline (('s' :: "ee [TEL:1]".toList).takeWhile dot) = .arr nodes ∧
        classifyLine "12.  see [TEL:1]".toList
          = .numbered ("12".toList ++ ".".toList) (.inline (.arr nodes)) :=
  ⟨by decide,
    numbered_line "12.  see [TEL:1]".toList "12".toList "  ".toList 's' "ee [TEL:1]".toList
      (by decide) (by decide) (by decide) (by decide) (by decide) (by decide)⟩

/-- C24: for a line whose trimmed form passes the numbered test, the regex of
the numbered branch matches, `renderInline` of the remainder is a non-empty
array of nodes, and the block is the numbered item holding that array: it is
neither a header nor one of the name and category composites. -/
theorem numbered_always_array (l : Str) (h : numberedTest (trim l) = true) :
    ∃ number content nodes, numberedMatch (trim l) = some (number, content) ∧
      renderInline content = .arr nodes ∧ nodes ≠ [] ∧
      classifyLine l = .numbered (trim number) (.inline (.arr nodes)) := by
  obtain ⟨ds, ws, x, rest, ht, hds, hdig, hws, hwsall, hx⟩ := numberedTest_decomposition l h
  obtain ⟨hnm, htrim, nodes, hnodes, hri, hcl⟩ :=
    classifyLine_numbered l ds ws x rest ht hds hdig hws hwsall hx
  exact ⟨_, _, nodes, hnm, hri, hnodes, by rw [htrim]; exact hcl⟩

/-- The instances of `numbered_always_array` at a numbered line with a name, a
category and an employment type, and at a numbered line wrapped in bold. -/
theorem numbered_always_array_witness :
    classifyLine "1. Dr. Rao - Cardiology - Full Time".toList
        = .numbered "1.".toList
            (.inline (.arr [.text "Dr. Rao - Cardiology - Full Time".toList])) ∧
      classifyLine "2. **Cardiology**".toList
        = .numbered "2.".toList (.inline (.arr [.strong "Cardiology".toList])) ∧
      ∃ number content nodes,
        numberedMatch (trim "2. **Cardiology**".toList) = some (number, content) ∧
        renderInline content = .arr nodes ∧ nodes ≠ [] ∧
        classifyLine "2. **Cardiology**".toList
          = .numbered (trim number) (.inline (.arr nodes)) :=
  ⟨by decide, by decide, numbered_always_array "2. **Cardiology**".toList (by decide)⟩

/-- C25: for a message that passes the table gate and none of whose text blocks
passes it, the transform ends with two units of fuel, that is with one level of
`FormattedMessage` below the top-level call: every text block is classified line
by line and every table block goes through `renderTable`. -/
theorem table_mode_depth_one (fuel : Nat) (content : Str) (hne : content ≠ [])
    (hg : tableGate content = true)
    (h : ∀ ls, TableBlock.text ls ∈ segment content →
      tableGate (join "\n".toList ls) = false) :
    FormattedMessage (fuel + 2) content
      = some (.div ((segment content).map renderBlockDirect)) := by
  rw [FormattedMessage_succ_of_gate (fuel + 1) content hne hg]
  unfold TableRenderer
  rw [renderBlocks_direct fuel content (segment content) (fun _ hb => hb) h]

/-- The instance of `table_mode_depth_one` at a message with prose before and
after a table. -/
theorem table_mode_depth_one_witness :
    FormattedMessage 2 "Doctors\n| A | B |\n|---|---|\n| x | y |\n- done".toList
      = some (.div [.lines [.paragraph (.arr [.text "Doctors".toList])],
          .table ["A".toList, "B".toList] [["x".toList, "y".toList]],
          .lines [.bullet (.arr [.text "done".toList])]]) :=
  table_mode_depth_one 0 "Doctors\n| A | B |\n|---|---|\n| x | y |\n- done".toList
    (by decide) (by decide) (text_blocks_of_all _ (by decide))

/-- C26: when the matches are pairwise disjoint, writing the output again in
order, a string part as it is and an element as its bracket tag rebuilt from the
captures of its match, gives back the input. -/
theorem reserialize_roundtrip (text : Str)
    (h : (allMatches text).Pairwise (fun a b =>
      a.index + a.length ≤ b.index ∨ b.index + b.length ≤ a.index)) :
    processActionableText text
        = (if text = [] then .str []
            else .arr ((buildSerial text (allMatches text) 0).map Prod.snd)) ∧
      ((buildSerial text (allMatches text) 0).map Prod.fst).flatten = text := by
  have hsrc : ∀ m ∈ allMatches text,
      slice text m.index (m.index + m.length) = serializeMatch m ∧ 0 < m.length :=
    fun m hm => collectMatches_source text m ((List.mem_insertionSort _).mp hm)
  have hd : disjointFrom 0 (allMatches text) = true :=
    disjointFrom_of_pairwise _ (allMatches_sorted text) h (fun m hm => (hsrc m hm).2) 0
      (fun _ _ => Nat.zero_le _)
  rw [buildSerial_eq_buildSpans text _ (fun m hm => (hsrc m hm).1)]
  constructor
  · by_cases ht : text = []
    · subst ht
      rfl
    · rw [if_neg ht, processActionableText_eq text ht, buildSpans_snd]
  · rw [buildSpans_fst_flatten text _ 0 hd]
    rfl

/-- The instance of `reserialize_roundtrip` at a text with a TEL tag and a
DOCTORPROFILE tag. -/
theorem reserialize_roundtrip_witness :
    (buildSerial "Call [TEL:1 2] or [DOCTORPROFILE:Dr. A|cardiology|dr-a].".toList
          (allMatches "Call [TEL:1 2] or [DOCTORPROFILE:Dr. A|cardiology|dr-a].".toList)
          0).map Prod.fst
        = ["Call ".toList, "[TEL:1 2]".toList, " or ".toList,
            "[DOCTORPROFILE:Dr. A|cardiology|dr-a]".toList, ".".toList] ∧
      ((buildSerial "Call [TEL:1 2] or [DOCTORPROFILE:Dr. A|cardiology|dr-a].".toList
          (allMatches "Call [TEL:1 2] or [DOCTORPROFILE:Dr. A|cardiology|dr-a].".toList)
          0).map Prod.fst).flatten
        = "Call [TEL:1 2] or [DOCTORPROFILE:Dr. A|cardiology|dr-a].".toList :=
  ⟨by decide,
    (reserialize_roundtrip "Call [TEL:1 2] or [DOCTORPROFILE:Dr. A|cardiology|dr-a].".toList
      (by decide)).2⟩

/-- C27: the bold split of a string part loses nothing: the nodes of
`boldParts`, a string as it is and a `<strong>` written back between two pairs
of stars, concatenate to the part; every node is a string or a `<strong>`, and
its text is not empty. -/
theorem bold_split_lossless (part : Str) :
    ((boldParts part).map boldSource).flatten = part ∧
      ∀ n ∈ boldParts part, ∃ s, s ≠ [] ∧ (n = .text s ∨ n = .strong s) := by
  constructor
  · unfold boldParts
    rw [fillBold_source part _ (fun m hm => (execAll_bold_source part m hm).2) 0
      (execAll_chain boldPattern part 0 0)]
    rfl
  · intro n hn
    unfold boldParts at hn
    rcases mem_fillBold part _ 0 n hn with ⟨m, hm, e⟩ | ⟨a, b, hab, e, hb⟩
    · exact ⟨_, (execAll_bold_source part m hm).1, Or.inr e⟩
    · refine ⟨_, slice_ne_nil part a b hab ?_, Or.inl e⟩
      rcases hb with hb | ⟨m, hm, hb⟩
      · omega
      · have := (execAll_index_lt boldPattern part 0 0 m hm).2
        omega

/-- The instance of `bold_split_lossless` at `"a **b** c ** d"`. -/
theorem bold_split_lossless_witness :
    boldParts "a **b** c ** d".toList
        = [.text "a ".toList, .strong "b".toList, .text " c ** d".toList] ∧
      ((boldParts "a **b** c ** d".toList).map boldSource).flatten = "a **b** c ** d".toList :=
  ⟨by decide, (bold_split_lossless "a **b** c ** d".toList).1⟩

/-- C28: no two collected matches start at the same offset, so the matches
sorted by start offset are the same list whatever the order in which the
patterns are scanned and whatever the sort: every list with the same matches
that is sorted by start offset is `allMatches`. -/
theorem no_offset_ties (text : Str) :
    (collectMatches text).Pairwise (fun a b => a.index ≠ b.index) ∧
      ∀ l : List ActionMatch, l.Perm (collectMatches text) →
        l.Sorted (fun a b => a.index ≤ b.index) → l = allMatches text := by
  have hne := collectMatches_index_pairwise text
  refine ⟨hne, fun l hperm hsorted => ?_⟩
  have hsym : ∀ {x y : ActionMatch}, x.index ≠ y.index → y.index ≠ x.index :=
    fun h => Ne.symm h
  have hl : l.Pairwise (fun a b => a.index ≠ b.index) :=
    (hperm.pairwise_iff hsym).mpr hne
  have ha : (allMatches text).Pairwise (fun a b => a.index ≠ b.index) :=
    ((List.perm_insertionSort _ (collectMatches text)).pairwise_iff hsym).mpr hne
  have strict : ∀ m : List ActionMatch, m.Pairwise (fun a b => a.index ≤ b.index) →
      m.Pairwise (fun a b => a.index ≠ b.index) →
      m.Pairwise (fun a b => a.index < b.index) := by
    intro m h1 h2
    exact (h1.and h2).imp (fun h => Nat.lt_of_le_of_ne h.1 h.2)
  exact @List.eq_of_perm_of_sorted _ (fun a b : ActionMatch => a.index < b.index)
    ⟨fun a b h1 h2 => absurd h1 (Nat.lt_asymm h2)⟩ _ _
    (hperm.trans (List.perm_insertionSort _ (collectMatches text)).symm)
    (strict l hsorted hl) (strict _ (allMatches_sorted text) ha)

/-- The instance of `no_offset_ties` at `"[DOCTORPROFILE:b|c|d][DOCTOR:a]"`: the
collected matches, reversed, are sorted and equal to `allMatches`. -/
theorem no_offset_ties_witness :
    (collectMatches "[DOCTORPROFILE:b|c|d][DOCTOR:a]".toList).map
        (fun m => (m.type, m.index)) = [(.doctor, 21), (.doctorprofile, 0)] ∧
      (collectMatches "[DOCTORPROFILE:b|c|d][DOCTOR:a]".toList).reverse
        = allMatches "[DOCTORPROFILE:b|c|d][DOCTOR:a]".toList :=
  ⟨by decide,
    (no_offset_ties "[DOCTORPROFILE:b|c|d][DOCTOR:a]".toList).2 _
      (List.reverse_perm _) (by decide)⟩

/-- C29: in a table made from a table block of the segmentation, the headers
are the non-empty cells of the first line of the block: there is at least one,
each is non-empty and is a trimmed piece of that line, so the `Column N` labels
are not used; and a synthesized separator has as many cells as there are
headers, not the default 4. -/
theorem block_headers_from_first_line (content : Str) (tableLines : List Str)
    (headers : List Str) (rows : List (List Str))
    (hmem : TableBlock.table tableLines ∈ segment content)
    (h : renderTable tableLines = .table headers rows) :
    headers = cellsOf (tableLines.getD 0 []) ∧ headers ≠ [] ∧
      (∀ hd ∈ headers, hd ≠ [] ∧
        ∃ piece ∈ splitChar '|' (tableLines.getD 0 []), hd = trim piece) ∧
      (withSeparator tableLines = tableLines ∨
        withSeparator tableLines
          = tableLines.getD 0 [] :: separatorLine headers.length :: tableLines.drop 1) := by
  obtain ⟨hne, hall⟩ := segment_table_mem content tableLines hmem
  obtain ⟨hh, _⟩ := renderTable_eq_table tableLines headers rows h
  rw [withSeparator_head] at hh
  have h0mem : tableLines.getD 0 [] ∈ tableLines := by
    cases tableLines with
    | nil => exact absurd rfl hne
    | cons a as => exact List.mem_cons_self _ _
  have h0 : cellsOf (tableLines.getD 0 []) ≠ [] := (hall _ h0mem).2
  rw [cleanHeaders_of_cells _ h0] at hh
  refine ⟨hh, by rw [hh]; exact h0, fun hd hhd => ?_, ?_⟩
  · rw [hh] at hhd
    exact mem_cellsOf _ _ hhd
  · by_cases hsep : "---".toList <:+: tableLines.getD 1 []
    · exact Or.inl (withSeparator_of_sep tableLines hsep)
    · right
      rw [withSeparator_of_no_sep tableLines hsep, hh,
        if_neg (fun e => h0 (List.length_eq_zero.mp e))]

/-- The instance of `block_headers_from_first_line` at a message whose table
starts after a line without any cell. -/
theorem block_headers_from_first_line_witness :
    segment "||\n| A | B |\n| x | y |\n---".toList
        = [.table ["| A | B |".toList, "| x | y |".toList], .text ["---".toList]] ∧
      renderTable ["| A | B |".toList, "| x | y |".toList]
        = .table ["A".toList, "B".toList] [["x".toList, "y".toList]] ∧
      ["A".toList, "B".toList]
        = cellsOf (["| A | B |".toList, "| x | y |".toList].getD 0 []) :=
  ⟨by decide, rfl,
    (block_headers_from_first_line "||\n| A | B |\n| x | y |\n---".toList
      ["| A | B |".toList, "| x | y |".toList] ["A".toList, "B".toList]
      [["x".toList, "y".toList]] (by decide) rfl).1⟩

/-- C30: every row of a table is a non-empty run of non-empty cells followed by
empty cells only: an empty cell never stands before a non-empty one. -/
theorem rows_left_packed (tableLines : List Str) (headers : List Str)
    (rows : List (List Str)) (h : renderTable tableLines = .table headers rows) :
    ∀ row ∈ rows, ∃ cells k, row = cells ++ List.replicate k [] ∧ cells ≠ [] ∧
      ∀ c ∈ cells, c ≠ [] := by
  obtain ⟨hh, hr⟩ := renderTable_eq_table tableLines headers rows h
  intro row hrow
  rw [hr] at hrow
  obtain ⟨r, hrm, rfl⟩ := List.mem_map.mp hrow
  have hn : 0 < headers.length := by
    rw [hh]
    exact List.length_pos.mpr (cleanHeaders_ne_nil _)
  obtain ⟨l, _, hl⟩ := mem_dataRows _ r hrm
  apply normalizeRow_packed _ r hn (dataRows_ne_nil _ r hrm)
  intro c hc
  rw [hl] at hc
  exact (mem_cellsOf _ _ hc).1

/-- The instance of `rows_left_packed` at a row with an empty interior cell:
`| a | | c |` under three headers gives `a`, `c` and one empty cell. -/
theorem rows_left_packed_witness :
    renderTable ["| h1 | h2 | h3 |".toList, "|---|---|---|".toList, "| a | | c |".toList]
        = .table ["h1".toList, "h2".toList, "h3".toList] [["a".toList, "c".toList, []]] ∧
      ∀ row ∈ [["a".toList, "c".toList, ([] : Str)]], ∃ cells k,
        row = cells ++ List.replicate k [] ∧ cells ≠ [] ∧ ∀ c ∈ cells, c ≠ [] :=
  ⟨rfl, rows_left_packed
    ["| h1 | h2 | h3 |".toList, "|---|---|---|".toList, "| a | | c |".toList]
    ["h1".toList, "h2".toList, "h3".toList] [["a".toList, "c".toList, []]] rfl⟩

end KGHCB
